import Mathlib

/-!
# Logcat to DLT adapter: embedding of `main.cpp`

A shallow embedding of the three algorithmic parts of the adapter:

* `ContextIdEncoder` (short identifier allocation with collision resolution),
* `Metadata` and `parseMetadata` (header line decoding),
* `ParsingContext` and the body of the reading loop of `main` (record assembly and routing).

A `std::string` is a list of characters, `std::size_t` values are natural numbers (every
counter that occurs stays below `26 ^ 4 + 10`, far from wrapping), and a thrown
`std::runtime_error` is the `error` case of `Except`.

The encoder resolves a collision by recursion, three calls deeper for every alternative that
is taken already. Its functions are given twice: as the functions of their arguments, for what
a call returns or throws, and with the depth of the call stack as a parameter (the names that
end in `OnStack`), for whether a call returns at all. The reading loop is given both ways too.
-/

namespace LogcatDlt

/-- A `std::string`, as its sequence of characters. -/
abbrev Str := List Char

/-! ## ContextIdEncoder -/

/-- The member constant `ContextIdEncoder::kLength`. -/
def kLength : Nat := 4

/-- The `while (counter != 0)` loop of `intToOtherBase`; `fuel` bounds the number of
iterations and `extraCode` is the vector filled by `push_back`. -/
def intToOtherBaseLoop (base : Nat) : Nat → Nat → List Nat → List Nat
  | 0, _, extraCode => extraCode
  | fuel + 1, counter, extraCode =>
    if counter ≠ 0 then
      let mod := counter % base
      let div := counter / base
      if div ≠ 0 then intToOtherBaseLoop base fuel div (extraCode ++ [mod])
      else intToOtherBaseLoop base fuel 0 (extraCode ++ [mod])
    else extraCode

/-- The function `ContextIdEncoder::intToOtherBase`: push a `0` for the value zero, run the
loop, reverse. The loop divides `counter` by `base` in every iteration, so for the only base
used (26) `value` iterations are more than enough (`intToOtherBaseLoop_digits`). -/
def intToOtherBase (value base : Nat) : List Nat :=
  let extraCode : List Nat := if value = 0 then [0] else []
  (intToOtherBaseLoop base value value extraCode).reverse

/-- The function `ContextIdEncoder::intToLetter`. -/
def intToLetter (value : Nat) : Str :=
  let beginC := 'A'.toNat
  let endC := 'Z'.toNat
  let base := endC - beginC + 1
  (intToOtherBase value base).map (fun v => Char.ofNat (beginC + v))

/-- The function `ContextIdEncoder::filterName`: the index loop appends every character that
passes the three range tests to `result`. -/
def filterName (line : Str) : Str :=
  line.foldl
    (fun result c =>
      if ('a' ≤ c ∧ c ≤ 'z') ∨ ('A' ≤ c ∧ c ≤ 'Z') ∨ ('0' ≤ c ∧ c ≤ '9') then result ++ [c]
      else result)
    []

/-- The function `ContextIdEncoder::getCounter`; `hash` stands for `std::hash<std::string>`. -/
def getCounter (hash : Str → Nat) (name : Str) : Nat :=
  let str_hash := hash name
  (str_hash % 9) + 1

/-- The function `ContextIdEncoder::isUnique`; `registered` is the member set
`registeredContextIds`. -/
def isUnique (registered : List Str) (ctx_id : Str) : Bool :=
  !(registered.contains ctx_id)

/-- The `counter == 0` part of `encodeContextId` (lines 126 to 134): a name of at most
`kLength` characters is kept, a longer one is sampled at the indices `i * interval`. -/
def shrinkName (name : Str) : Str :=
  if name.length ≤ kLength then name
  else
    let interval := name.length / kLength
    (List.range kLength).foldl
      (fun new_name i => new_name ++ [name.getD (i * interval) default]) []

/-- The two exceptions thrown by `modifyName`. -/
inductive EncodeError where
  | outOfRange
  | negativeLength
  deriving DecidableEq, Repr

deriving instance DecidableEq for Except

/-! Facts on `intToLetter` that the termination argument of the encoder needs. -/

theorem intToOtherBaseLoop_zero (base fuel : Nat) (acc : List Nat) :
    intToOtherBaseLoop base fuel 0 acc = acc := by
  cases fuel <;> simp [intToOtherBaseLoop]

theorem intToOtherBaseLoop_digits (base : Nat) (hb : 2 ≤ base) :
    ∀ (fuel counter : Nat) (acc : List Nat), counter ≤ fuel →
      intToOtherBaseLoop base fuel counter acc = acc ++ Nat.digits base counter := by
  intro fuel
  induction fuel with
  | zero =>
    intro counter acc h
    have : counter = 0 := by omega
    subst this
    simp [intToOtherBaseLoop]
  | succ fuel ih =>
    intro counter acc h
    by_cases hc : counter = 0
    · subst hc
      simp [intToOtherBaseLoop]
    · have hdiv : counter / base < counter := Nat.div_lt_self (by omega) (by omega)
      have hdig : Nat.digits base counter
          = (counter % base) :: Nat.digits base (counter / base) := by
        rw [Nat.digits_def' (by omega) (by omega)]
      by_cases hd : counter / base = 0
      · simp [intToOtherBaseLoop, hc, hd, intToOtherBaseLoop_zero, hdig]
      · simp only [intToOtherBaseLoop, ne_eq, hc, not_false_eq_true, if_true, hd]
        rw [ih (counter / base) _ (by omega), hdig]
        simp

theorem intToOtherBase_eq (value base : Nat) (hb : 2 ≤ base) :
    intToOtherBase value base
      = if value = 0 then [0] else (Nat.digits base value).reverse := by
  unfold intToOtherBase
  by_cases hv : value = 0
  · subst hv; simp [intToOtherBaseLoop]
  · simp [hv, intToOtherBaseLoop_digits base hb value value [] le_rfl]

theorem intToLetter_length (value : Nat) :
    (intToLetter value).length
      = if value = 0 then 1 else (Nat.digits 26 value).length := by
  unfold intToLetter
  have : 'Z'.toNat - 'A'.toNat + 1 = 26 := by decide
  simp only [this, List.length_map, intToOtherBase_eq _ 26 (by omega)]
  split <;> simp

theorem lt_of_fits (c : Nat) (h : (intToLetter c).length ≤ 4) : c < 26 ^ 4 := by
  rw [intToLetter_length] at h
  by_cases hc : c = 0
  · subst hc; norm_num
  · rw [if_neg hc] at h
    calc c < 26 ^ (Nat.digits 26 c).length := Nat.lt_base_pow_length_digits (by omega)
      _ ≤ 26 ^ 4 := Nat.pow_le_pow_right (by omega) h

/-! The three mutually recursive member functions. Every call chain raises the counter, and
`modifyName` throws once the letter code of the counter has more than `kLength` letters, that
is from counter `26 ^ 4` on: the recursion is well founded and the functions are total. They
give what a call returns or throws when its chain of nested calls fits the call stack; what
the depth of the stack changes is in `checkAndEncodeOnStack`, `modifyNameOnStack` and
`encodeContextIdOnStack` below, and `onStack_agrees` links the two. -/

mutual

/-- The function `ContextIdEncoder::checkAndEncode`. -/
def checkAndEncode (hash : Str → Nat) (registered : List Str) (name : Str) (counter : Nat) :
    Except EncodeError Str :=
  if isUnique registered name then .ok name
  else encodeContextId hash registered name (counter + 1)
termination_by 3 * (26 ^ 4 + 1 - (counter + 1)) + 3
decreasing_by
  all_goals simp_wf

/-- The function `ContextIdEncoder::modifyName`. `name_new_length` is the `int` of the source:
the difference of the two sizes, negative when the code is longer than the name. -/
def modifyName (hash : Str → Nat) (registered : List Str) (name : Str) (counter : Nat) :
    Except EncodeError Str :=
  let extra_code := intToLetter counter
  if h1 : name.length + extra_code.length ≤ kLength then
    checkAndEncode hash registered (name ++ extra_code) counter
  else
    if h2 : extra_code.length > kLength then .error .outOfRange
    else
      let name_new_length : Int := (name.length : Int) - (extra_code.length : Int)
      if name_new_length < 0 then .error .negativeLength
      else
        checkAndEncode hash registered (name.take name_new_length.toNat ++ extra_code) counter
termination_by 3 * (26 ^ 4 + 1 - counter) + 1
decreasing_by
  all_goals simp_wf
  · have hl : extra_code.length ≤ 4 := by simp only [kLength] at h1; omega
    have := lt_of_fits counter hl
    omega
  · have hl : extra_code.length ≤ 4 := by simp only [kLength] at h2; omega
    have := lt_of_fits counter hl
    omega

/-- The function `ContextIdEncoder::encodeContextId` (the default argument is `counter = 0`). -/
def encodeContextId (hash : Str → Nat) (registered : List Str) (name : Str) (counter : Nat) :
    Except EncodeError Str :=
  if counter ≠ 0 then modifyName hash registered name counter
  else
    let new_name := shrinkName name
    checkAndEncode hash registered new_name (getCounter hash new_name)
termination_by 3 * (26 ^ 4 + 1 - counter) + 2
decreasing_by
  all_goals simp_wf
  all_goals omega

end

/-- The state of a `ContextIdEncoder` object: the set `registeredContextIds`. -/
structure ContextIdEncoder where
  registeredContextIds : List Str
  deriving DecidableEq, Repr

/-- The call `std::set::emplace`: the element is added unless it is already there. -/
def emplace (s : List Str) (x : Str) : List Str :=
  if s.contains x then s else s ++ [x]

/-- The function `ContextIdEncoder::getContextId`: the identifier and the encoder afterwards,
or the exception that escaped. -/
def getContextId (hash : Str → Nat) (enc : ContextIdEncoder) (name : Str) :
    Except EncodeError (Str × ContextIdEncoder) :=
  let input := filterName name
  let input := if input.isEmpty then ['Z'] else input
  let input := input.map Char.toUpper
  match encodeContextId hash enc.registeredContextIds input 0 with
  | .error e => .error e
  | .ok ctx_id =>
    .ok (ctx_id, { registeredContextIds := emplace enc.registeredContextIds ctx_id })

/-! ## Metadata -/

/-- The log levels of `DltLogLevelType` that the adapter uses. -/
inductive DltLogLevelType where
  | DLT_LOG_FATAL
  | DLT_LOG_ERROR
  | DLT_LOG_WARN
  | DLT_LOG_INFO
  | DLT_LOG_DEBUG
  | DLT_LOG_VERBOSE
  deriving DecidableEq, Repr

open DltLogLevelType

/-- The struct `Metadata::LogContext`. -/
structure LogContext where
  logLevel : DltLogLevelType
  name : Str
  deriving DecidableEq, Repr

/-- The member constant `Metadata::kKeyMinCount`. -/
def kKeyMinCount : Nat := 6

/-- The member constant `Metadata::kContextKey`. -/
def kContextKey : Nat := 4

/-- The member constant `Metadata::kContextMinLength`. -/
def kContextMinLength : Nat := 3

/-- The member constant `Metadata::openToken`. -/
def openToken : Str := "[".toList

/-- The member constant `Metadata::closeToken`. -/
def closeToken : Str := "]".toList

/-- The member map `Metadata::logLevelLiterals`. -/
def logLevelLiterals : List (Str × DltLogLevelType) :=
  [("F".toList, DLT_LOG_FATAL), ("E".toList, DLT_LOG_ERROR), ("W".toList, DLT_LOG_WARN),
   ("I".toList, DLT_LOG_INFO), ("D".toList, DLT_LOG_DEBUG), ("V".toList, DLT_LOG_VERBOSE)]

/-- The struct `Metadata`: the vector `values`. -/
structure Metadata where
  values : List Str
  deriving DecidableEq, Repr

/-- The function `Metadata::isValid`; the conjunction is evaluated left to right, so `front`,
`back` and `at` are reached only on a vector with at least six elements. -/
def Metadata.isValid (m : Metadata) : Bool :=
  decide (m.values.length ≥ kKeyMinCount) && (m.values.head? == some openToken) &&
    (m.values.getLast? == some closeToken) &&
    (match m.values.get? kContextKey with
     | some v => decide (v.length ≥ kContextMinLength)
     | none => false)

/-- The function `Metadata::getLogContext`. The iterator loop runs over the indices from
`kContextKey + 1` up to, and without, the index of the last element. -/
def Metadata.getLogContext (m : Metadata) : LogContext :=
  let result : LogContext := { logLevel := DLT_LOG_FATAL, name := "Broken Context".toList }
  let raw_msg := m.values.getD kContextKey []
  let raw_level := raw_msg.take 1
  match logLevelLiterals.lookup raw_level with
  | none => result
  | some level =>
    let name := raw_msg.drop 2
    let name :=
      if m.values.length > kKeyMinCount then
        (List.range' (kContextKey + 1) (m.values.length - 1 - (kContextKey + 1))).foldl
          (fun name it => name ++ m.values.getD it []) name
      else name
    { logLevel := level, name := name }

/-- The class `std::isspace` of the classic locale, which the regular expression `\s` matches. -/
def isSpace (c : Char) : Bool :=
  c == ' ' || c == '\t' || c == '\n' || c == '\x0b' || c == '\x0c' || c == '\r'

/-- The tokens that `std::sregex_token_iterator` with submatch `-1` yields for `\s+`, read
character by character: `token` is the text since the last separator and `inSeparator` tells
that the previous character belonged to a separator. A separator closes the token before it
(an empty one when the line starts with white space); the text after the last separator is a
token only when it is not empty; a line without separator is one token, also when empty. -/
def tokenizeFrom : Str → Str → Bool → List Str
  | [], token, inSeparator => if inSeparator then [] else [token]
  | c :: rest, token, inSeparator =>
    if isSpace c then
      if inSeparator then tokenizeFrom rest [] true
      else token :: tokenizeFrom rest [] true
    else tokenizeFrom rest (token ++ [c]) false

/-- The token loop of `parseMetadata` (lines 264 to 269). -/
def tokenize (lineInput : Str) : List Str := tokenizeFrom lineInput [] false

/-- The function `parseMetadata`. -/
def parseMetadata (lineInput : Str) : Option Metadata :=
  let metadata : Metadata := { values := tokenize lineInput }
  if metadata.isValid then some metadata else none

/-! ## ParsingContext -/

/-- The enum `ParsingContext::Step`. -/
inductive Step where
  | METADATA
  | MESSAGE
  deriving DecidableEq, Repr

/-- The class `ParsingContext`. -/
structure ParsingContext where
  step_ : Step
  metadata_ : Option Metadata
  message_ : Option Str
  deriving DecidableEq, Repr

namespace ParsingContext

/-- The default constructed object. -/
def init : ParsingContext := { step_ := .METADATA, metadata_ := none, message_ := none }

/-- The function `ParsingContext::reset`. -/
def reset (_pc : ParsingContext) : ParsingContext :=
  { step_ := .METADATA, metadata_ := none, message_ := none }

/-- The function `ParsingContext::step`. -/
def step (pc : ParsingContext) : ParsingContext := { pc with step_ := .MESSAGE }

/-- The function `ParsingContext::setMetadata`. -/
def setMetadata (pc : ParsingContext) (metadata : Metadata) : ParsingContext :=
  { pc with metadata_ := some metadata }

/-- The function `ParsingContext::setMessage`. -/
def setMessage (pc : ParsingContext) (message : Str) : ParsingContext :=
  { pc with message_ := some message }

/-- The function `ParsingContext::isCompleted`. -/
def isCompleted (pc : ParsingContext) : Bool := pc.metadata_.isSome && pc.message_.isSome

/-- The function `ParsingContext::currentStep`. -/
def currentStep (pc : ParsingContext) : Step := pc.step_

/-- The function `ParsingContext::message`, called under `isCompleted` only. -/
def message (pc : ParsingContext) : Str := pc.message_.getD []

/-- The function `ParsingContext::metadata`, called under `isCompleted` only. -/
def metadata (pc : ParsingContext) : Metadata := pc.metadata_.getD { values := [] }

end ParsingContext

/-! ## The reading loop of `main` -/

/-- A `Context` object: the name and the identifier it was registered with. -/
structure Context where
  name : Str
  context_id : Str
  deriving DecidableEq, Repr

/-- What the program hands to the DLT library: `selfLog` is a `g_ctx->log` call,
`registerContext` the `DLT_REGISTER_CONTEXT` of a new entry of `dlt_contexts`, and
`contextLog` the `log` call on an entry of `dlt_contexts` (a routed message). -/
inductive Event where
  | selfLog (logLevel : DltLogLevelType) (input : Str)
  | registerContext (ctx : Context)
  | contextLog (ctx : Context) (logLevel : DltLogLevelType) (input : Str)
  deriving DecidableEq, Repr

/-- The local variables of `main` that live across iterations. -/
structure State where
  parsingContext : ParsingContext
  id_encoder : ContextIdEncoder
  dlt_contexts : List (Str × Context)
  deriving DecidableEq, Repr

/-- The state before the first line is read. -/
def State.init : State :=
  { parsingContext := ParsingContext.init
    id_encoder := { registeredContextIds := [] }
    dlt_contexts := [] }

/-- The result of a piece of `main`: the events in order, and the state afterwards or the
exception that left `main`. -/
structure Outcome where
  events : List Event
  next : Except EncodeError State

/-- The lookup, creation and `log` call of lines 322 to 339, for the state `s` in which the
message has been stored and `isCompleted` holds. -/
def dispatch (hash : Str → Nat) (s : State) : Outcome :=
  let metadata := s.parsingContext.metadata
  let logContext := metadata.getLogContext
  match s.dlt_contexts.lookup logContext.name with
  | some ctx =>
    { events := [Event.contextLog ctx logContext.logLevel s.parsingContext.message]
      next := .ok s }
  | none =>
    match getContextId hash s.id_encoder logContext.name with
    | .error e => { events := [], next := .error e }
    | .ok (ctx_id, id_encoder) =>
      let ctx : Context := { name := logContext.name, context_id := ctx_id }
      { events :=
          [Event.registerContext ctx,
           Event.selfLog DLT_LOG_INFO
             ("Create new DLT Context. ".toList ++ ctx_id ++ " - ".toList ++ logContext.name),
           Event.contextLog ctx logContext.logLevel s.parsingContext.message]
        next := .ok { s with id_encoder := id_encoder
                             dlt_contexts := s.dlt_contexts ++ [(logContext.name, ctx)] } }

/-- The body of the `while (getline(std::cin, lineInput))` loop. The final `else` with its
`throw` has no counterpart: `Step` has the two values tested before it. -/
def processLine (hash : Str → Nat) (s : State) (lineInput : Str) : Outcome :=
  let ev0 := [Event.selfLog DLT_LOG_VERBOSE lineInput]
  if lineInput.length = 0 then
    { events := ev0 ++ [Event.selfLog DLT_LOG_VERBOSE "Null line".toList]
      next := .ok { s with parsingContext := s.parsingContext.reset } }
  else if lineInput = "\n".toList then
    { events := ev0 ++ [Event.selfLog DLT_LOG_VERBOSE "Next line".toList]
      next := .ok { s with parsingContext := s.parsingContext.reset } }
  else
    let ev1 := ev0 ++ [Event.selfLog DLT_LOG_VERBOSE "Valid input line".toList]
    match s.parsingContext.currentStep with
    | .METADATA =>
      let ev2 := ev1 ++ [Event.selfLog DLT_LOG_VERBOSE "ParsingContext::Step::METADATA".toList]
      match parseMetadata lineInput with
      | some metadata =>
        { events := ev2
          next := .ok { s with parsingContext := (s.parsingContext.setMetadata metadata).step } }
      | none =>
        { events := ev2 ++
            [Event.selfLog DLT_LOG_WARN ("Corrupted metadata: ".toList ++ lineInput)]
          next := .ok { s with parsingContext := s.parsingContext.reset } }
    | .MESSAGE =>
      let ev2 :=
        ev1 ++ [Event.selfLog DLT_LOG_VERBOSE "DEBUG: ParsingContext::Step::MESSAGE".toList]
      let s1 : State := { s with parsingContext := s.parsingContext.setMessage lineInput }
      if s1.parsingContext.isCompleted then
        let routed := dispatch hash s1
        match routed.next with
        | .error e => { events := ev2 ++ routed.events, next := .error e }
        | .ok s2 =>
          { events := ev2 ++ routed.events
            next := .ok { s2 with parsingContext := s2.parsingContext.reset } }
      else
        { events := ev2 ++ [Event.selfLog DLT_LOG_WARN "Corrupted parsing context".toList]
          next := .ok { s1 with parsingContext := s1.parsingContext.reset } }

/-- The `while` loop over the lines that `getline` delivers; an exception ends it. -/
def run (hash : Str → Nat) : State → List Str → Outcome
  | s, [] => { events := [], next := .ok s }
  | s, lineInput :: rest =>
    let first := processLine hash s lineInput
    match first.next with
    | .error e => { events := first.events, next := .error e }
    | .ok s1 =>
      let others := run hash s1 rest
      { events := first.events ++ others.events, next := others.next }

/-- The routed messages among the events: context, level and text of every `contextLog`. -/
def routedMessages : List Event → List (Context × DltLogLevelType × Str)
  | [] => []
  | Event.contextLog ctx logLevel input :: rest => (ctx, logLevel, input) :: routedMessages rest
  | _ :: rest => routedMessages rest

/-- The calls of `getContextId` for a sequence of names on one encoder, in order: the
identifiers returned and the encoder afterwards. -/
def allocateAll (hash : Str → Nat) :
    ContextIdEncoder → List Str → Except EncodeError (List Str × ContextIdEncoder)
  | enc, [] => .ok ([], enc)
  | enc, name :: rest =>
    match getContextId hash enc name with
    | .error e => .error e
    | .ok (ctx_id, enc1) =>
      match allocateAll hash enc1 rest with
      | .error e => .error e
      | .ok (ids, enc2) => .ok (ctx_id :: ids, enc2)

/-! ## The program on a call stack of bounded depth

The encoder resolves a collision without a loop: every alternative that is found registered
adds one call of `checkAndEncode`, one of `encodeContextId` and one of `modifyName` to the
chain of calls, and `modifyName` cannot return before the calls it started have (its strings
`extra_code` and `new_name` live until then). The functions above give the value that such a
chain returns; on a machine its depth is limited by the call stack. Here the limit is
explicit: `stack` is the number of nested calls of the three functions that the stack still
holds, every call takes one of them, and a call that finds none left ends the program by
stack overflow (result `none`): nothing is returned and nothing is thrown. How many nested
calls a stack holds depends on the compiled program; what is proved holds for every `stack`. -/

mutual

/-- The function `ContextIdEncoder::checkAndEncode` with `stack` nested calls left. -/
def checkAndEncodeOnStack (hash : Str → Nat) (registered : List Str) :
    Nat → Str → Nat → Option (Except EncodeError Str)
  | 0, _, _ => none
  | stack + 1, name, counter =>
    if isUnique registered name then some (.ok name)
    else encodeContextIdOnStack hash registered stack name (counter + 1)

/-- The function `ContextIdEncoder::modifyName` with `stack` nested calls left. -/
def modifyNameOnStack (hash : Str → Nat) (registered : List Str) :
    Nat → Str → Nat → Option (Except EncodeError Str)
  | 0, _, _ => none
  | stack + 1, name, counter =>
    let extra_code := intToLetter counter
    if name.length + extra_code.length ≤ kLength then
      checkAndEncodeOnStack hash registered stack (name ++ extra_code) counter
    else
      if extra_code.length > kLength then some (.error .outOfRange)
      else
        let name_new_length : Int := (name.length : Int) - (extra_code.length : Int)
        if name_new_length < 0 then some (.error .negativeLength)
        else
          checkAndEncodeOnStack hash registered stack
            (name.take name_new_length.toNat ++ extra_code) counter

/-- The function `ContextIdEncoder::encodeContextId` with `stack` nested calls left. -/
def encodeContextIdOnStack (hash : Str → Nat) (registered : List Str) :
    Nat → Str → Nat → Option (Except EncodeError Str)
  | 0, _, _ => none
  | stack + 1, name, counter =>
    if counter ≠ 0 then modifyNameOnStack hash registered stack name counter
    else
      let new_name := shrinkName name
      checkAndEncodeOnStack hash registered stack new_name (getCounter hash new_name)

end

/-- The function `ContextIdEncoder::getContextId` called with `stack` nested calls left for
the three functions: the identifier and the encoder afterwards, the exception that escaped,
or `none` for a stack overflow. -/
def getContextIdOnStack (hash : Str → Nat) (stack : Nat) (enc : ContextIdEncoder)
    (name : Str) : Option (Except EncodeError (Str × ContextIdEncoder)) :=
  let input := filterName name
  let input := if input.isEmpty then ['Z'] else input
  let input := input.map Char.toUpper
  match encodeContextIdOnStack hash enc.registeredContextIds stack input 0 with
  | none => none
  | some (.error e) => some (.error e)
  | some (.ok ctx_id) =>
    some (.ok (ctx_id, { registeredContextIds := emplace enc.registeredContextIds ctx_id }))

/-- The result of a piece of `main` on a bounded call stack: the events in order, and the
state afterwards, the exception that left `main`, or `none` when the stack overflowed. -/
structure StackOutcome where
  events : List Event
  next : Option (Except EncodeError State)

/-- The lookup, creation and `log` call of lines 322 to 339 on a bounded call stack. -/
def dispatchOnStack (hash : Str → Nat) (stack : Nat) (s : State) : StackOutcome :=
  let metadata := s.parsingContext.metadata
  let logContext := metadata.getLogContext
  match s.dlt_contexts.lookup logContext.name with
  | some ctx =>
    { events := [Event.contextLog ctx logContext.logLevel s.parsingContext.message]
      next := some (.ok s) }
  | none =>
    match getContextIdOnStack hash stack s.id_encoder logContext.name with
    | none => { events := [], next := none }
    | some (.error e) => { events := [], next := some (.error e) }
    | some (.ok (ctx_id, id_encoder)) =>
      let ctx : Context := { name := logContext.name, context_id := ctx_id }
      { events :=
          [Event.registerContext ctx,
           Event.selfLog DLT_LOG_INFO
             ("Create new DLT Context. ".toList ++ ctx_id ++ " - ".toList ++ logContext.name),
           Event.contextLog ctx logContext.logLevel s.parsingContext.message]
        next := some (.ok { s with id_encoder := id_encoder
                                   dlt_contexts := s.dlt_contexts ++ [(logContext.name, ctx)] }) }

/-- The body of the `while (getline(std::cin, lineInput))` loop on a bounded call stack. -/
def processLineOnStack (hash : Str → Nat) (stack : Nat) (s : State) (lineInput : Str) :
    StackOutcome :=
  let ev0 := [Event.selfLog DLT_LOG_VERBOSE lineInput]
  if lineInput.length = 0 then
    { events := ev0 ++ [Event.selfLog DLT_LOG_VERBOSE "Null line".toList]
      next := some (.ok { s with parsingContext := s.parsingContext.reset }) }
  else if lineInput = "\n".toList then
    { events := ev0 ++ [Event.selfLog DLT_LOG_VERBOSE "Next line".toList]
      next := some (.ok { s with parsingContext := s.parsingContext.reset }) }
  else
    let ev1 := ev0 ++ [Event.selfLog DLT_LOG_VERBOSE "Valid input line".toList]
    match s.parsingContext.currentStep with
    | .METADATA =>
      let ev2 := ev1 ++ [Event.selfLog DLT_LOG_VERBOSE "ParsingContext::Step::METADATA".toList]
      match parseMetadata lineInput with
      | some metadata =>
        { events := ev2
          next :=
            some (.ok { s with parsingContext := (s.parsingContext.setMetadata metadata).step }) }
      | none =>
        { events := ev2 ++
            [Event.selfLog DLT_LOG_WARN ("Corrupted metadata: ".toList ++ lineInput)]
          next := some (.ok { s with parsingContext := s.parsingContext.reset }) }
    | .MESSAGE =>
      let ev2 :=
        ev1 ++ [Event.selfLog DLT_LOG_VERBOSE "DEBUG: ParsingContext::Step::MESSAGE".toList]
      let s1 : State := { s with parsingContext := s.parsingContext.setMessage lineInput }
      if s1.parsingContext.isCompleted then
        let routed := dispatchOnStack hash stack s1
        match routed.next with
        | none => { events := ev2 ++ routed.events, next := none }
        | some (.error e) => { events := ev2 ++ routed.events, next := some (.error e) }
        | some (.ok s2) =>
          { events := ev2 ++ routed.events
            next := some (.ok { s2 with parsingContext := s2.parsingContext.reset }) }
      else
        { events := ev2 ++ [Event.selfLog DLT_LOG_WARN "Corrupted parsing context".toList]
          next := some (.ok { s1 with parsingContext := s1.parsingContext.reset }) }

/-- The `while` loop on a bounded call stack; an exception or a stack overflow ends it. -/
def runOnStack (hash : Str → Nat) (stack : Nat) : State → List Str → StackOutcome
  | s, [] => { events := [], next := some (.ok s) }
  | s, lineInput :: rest =>
    let first := processLineOnStack hash stack s lineInput
    match first.next with
    | none => { events := first.events, next := none }
    | some (.error e) => { events := first.events, next := some (.error e) }
    | some (.ok s1) =>
      let others := runOnStack hash stack s1 rest
      { events := first.events ++ others.events, next := others.next }

/-! ## Predicates on states -/

/-- Every entry of `dlt_contexts` was created for the name it is stored under. -/
def NamesMatch (contexts : List (Str × Context)) : Prop :=
  ∀ p ∈ contexts, p.2.name = p.1

/-- The states the program can be in: those that `run` reaches from the initial state. -/
def Reachable (hash : Str → Nat) (s : State) : Prop :=
  ∃ lines, (run hash State.init lines).next = .ok s

/-- The states the program can be in on a call stack of depth `stack`: those that
`runOnStack` reaches from the initial state. -/
def ReachableOnStack (hash : Str → Nat) (stack : Nat) (s : State) : Prop :=
  ∃ lines, (runOnStack hash stack State.init lines).next = some (.ok s)

/-- What holds between two lines: no message is stored, metadata is stored exactly in step
`MESSAGE`, and every context is stored under its own name. -/
def Consistent (s : State) : Prop :=
  s.parsingContext.message_ = none
    ∧ (s.parsingContext.step_ = .METADATA → s.parsingContext.metadata_ = none)
    ∧ (s.parsingContext.step_ = .MESSAGE → s.parsingContext.metadata_.isSome = true)
    ∧ NamesMatch s.dlt_contexts

/-! ## Notions of the specification -/

/-- The initial candidate of a name: the name sanitized, `Z` when that is empty, in upper
case, shrunk by stride when longer than `kLength`. It is the first name that `getContextId`
has checked by `isUnique` (`getContextId_eq`). -/
def initialCandidate (name : Str) : Str :=
  shrinkName ((if (filterName name).isEmpty then ['Z'] else filterName name).map Char.toUpper)

/-- The alternative that the specification gives for the candidate `c` and the counter `k`:
the prefix of `c` of length `min |c| (4 - |intToLetter k|)` followed by `intToLetter k`. -/
def alternative (c : Str) (k : Nat) : Str :=
  c.take (min c.length (4 - (intToLetter k).length)) ++ intToLetter k

/-- The value of a string read as a numeral in base 26, most significant digit first, with
the digits `A = 0`, ..., `Z = 25`. -/
def letterValue (s : Str) : Nat :=
  s.foldl (fun acc c => acc * 26 + (c.toNat - 'A'.toNat)) 0

/-- An ASCII letter (`a` to `z`, `A` to `Z`) or a digit (`0` to `9`). -/
def isLetterOrDigit (c : Char) : Bool :=
  decide (('a' ≤ c ∧ c ≤ 'z') ∨ ('A' ≤ c ∧ c ≤ 'Z') ∨ ('0' ≤ c ∧ c ≤ '9'))

/-- An upper case ASCII letter or a digit. -/
def isUpperOrDigit (c : Char) : Bool :=
  decide (('A' ≤ c ∧ c ≤ 'Z') ∨ ('0' ≤ c ∧ c ≤ '9'))

/-! ## Notions of the proofs -/

/-- The name that `modifyName` builds from `name` and `counter` on the two paths that do not
throw (lines 101 to 115). -/
def newName (name : Str) (counter : Nat) : Str :=
  if name.length + (intToLetter counter).length ≤ 4 then name ++ intToLetter counter
  else name.take (name.length - (intToLetter counter).length) ++ intToLetter counter

/-- What the names have in common that `getContextId` hands to `modifyName`: between 1 and 4
characters, and a name shorter than 4 comes with a counter that stays below 26 until the
name has 4 characters. -/
def Grows (name : Str) (counter : Nat) : Prop :=
  1 ≤ name.length ∧ name.length ≤ 4 ∧ (name.length < 4 → counter + (3 - name.length) < 26)

/-! ## Inputs of the examples -/

/-- A hash function for examples: every string has the hash 0. -/
def zeroHash : Str → Nat := fun _ => 0

/-- The header line of a record whose name is the letter code of `k`. -/
def recordHeader (k : Nat) : Str := "[ 1 2 3 E/".toList ++ intToLetter k ++ " ]".toList

/-- The lines of `n` records, each a header followed by the message `m`, named by the letter
codes of `26 ^ 3`, `26 ^ 3 + 1`, ... (the strings of four letters from `BAAA` on). -/
def fillLines (n : Nat) : List Str :=
  (List.range n).flatMap (fun i => [recordHeader (26 ^ 3 + i), "m".toList])

/-- The state after the lines `fillLines n`: each name is registered as its own identifier
and has its context. -/
def filledState (n : Nat) : State :=
  { parsingContext := ParsingContext.init
    id_encoder :=
      { registeredContextIds := (List.range n).map (fun i => intToLetter (26 ^ 3 + i)) }
    dlt_contexts :=
      (List.range n).map (fun i =>
        (intToLetter (26 ^ 3 + i),
          { name := intToLetter (26 ^ 3 + i), context_id := intToLetter (26 ^ 3 + i) })) }

/-! ## Unfolding the encoder -/

theorem checkAndEncode_eq (hash : Str → Nat) (registered : List Str) (name : Str)
    (counter : Nat) :
    checkAndEncode hash registered name counter
      = if isUnique registered name then .ok name
        else modifyName hash registered name (counter + 1) := by
  rw [checkAndEncode, encodeContextId]
  simp

theorem encodeContextId_zero (hash : Str → Nat) (registered : List Str) (name : Str) :
    encodeContextId hash registered name 0
      = checkAndEncode hash registered (shrinkName name) (getCounter hash (shrinkName name)) := by
  rw [encodeContextId]
  simp

theorem modifyName_eq (hash : Str → Nat) (registered : List Str) (name : Str) (counter : Nat) :
    modifyName hash registered name counter
      = if name.length + (intToLetter counter).length ≤ 4 then
          checkAndEncode hash registered (name ++ intToLetter counter) counter
        else if 4 < (intToLetter counter).length then .error .outOfRange
        else if name.length < (intToLetter counter).length then .error .negativeLength
        else
          checkAndEncode hash registered
            (name.take (name.length - (intToLetter counter).length) ++ intToLetter counter)
            counter := by
  rw [modifyName]
  simp only [dite_eq_ite, kLength, gt_iff_lt]
  have h1 : ((name.length : Int) - ((intToLetter counter).length : Int) < 0)
      ↔ name.length < (intToLetter counter).length := by omega
  have h2 : ((name.length : Int) - ((intToLetter counter).length : Int)).toNat
      = name.length - (intToLetter counter).length := by omega
  simp only [h1, h2]

theorem getContextId_eq (hash : Str → Nat) (enc : ContextIdEncoder) (name : Str) :
    getContextId hash enc name
      = match checkAndEncode hash enc.registeredContextIds
            (shrinkName ((if (filterName name).isEmpty then ['Z'] else filterName name).map
              Char.toUpper))
            (getCounter hash
              (shrinkName ((if (filterName name).isEmpty then ['Z'] else filterName name).map
                Char.toUpper))) with
        | .error e => .error e
        | .ok ctx_id =>
          .ok (ctx_id, { registeredContextIds := emplace enc.registeredContextIds ctx_id }) := by
  simp only [getContextId, encodeContextId_zero]

theorem mem_emplace (s : List Str) (x : Str) : x ∈ emplace s x := by
  unfold emplace
  split
  · rename_i h
    simpa using h
  · simp

theorem mem_emplace_iff (s : List Str) (x y : Str) : y ∈ emplace s x ↔ y ∈ s ∨ y = x := by
  unfold emplace
  split
  · rename_i h
    have hx : x ∈ s := by simpa using h
    constructor
    · intro hy; exact Or.inl hy
    · rintro (hy | rfl)
      · exact hy
      · exact hx
  · simp

theorem isUnique_iff (registered : List Str) (ctx_id : Str) :
    isUnique registered ctx_id = true ↔ ctx_id ∉ registered := by
  simp [isUnique]

/-- Downward induction on the counter: from `26 ^ 4` on `modifyName` throws, below it calls
itself at most with the next counter. -/
theorem counter_induction (P : Nat → Prop) (hbig : ∀ c, 26 ^ 4 ≤ c → P c)
    (hstep : ∀ c, c < 26 ^ 4 → P (c + 1) → P c) : ∀ c, P c := by
  have key : ∀ n c, 26 ^ 4 - c = n → P c := by
    intro n
    induction n with
    | zero => intro c h; exact hbig c (by omega)
    | succ n ih => intro c h; exact hstep c (by omega) (ih (c + 1) (by omega))
  intro c
  exact key _ c rfl

theorem intToLetter_length_big (c : Nat) (h : 26 ^ 4 ≤ c) : 4 < (intToLetter c).length := by
  by_contra hc
  have := lt_of_fits c (by omega)
  omega

/-- An invariant `Q` of the names that `modifyName` builds holds for the identifier it
returns, and that identifier passed `isUnique`. -/
theorem modifyName_invariant (hash : Str → Nat) (registered : List Str) (Q : Str → Prop)
    (happ : ∀ name c, Q name → name.length + (intToLetter c).length ≤ 4 →
      Q (name ++ intToLetter c))
    (hcut : ∀ name c, Q name → ¬ name.length + (intToLetter c).length ≤ 4 →
      (intToLetter c).length ≤ 4 → (intToLetter c).length ≤ name.length →
      Q (name.take (name.length - (intToLetter c).length) ++ intToLetter c)) :
    ∀ c name id, Q name → modifyName hash registered name c = .ok id →
      Q id ∧ id ∉ registered := by
  intro c
  induction c using counter_induction with
  | hbig c hc =>
    intro name id _ h
    have hlen := intToLetter_length_big c hc
    rw [modifyName_eq, if_neg (by omega), if_pos hlen] at h
    cases h
  | hstep c _ ih =>
    intro name id hQ h
    rw [modifyName_eq] at h
    have hchk : ∀ new_name, Q new_name →
        checkAndEncode hash registered new_name c = .ok id → Q id ∧ id ∉ registered := by
      intro new_name hnew hc
      rw [checkAndEncode_eq] at hc
      split at hc
      · rename_i hu
        cases hc
        exact ⟨hnew, (isUnique_iff _ _).1 hu⟩
      · exact ih new_name id hnew hc
    split at h
    · rename_i h1
      exact hchk _ (happ name c hQ h1) h
    · rename_i h1
      split at h
      · cases h
      · rename_i h2
        split at h
        · cases h
        · rename_i h3
          exact hchk _ (hcut name c hQ h1 (by omega) (by omega)) h

theorem checkAndEncode_invariant (hash : Str → Nat) (registered : List Str) (Q : Str → Prop)
    (happ : ∀ name c, Q name → name.length + (intToLetter c).length ≤ 4 →
      Q (name ++ intToLetter c))
    (hcut : ∀ name c, Q name → ¬ name.length + (intToLetter c).length ≤ 4 →
      (intToLetter c).length ≤ 4 → (intToLetter c).length ≤ name.length →
      Q (name.take (name.length - (intToLetter c).length) ++ intToLetter c))
    (c : Nat) (name id : Str) (hQ : Q name)
    (h : checkAndEncode hash registered name c = .ok id) : Q id ∧ id ∉ registered := by
  rw [checkAndEncode_eq] at h
  split at h
  · rename_i hu
    cases h
    exact ⟨hQ, (isUnique_iff _ _).1 hu⟩
  · exact modifyName_invariant hash registered Q happ hcut (c + 1) name id hQ h

/-- What `getContextId` returns passed `isUnique`, and the encoder afterwards holds the set
before the call with the identifier emplaced. -/
theorem getContextId_ok (hash : Str → Nat) (enc enc1 : ContextIdEncoder) (name id : Str)
    (h : getContextId hash enc name = .ok (id, enc1)) :
    id ∉ enc.registeredContextIds
      ∧ enc1.registeredContextIds = emplace enc.registeredContextIds id := by
  rw [getContextId_eq] at h
  split at h
  · cases h
  · rename_i ctx_id hc
    have := checkAndEncode_invariant hash enc.registeredContextIds (fun _ => True)
      (fun _ _ _ _ => trivial) (fun _ _ _ _ _ _ => trivial) _ _ _ trivial hc
    simp only [Except.ok.injEq, Prod.mk.injEq] at h
    obtain ⟨h1, h2⟩ := h
    subst h1
    exact ⟨this.2, by rw [← h2]⟩

theorem allocateAll_ok (hash : Str → Nat) :
    ∀ (names : List Str) (enc enc1 : ContextIdEncoder) (ids : List Str),
      allocateAll hash enc names = .ok (ids, enc1) →
      ids.Pairwise (fun a b => a ≠ b) ∧ (∀ id ∈ ids, id ∉ enc.registeredContextIds)
        ∧ (∀ id, id ∈ enc1.registeredContextIds ↔ id ∈ enc.registeredContextIds ∨ id ∈ ids) := by
  intro names
  induction names with
  | nil =>
    intro enc enc1 ids h
    simp only [allocateAll, Except.ok.injEq, Prod.mk.injEq] at h
    obtain ⟨rfl, rfl⟩ := h
    simp
  | cons name rest ih =>
    intro enc enc1 ids h
    simp only [allocateAll] at h
    split at h
    · cases h
    · rename_i ctx_id enc2 hfirst
      split at h
      · cases h
      · rename_i ids2 enc3 hrest
        simp only [Except.ok.injEq, Prod.mk.injEq] at h
        obtain ⟨rfl, rfl⟩ := h
        obtain ⟨hnew, hset⟩ := getContextId_ok hash enc enc2 name ctx_id hfirst
        obtain ⟨hpair, hfresh, hmem⟩ := ih enc2 enc3 ids2 hrest
        have hin : ctx_id ∈ enc2.registeredContextIds := by
          rw [hset]; exact mem_emplace _ _
        refine ⟨?_, ?_, ?_⟩
        · rw [List.pairwise_cons]
          refine ⟨?_, hpair⟩
          intro b hb hEq
          exact hfresh b hb (hEq ▸ hin)
        · intro id hid
          rcases List.mem_cons.1 hid with rfl | hid
          · exact hnew
          · intro hold
            apply hfresh id hid
            rw [hset, mem_emplace_iff]
            exact Or.inl hold
        · intro id
          rw [hmem, hset, mem_emplace_iff, List.mem_cons]
          tauto

/-! ## Allocation of identifiers -/

/-- C1: every identifier that `getContextId` returns is outside the registered set before the
call and inside it afterwards, and the identifiers returned for any sequence of names
allocated in order on an encoder that starts empty (for any hash function, whenever all
calls return) are pairwise distinct. -/
theorem C1_identifiers_pairwise_distinct :
    (∀ (hash : Str → Nat) (enc enc1 : ContextIdEncoder) (name id : Str),
      getContextId hash enc name = .ok (id, enc1) →
        id ∉ enc.registeredContextIds ∧ id ∈ enc1.registeredContextIds)
    ∧ (∀ (hash : Str → Nat) (names ids : List Str) (enc1 : ContextIdEncoder),
      allocateAll hash { registeredContextIds := [] } names = .ok (ids, enc1) →
        ids.Pairwise (fun a b => a ≠ b)) := by
  constructor
  · intro hash enc enc1 name id h
    obtain ⟨hnew, hset⟩ := getContextId_ok hash enc enc1 name id h
    exact ⟨hnew, by rw [hset]; exact mem_emplace _ _⟩
  · intro hash names ids enc1 h
    exact (allocateAll_ok hash names _ enc1 ids h).1

theorem allocateAll_cons_ok (hash : Str → Nat) (enc enc1 enc2 : ContextIdEncoder)
    (name id : Str) (rest ids : List Str)
    (h1 : getContextId hash enc name = .ok (id, enc1))
    (h2 : allocateAll hash enc1 rest = .ok (ids, enc2)) :
    allocateAll hash enc (name :: rest) = .ok (id :: ids, enc2) := by
  rw [allocateAll, h1]
  simp only []
  rw [h2]

/-- C1, witness: three allocations with the constant hash `0`, the same name twice and a
third name with the same shrink result `ABCD`, return `ABCD`, `ABCC` and `ABCE`. -/
theorem C1_identifiers_pairwise_distinct_witness :
    allocateAll (fun _ => 0) { registeredContextIds := [] }
        ["abcd".toList, "abcd".toList, "aXbXcXdX".toList]
      = .ok (["ABCD".toList, "ABCC".toList, "ABCE".toList],
          { registeredContextIds := ["ABCD".toList, "ABCC".toList, "ABCE".toList] })
    ∧ ["ABCD".toList, "ABCC".toList, "ABCE".toList].Pairwise (fun a b => a ≠ b) := by
  have e1 : getContextId (fun _ => 0) { registeredContextIds := [] } "abcd".toList
      = .ok ("ABCD".toList, { registeredContextIds := ["ABCD".toList] }) := by
    rw [getContextId_eq, checkAndEncode_eq, if_pos (by decide)]
    decide
  have e2 : getContextId (fun _ => 0) { registeredContextIds := ["ABCD".toList] } "abcd".toList
      = .ok ("ABCC".toList, { registeredContextIds := ["ABCD".toList, "ABCC".toList] }) := by
    rw [getContextId_eq, checkAndEncode_eq, if_neg (by decide),
      modifyName_eq, if_neg (by decide), if_neg (by decide), if_neg (by decide),
      checkAndEncode_eq, if_pos (by decide)]
    decide
  have e3 : getContextId (fun _ => 0)
        { registeredContextIds := ["ABCD".toList, "ABCC".toList] } "aXbXcXdX".toList
      = .ok ("ABCE".toList,
          { registeredContextIds := ["ABCD".toList, "ABCC".toList, "ABCE".toList] }) := by
    rw [getContextId_eq, checkAndEncode_eq, if_neg (by decide),
      modifyName_eq, if_neg (by decide), if_neg (by decide), if_neg (by decide),
      checkAndEncode_eq, if_neg (by decide),
      modifyName_eq, if_neg (by decide), if_neg (by decide), if_neg (by decide),
      checkAndEncode_eq, if_neg (by decide),
      modifyName_eq, if_neg (by decide), if_neg (by decide), if_neg (by decide),
      checkAndEncode_eq, if_pos (by decide)]
    decide
  have hrun := allocateAll_cons_ok _ _ _ _ _ _ _ _ e1
    (allocateAll_cons_ok _ _ _ _ _ _ _ _ e2 (allocateAll_cons_ok _ _ _ _ _ _ [] [] e3 rfl))
  exact ⟨hrun, C1_identifiers_pairwise_distinct.2 _ _ _ _ hrun⟩

theorem shrinkName_short (name : Str) (h : name.length ≤ 4) : shrinkName name = name := by
  simp [shrinkName, kLength, h]

theorem shrinkName_long (name : Str) (h : 4 < name.length) :
    shrinkName name
      = [name.getD 0 default, name.getD (1 * (name.length / 4)) default,
          name.getD (2 * (name.length / 4)) default,
          name.getD (3 * (name.length / 4)) default] := by
  have h4 : ¬ name.length ≤ kLength := by simp only [kLength]; omega
  rw [shrinkName, if_neg h4]
  simp [kLength, List.range_succ]

theorem shrinkName_length (name : Str) :
    (shrinkName name).length = min name.length 4 := by
  by_cases h : name.length ≤ 4
  · rw [shrinkName_short name h]; omega
  · rw [shrinkName_long name (by omega)]
    simp only [List.length_cons, List.length_nil]
    omega

/-- The length of an identifier that `checkAndEncode` returns lies between the length of
the name it was given and `kLength`. -/
theorem checkAndEncode_length (hash : Str → Nat) (registered : List Str) (c : Nat)
    (name id : Str) (hlen : name.length ≤ 4)
    (h : checkAndEncode hash registered name c = .ok id) :
    name.length ≤ id.length ∧ id.length ≤ 4 := by
  refine (checkAndEncode_invariant hash registered
    (fun s => name.length ≤ s.length ∧ s.length ≤ 4) ?_ ?_ c name id ⟨le_rfl, hlen⟩ h).1
  · intro s k hs hfit
    simp only [List.length_append]
    omega
  · intro s k hs _ _ hle
    simp only [List.length_append, List.length_take]
    omega

/-- The candidate that `getContextId` hands to `encodeContextId`: the filtered name, `Z` when
that is empty, in upper case. -/
theorem candidate_length (name : Str) :
    ((if (filterName name).isEmpty then ['Z'] else filterName name).map Char.toUpper).length
      = max 1 (filterName name).length := by
  cases hf : filterName name with
  | nil => simp
  | cons a l => simp

/-- C2, as the code has it: an identifier returned by `getContextId` has exactly 4 characters
when the sanitized name has at least 4, and otherwise between `max 1 k` and 4 characters,
`k` being the length of the sanitized name. -/
theorem C2_identifier_length (hash : Str → Nat) (enc enc1 : ContextIdEncoder) (name id : Str)
    (h : getContextId hash enc name = .ok (id, enc1)) :
    (4 ≤ (filterName name).length → id.length = 4)
      ∧ ((filterName name).length < 4 →
          max 1 (filterName name).length ≤ id.length ∧ id.length ≤ 4) := by
  rw [getContextId_eq] at h
  split at h
  · cases h
  · rename_i ctx_id hc
    simp only [Except.ok.injEq, Prod.mk.injEq] at h
    obtain ⟨rfl, -⟩ := h
    have hcand := candidate_length name
    have hshr := shrinkName_length
      ((if (filterName name).isEmpty then ['Z'] else filterName name).map Char.toUpper)
    have := checkAndEncode_length hash _ _ _ _ (by rw [hshr]; omega) hc
    rw [hshr, hcand] at this
    constructor
    · intro h4; omega
    · intro h4; omega

/-- C2, witness: with `ABCD` registered, the name `abcd` of four sanitized characters gets
`ABCC`, of length 4. -/
theorem C2_identifier_length_witness :
    getContextId (fun _ => 0) { registeredContextIds := ["ABCD".toList] } "abcd".toList
        = .ok ("ABCC".toList, { registeredContextIds := ["ABCD".toList, "ABCC".toList] })
      ∧ ("ABCC".toList).length = 4 := by
  have heval : getContextId (fun _ => 0) { registeredContextIds := ["ABCD".toList] }
      "abcd".toList
        = .ok ("ABCC".toList, { registeredContextIds := ["ABCD".toList, "ABCC".toList] }) := by
    rw [getContextId_eq, checkAndEncode_eq, if_neg (by decide),
      modifyName_eq, if_neg (by decide), if_neg (by decide), if_neg (by decide),
      checkAndEncode_eq, if_pos (by decide)]
    decide
  exact ⟨heval, (C2_identifier_length _ _ _ _ _ heval).1 (by decide)⟩

/-- C2, counterexample: on an empty registered set the name `ab` gets the identifier `AB` of
length 2, and the empty name gets `Z` of length 1. -/
theorem C2_length_four_counterexample :
    (getContextId (fun _ => 0) { registeredContextIds := [] } "ab".toList
        = .ok ("AB".toList, { registeredContextIds := ["AB".toList] })
      ∧ ("AB".toList).length ≠ 4)
    ∧ (getContextId (fun _ => 0) { registeredContextIds := [] } []
        = .ok ("Z".toList, { registeredContextIds := ["Z".toList] })
      ∧ ("Z".toList).length ≠ 4) := by
  refine ⟨⟨?_, by decide⟩, ⟨?_, by decide⟩⟩
  · rw [getContextId_eq, checkAndEncode_eq, if_pos (by decide)]
    decide
  · rw [getContextId_eq, checkAndEncode_eq, if_pos (by decide)]
    decide

/-! ## Routing -/

theorem dispatch_known (hash : Str → Nat) (s : State) (ctx : Context)
    (h : s.dlt_contexts.lookup s.parsingContext.metadata.getLogContext.name = some ctx) :
    (dispatch hash s).events
        = [Event.contextLog ctx s.parsingContext.metadata.getLogContext.logLevel
            s.parsingContext.message]
      ∧ (dispatch hash s).next = .ok s := by
  simp only [dispatch, h, and_self]

theorem dispatch_new (hash : Str → Nat) (s : State) (ctx_id : Str) (enc : ContextIdEncoder)
    (h : s.dlt_contexts.lookup s.parsingContext.metadata.getLogContext.name = none)
    (hid : getContextId hash s.id_encoder s.parsingContext.metadata.getLogContext.name
      = .ok (ctx_id, enc)) :
    (dispatch hash s).events
        = [Event.registerContext
            { name := s.parsingContext.metadata.getLogContext.name, context_id := ctx_id },
           Event.selfLog DLT_LOG_INFO
             ("Create new DLT Context. ".toList ++ ctx_id ++ " - ".toList
               ++ s.parsingContext.metadata.getLogContext.name),
           Event.contextLog
            { name := s.parsingContext.metadata.getLogContext.name, context_id := ctx_id }
            s.parsingContext.metadata.getLogContext.logLevel s.parsingContext.message]
      ∧ (dispatch hash s).next
        = .ok { s with
            id_encoder := enc
            dlt_contexts := s.dlt_contexts ++
              [(s.parsingContext.metadata.getLogContext.name,
                { name := s.parsingContext.metadata.getLogContext.name,
                  context_id := ctx_id })] } := by
  simp only [dispatch, h, hid, and_self]

theorem dispatch_error (hash : Str → Nat) (s : State) (e : EncodeError)
    (h : s.dlt_contexts.lookup s.parsingContext.metadata.getLogContext.name = none)
    (hid : getContextId hash s.id_encoder s.parsingContext.metadata.getLogContext.name
      = .error e) :
    (dispatch hash s).events = [] ∧ (dispatch hash s).next = .error e := by
  simp only [dispatch, h, hid, and_self]

theorem lookup_mem (contexts : List (Str × Context)) (name : Str) (ctx : Context)
    (h : contexts.lookup name = some ctx) : (name, ctx) ∈ contexts := by
  obtain ⟨l1, l2, rfl, -⟩ := List.lookup_eq_some_iff.1 h
  simp

/-- After a `dispatch` that returned, the name of the record has an entry in `dlt_contexts`,
the only routed message is the `log` call on that entry, and the parsing context is
untouched. -/
theorem dispatch_ok (hash : Str → Nat) (s s1 : State) (h : (dispatch hash s).next = .ok s1) :
    ∃ ctx, s1.dlt_contexts.lookup s.parsingContext.metadata.getLogContext.name = some ctx
      ∧ routedMessages (dispatch hash s).events
        = [(ctx, s.parsingContext.metadata.getLogContext.logLevel, s.parsingContext.message)]
      ∧ s1.parsingContext = s.parsingContext
      ∧ (NamesMatch s.dlt_contexts → NamesMatch s1.dlt_contexts) := by
  cases hl : s.dlt_contexts.lookup s.parsingContext.metadata.getLogContext.name with
  | some ctx =>
    obtain ⟨hev, hnext⟩ := dispatch_known hash s ctx hl
    rw [hnext] at h
    cases h
    refine ⟨ctx, hl, ?_, rfl, id⟩
    rw [hev]
    rfl
  | none =>
    cases hid : getContextId hash s.id_encoder s.parsingContext.metadata.getLogContext.name with
    | error e =>
      rw [(dispatch_error hash s e hl hid).2] at h
      cases h
    | ok r =>
      obtain ⟨ctx_id, enc⟩ := r
      obtain ⟨hev, hnext⟩ := dispatch_new hash s ctx_id enc hl hid
      rw [hnext] at h
      cases h
      refine ⟨{ name := s.parsingContext.metadata.getLogContext.name, context_id := ctx_id },
        ?_, ?_, rfl, ?_⟩
      · simp only [List.lookup_append, hl, Option.or]
        simp
      · rw [hev]
        rfl
      · intro hwf p hp
        rcases List.mem_append.1 hp with hp | hp
        · exact hwf p hp
        · rw [List.mem_singleton] at hp
          subst hp
          rfl

/-- C3: once a record for a name has been routed, routing a second record (any level and
text) for the same name emits exactly one `log` call, on the context found for the name after
the first routing, which is the one the first message was logged on, and leaves the encoder
set and the map of contexts as they were. -/
theorem C3_second_routing_reuses_context (hash : Str → Nat) (s s1 : State)
    (pc2 : ParsingContext)
    (hfirst : (dispatch hash s).next = .ok s1)
    (hname : pc2.metadata.getLogContext.name = s.parsingContext.metadata.getLogContext.name) :
    ∃ ctx,
      routedMessages (dispatch hash s).events
        = [(ctx, s.parsingContext.metadata.getLogContext.logLevel, s.parsingContext.message)]
      ∧ s1.dlt_contexts.lookup s.parsingContext.metadata.getLogContext.name = some ctx
      ∧ (dispatch hash { s1 with parsingContext := pc2 }).events
        = [Event.contextLog ctx pc2.metadata.getLogContext.logLevel pc2.message]
      ∧ (dispatch hash { s1 with parsingContext := pc2 }).next
        = .ok { s1 with parsingContext := pc2 } := by
  obtain ⟨ctx, hl, hev, -, -⟩ := dispatch_ok hash s s1 hfirst
  refine ⟨ctx, hev, hl, ?_⟩
  exact dispatch_known hash { s1 with parsingContext := pc2 } ctx (by rw [hname]; exact hl)

/-- C3, witness: on the initial registry a record of `E/WifiVendorHal` creates the context
`WINR`; a second record of the same name (here at another level) is logged on `WINR` and
leaves the registry as it is. -/
theorem C3_second_routing_reuses_context_witness :
    (dispatch (fun _ => 0)
        { parsingContext :=
            { step_ := .MESSAGE
              metadata_ := parseMetadata "[ 6252.287 443: 530 E/WifiVendorHal ]".toList
              message_ := some "first".toList }
          id_encoder := { registeredContextIds := [] }
          dlt_contexts := [] }).next
      = .ok
        { parsingContext :=
            { step_ := .MESSAGE
              metadata_ := parseMetadata "[ 6252.287 443: 530 E/WifiVendorHal ]".toList
              message_ := some "first".toList }
          id_encoder := { registeredContextIds := ["WINR".toList] }
          dlt_contexts :=
            [("WifiVendorHal".toList,
              { name := "WifiVendorHal".toList, context_id := "WINR".toList })] }
    ∧ (dispatch (fun _ => 0)
        { parsingContext :=
            { step_ := .MESSAGE
              metadata_ := parseMetadata "[ 6300.001 443: 530 W/WifiVendorHal ]".toList
              message_ := some "second".toList }
          id_encoder := { registeredContextIds := ["WINR".toList] }
          dlt_contexts :=
            [("WifiVendorHal".toList,
              { name := "WifiVendorHal".toList, context_id := "WINR".toList })] }).events
      = [Event.contextLog { name := "WifiVendorHal".toList, context_id := "WINR".toList }
          DLT_LOG_WARN "second".toList] := by
  have hid : getContextId (fun _ => 0) { registeredContextIds := [] } "WifiVendorHal".toList
      = .ok ("WINR".toList, { registeredContextIds := ["WINR".toList] }) := by
    rw [getContextId_eq, checkAndEncode_eq, if_pos (by decide)]
    decide
  have hfirst := (dispatch_new (fun _ => 0)
    { parsingContext :=
        { step_ := .MESSAGE
          metadata_ := parseMetadata "[ 6252.287 443: 530 E/WifiVendorHal ]".toList
          message_ := some "first".toList }
      id_encoder := { registeredContextIds := [] }
      dlt_contexts := [] } "WINR".toList { registeredContextIds := ["WINR".toList] }
    (by decide) hid).2
  obtain ⟨ctx, -, hl, hev, -⟩ := C3_second_routing_reuses_context (fun _ => 0) _ _
    { step_ := .MESSAGE
      metadata_ := parseMetadata "[ 6300.001 443: 530 W/WifiVendorHal ]".toList
      message_ := some "second".toList } hfirst (by decide)
  have hctx : ctx = { name := "WifiVendorHal".toList, context_id := "WINR".toList } := by
    have hl2 : some ctx
        = some ({ name := "WifiVendorHal".toList, context_id := "WINR".toList } : Context) :=
      hl.symm.trans (by decide)
    exact Option.some.inj hl2
  subst hctx
  exact ⟨hfirst, hev⟩

/-! ## The record assembler -/

theorem routedMessages_append (xs ys : List Event) :
    routedMessages (xs ++ ys) = routedMessages xs ++ routedMessages ys := by
  induction xs with
  | nil => rfl
  | cons x xs ih =>
    cases x <;> simp [routedMessages, ih]

theorem processLine_blank (hash : Str → Nat) (s : State) (lineInput : Str)
    (h : lineInput = [] ∨ lineInput = ['\n']) :
    routedMessages (processLine hash s lineInput).events = []
      ∧ (processLine hash s lineInput).next
        = .ok { s with
            parsingContext := { step_ := .METADATA, metadata_ := none, message_ := none } } := by
  rcases h with rfl | rfl
  · exact ⟨rfl, rfl⟩
  · exact ⟨rfl, rfl⟩

theorem processLine_metadata_none (hash : Str → Nat) (s : State) (lineInput : Str)
    (h1 : lineInput ≠ []) (h2 : lineInput ≠ ['\n'])
    (hstep : s.parsingContext.currentStep = .METADATA)
    (hparse : parseMetadata lineInput = none) :
    routedMessages (processLine hash s lineInput).events = []
      ∧ (processLine hash s lineInput).next
        = .ok { s with
            parsingContext := { step_ := .METADATA, metadata_ := none, message_ := none } } := by
  have h0 : ¬ lineInput.length = 0 := by
    intro h; exact h1 (List.length_eq_zero.1 h)
  have h3 : ¬ lineInput = "\n".toList := h2
  simp only [processLine, if_neg h0, if_neg h3, hstep, hparse]
  exact ⟨rfl, rfl⟩

theorem processLine_metadata_some (hash : Str → Nat) (s : State) (lineInput : Str)
    (metadata : Metadata) (h1 : lineInput ≠ []) (h2 : lineInput ≠ ['\n'])
    (hstep : s.parsingContext.currentStep = .METADATA)
    (hparse : parseMetadata lineInput = some metadata) :
    routedMessages (processLine hash s lineInput).events = []
      ∧ (processLine hash s lineInput).next
        = .ok { s with
            parsingContext :=
              { step_ := .MESSAGE, metadata_ := some metadata,
                message_ := s.parsingContext.message_ } } := by
  have h0 : ¬ lineInput.length = 0 := by
    intro h; exact h1 (List.length_eq_zero.1 h)
  have h3 : ¬ lineInput = "\n".toList := h2
  simp only [processLine, if_neg h0, if_neg h3, hstep, hparse]
  exact ⟨rfl, rfl⟩

/-- A line read in step `MESSAGE` with metadata stored: the routed messages are those of
`dispatch` on the state with the line stored as message, and the parsing context is reset
when `dispatch` returns. -/
theorem processLine_message (hash : Str → Nat) (s : State) (lineInput : Str)
    (metadata : Metadata) (h1 : lineInput ≠ []) (h2 : lineInput ≠ ['\n'])
    (hstep : s.parsingContext.currentStep = .MESSAGE)
    (hmeta : s.parsingContext.metadata_ = some metadata) :
    routedMessages (processLine hash s lineInput).events
        = routedMessages (dispatch hash
            { s with parsingContext :=
                { step_ := .MESSAGE, metadata_ := some metadata,
                  message_ := some lineInput } }).events
      ∧ (processLine hash s lineInput).next
        = match (dispatch hash
            { s with parsingContext :=
                { step_ := .MESSAGE, metadata_ := some metadata,
                  message_ := some lineInput } }).next with
          | .error e => .error e
          | .ok s2 =>
            .ok { s2 with
              parsingContext :=
                { step_ := .METADATA, metadata_ := none, message_ := none } } := by
  have h0 : ¬ lineInput.length = 0 := by
    intro h; exact h1 (List.length_eq_zero.1 h)
  have h3 : ¬ lineInput = "\n".toList := h2
  have hpc : s.parsingContext.setMessage lineInput
      = { step_ := .MESSAGE, metadata_ := some metadata, message_ := some lineInput } := by
    cases hs : s.parsingContext with
    | mk st md ms =>
      rw [hs] at hstep hmeta
      simp only [ParsingContext.currentStep] at hstep
      simp only at hmeta
      subst hstep hmeta
      rfl
  simp only [processLine, if_neg h0, if_neg h3, hstep, hpc, ParsingContext.isCompleted,
    Option.isSome_some, Bool.and_self, if_true]
  split
  · rename_i e he
    simp only [he, routedMessages_append]
    exact ⟨rfl, trivial⟩
  · rename_i s2 he
    simp only [he, routedMessages_append]
    exact ⟨rfl, rfl⟩

theorem run_two (hash : Str → Nat) (s s1 : State) (l1 l2 : Str)
    (h : (processLine hash s l1).next = .ok s1) :
    (run hash s [l1, l2]).events
        = (processLine hash s l1).events ++ (processLine hash s1 l2).events
      ∧ (run hash s [l1, l2]).next = (processLine hash s1 l2).next := by
  simp only [run, h]
  cases h2 : (processLine hash s1 l2).next with
  | error e => simp
  | ok s2 => simp

theorem parseMetadata_nonblank (lineInput : Str) (metadata : Metadata)
    (h : parseMetadata lineInput = some metadata) : lineInput ≠ [] ∧ lineInput ≠ ['\n'] := by
  have e1 : parseMetadata [] = none := by decide
  have e2 : parseMetadata ['\n'] = none := by decide
  constructor
  · rintro rfl
    rw [e1] at h
    cases h
  · rintro rfl
    rw [e2] at h
    cases h

theorem processLine_consistent (hash : Str → Nat) (s s1 : State) (lineInput : Str)
    (hs : Consistent s) (h : (processLine hash s lineInput).next = .ok s1) :
    Consistent s1 := by
  obtain ⟨hmsg, hmd, hms, hnames⟩ := hs
  by_cases hb : lineInput = [] ∨ lineInput = ['\n']
  · rw [(processLine_blank hash s lineInput hb).2] at h
    cases h
    simpa [Consistent] using hnames
  · have h1 : lineInput ≠ [] := fun hc => hb (Or.inl hc)
    have h2 : lineInput ≠ ['\n'] := fun hc => hb (Or.inr hc)
    cases hstep : s.parsingContext.step_ with
    | METADATA =>
      cases hparse : parseMetadata lineInput with
      | none =>
        rw [(processLine_metadata_none hash s lineInput h1 h2 hstep hparse).2] at h
        cases h
        simpa [Consistent] using hnames
      | some metadata =>
        rw [(processLine_metadata_some hash s lineInput metadata h1 h2 hstep hparse).2] at h
        cases h
        simpa [Consistent, hmsg] using hnames
    | MESSAGE =>
      have hsome := hms hstep
      obtain ⟨metadata, hmeta⟩ := Option.isSome_iff_exists.1 hsome
      rw [(processLine_message hash s lineInput metadata h1 h2 hstep hmeta).2] at h
      split at h
      · cases h
      · rename_i s2 hd
        cases h
        obtain ⟨_, _, _, _, hn⟩ := dispatch_ok hash _ s2 hd
        simpa [Consistent] using hn hnames

theorem run_consistent (hash : Str → Nat) :
    ∀ (lines : List Str) (s s1 : State), Consistent s →
      (run hash s lines).next = .ok s1 → Consistent s1 := by
  intro lines
  induction lines with
  | nil =>
    intro s s1 hs h
    simp only [run, Except.ok.injEq] at h
    exact h ▸ hs
  | cons l rest ih =>
    intro s s1 hs h
    simp only [run] at h
    split at h
    · cases h
    · rename_i s2 h2
      exact ih s2 s1 (processLine_consistent hash s s2 l hs h2) h

theorem init_consistent : Consistent State.init := by
  simp [Consistent, State.init, ParsingContext.init, NamesMatch]

theorem reachable_consistent (hash : Str → Nat) (s : State) (h : Reachable hash s) :
    Consistent s := by
  obtain ⟨lines, hl⟩ := h
  exact run_consistent hash lines State.init s init_consistent hl

theorem reachable_init (hash : Str → Nat) : Reachable hash State.init := ⟨[], rfl⟩

theorem dispatch_returns (hash : Str → Nat) (s : State)
    (halloc : s.dlt_contexts.lookup s.parsingContext.metadata.getLogContext.name = none →
      ∃ r, getContextId hash s.id_encoder s.parsingContext.metadata.getLogContext.name
        = .ok r) :
    ∃ s1, (dispatch hash s).next = .ok s1 := by
  cases hl : s.dlt_contexts.lookup s.parsingContext.metadata.getLogContext.name with
  | some ctx => exact ⟨s, (dispatch_known hash s ctx hl).2⟩
  | none =>
    obtain ⟨⟨ctx_id, enc⟩, hid⟩ := halloc hl
    exact ⟨_, (dispatch_new hash s ctx_id enc hl hid).2⟩

/-- A header line that decodes, followed by a message line, read in step `METADATA`: one
message is routed, on the context stored under the decoded name, and the parsing context is
back in its initial state. The encoder must not throw when the name is new. -/
theorem two_line_record (hash : Str → Nat) (s : State) (h m : Str) (md : Metadata)
    (hstep : s.parsingContext.step_ = .METADATA) (hnames : NamesMatch s.dlt_contexts)
    (hparse : parseMetadata h = some md) (hm1 : m ≠ []) (hm2 : m ≠ ['\n'])
    (halloc : s.dlt_contexts.lookup md.getLogContext.name = none →
      ∃ r, getContextId hash s.id_encoder md.getLogContext.name = .ok r) :
    ∃ ctx s1,
      routedMessages (run hash s [h, m]).events = [(ctx, md.getLogContext.logLevel, m)]
        ∧ ctx.name = md.getLogContext.name
        ∧ (run hash s [h, m]).next = .ok s1
        ∧ s1.parsingContext = { step_ := .METADATA, metadata_ := none, message_ := none }
        ∧ s1.dlt_contexts.lookup md.getLogContext.name = some ctx := by
  obtain ⟨hne1, hne2⟩ := parseMetadata_nonblank h md hparse
  obtain ⟨hev1, hnext1⟩ := processLine_metadata_some hash s h md hne1 hne2 hstep hparse
  obtain ⟨hev, hnext⟩ := run_two hash s _ h m hnext1
  obtain ⟨hev2, hnext2⟩ := processLine_message hash
    { s with parsingContext :=
        { step_ := .MESSAGE, metadata_ := some md, message_ := s.parsingContext.message_ } }
    m md hm1 hm2 rfl rfl
  obtain ⟨s2, hd⟩ := dispatch_returns hash
    { s with parsingContext :=
        { step_ := .MESSAGE, metadata_ := some md, message_ := some m } } halloc
  obtain ⟨ctx, hl, hrouted, hpc, hn⟩ := dispatch_ok hash _ s2 hd
  refine ⟨ctx, { s2 with parsingContext :=
      { step_ := .METADATA, metadata_ := none, message_ := none } }, ?_, ?_, ?_, rfl, hl⟩
  · rw [hev, routedMessages_append, hev1, hev2, hrouted]
    rfl
  · exact hn hnames _ (lookup_mem _ _ _ hl)
  · rw [hnext, hnext2]
    simp only [hd]

/-- On an empty registered set `getContextId` returns. -/
theorem getContextId_empty (hash : Str → Nat) (name : Str) :
    ∃ r, getContextId hash { registeredContextIds := [] } name = .ok r := by
  rw [getContextId_eq, checkAndEncode_eq, if_pos (by simp [isUnique])]
  exact ⟨_, rfl⟩

/-- C5: in every state, whatever the step and the stored metadata and message, an empty line
and a line that is a single newline route nothing and leave the parsing context in step
`METADATA` with neither metadata nor message, the rest of the state untouched; the next
line that is neither empty nor a newline is then decoded as a header. -/
theorem C5_blank_line_resets (hash : Str → Nat) (s : State) (lineInput : Str)
    (h : lineInput = [] ∨ lineInput = ['\n']) :
    routedMessages (processLine hash s lineInput).events = []
      ∧ (processLine hash s lineInput).next
        = .ok { s with
            parsingContext := { step_ := .METADATA, metadata_ := none, message_ := none } }
      ∧ (∀ nextLine, nextLine ≠ [] → nextLine ≠ ['\n'] →
          routedMessages (run hash s [lineInput, nextLine]).events = []
            ∧ (run hash s [lineInput, nextLine]).next
              = .ok { s with
                  parsingContext :=
                    match parseMetadata nextLine with
                    | some metadata =>
                      { step_ := .MESSAGE, metadata_ := some metadata, message_ := none }
                    | none =>
                      { step_ := .METADATA, metadata_ := none, message_ := none } }) := by
  obtain ⟨hev, hnext⟩ := processLine_blank hash s lineInput h
  refine ⟨hev, hnext, ?_⟩
  intro nextLine h1 h2
  obtain ⟨hev2, hnext2⟩ := run_two hash s _ lineInput nextLine hnext
  rw [hev2, hnext2, routedMessages_append, hev]
  cases hparse : parseMetadata nextLine with
  | none =>
    obtain ⟨e1, e2⟩ := processLine_metadata_none hash
      { s with parsingContext := { step_ := .METADATA, metadata_ := none, message_ := none } }
      nextLine h1 h2 rfl hparse
    rw [e1, e2]
    exact ⟨rfl, rfl⟩
  | some metadata =>
    obtain ⟨e1, e2⟩ := processLine_metadata_some hash
      { s with parsingContext := { step_ := .METADATA, metadata_ := none, message_ := none } }
      nextLine metadata h1 h2 rfl hparse
    rw [e1, e2]
    exact ⟨rfl, rfl⟩

/-- C5, witness: a newline line read while a header is pending discards the header. -/
theorem C5_blank_line_resets_witness :
    routedMessages (processLine (fun _ => 0)
        { parsingContext :=
            { step_ := .MESSAGE
              metadata_ := parseMetadata "[ 6252.287 443: 530 E/WifiVendorHal ]".toList
              message_ := none }
          id_encoder := { registeredContextIds := [] }
          dlt_contexts := [] } ['\n']).events = []
      ∧ (processLine (fun _ => 0)
        { parsingContext :=
            { step_ := .MESSAGE
              metadata_ := parseMetadata "[ 6252.287 443: 530 E/WifiVendorHal ]".toList
              message_ := none }
          id_encoder := { registeredContextIds := [] }
          dlt_contexts := [] } ['\n']).next
        = .ok
          { parsingContext := { step_ := .METADATA, metadata_ := none, message_ := none }
            id_encoder := { registeredContextIds := [] }
            dlt_contexts := [] } :=
  ⟨(C5_blank_line_resets (fun _ => 0) _ ['\n'] (Or.inr rfl)).1,
    (C5_blank_line_resets (fun _ => 0) _ ['\n'] (Or.inr rfl)).2.1⟩

/-- C7: in a state the program can reach, with the parsing context in step `METADATA`, a
line that is neither empty nor a single newline routes nothing; when `parseMetadata` fails
the parsing context becomes the initial one, and when it succeeds the parsing context is in
step `MESSAGE` with exactly the decoded metadata and no message. The rest of the state is
untouched. -/
theorem C7_metadata_step (hash : Str → Nat) (s : State) (lineInput : Str)
    (hreach : Reachable hash s) (hstep : s.parsingContext.currentStep = .METADATA)
    (h1 : lineInput ≠ []) (h2 : lineInput ≠ ['\n']) :
    (parseMetadata lineInput = none →
      routedMessages (processLine hash s lineInput).events = []
        ∧ (processLine hash s lineInput).next
          = .ok { s with
              parsingContext :=
                { step_ := .METADATA, metadata_ := none, message_ := none } })
    ∧ (∀ metadata, parseMetadata lineInput = some metadata →
      routedMessages (processLine hash s lineInput).events = []
        ∧ (processLine hash s lineInput).next
          = .ok { s with
              parsingContext :=
                { step_ := .MESSAGE, metadata_ := some metadata, message_ := none } }) := by
  constructor
  · intro hparse
    exact processLine_metadata_none hash s lineInput h1 h2 hstep hparse
  · intro metadata hparse
    obtain ⟨e1, e2⟩ := processLine_metadata_some hash s lineInput metadata h1 h2 hstep hparse
    rw [(reachable_consistent hash s hreach).1] at e2
    exact ⟨e1, e2⟩

/-- C7, witness: from the initial state the line `[ 1 2 ]` is dropped and the line
`[ 6252.287 443: 530 E/WifiVendorHal ]` is stored as metadata. -/
theorem C7_metadata_step_witness :
    (processLine (fun _ => 0) State.init "[ 1 2 ]".toList).next = .ok State.init
      ∧ (processLine (fun _ => 0) State.init
          "[ 6252.287 443: 530 E/WifiVendorHal ]".toList).next
        = .ok { State.init with
            parsingContext :=
              { step_ := .MESSAGE
                metadata_ := some
                  { values := ["[".toList, "6252.287".toList, "443:".toList, "530".toList,
                      "E/WifiVendorHal".toList, "]".toList] }
                message_ := none } } :=
  ⟨((C7_metadata_step (fun _ => 0) State.init "[ 1 2 ]".toList (reachable_init _) rfl
      (by decide) (by decide)).1 (by decide)).2,
    ((C7_metadata_step (fun _ => 0) State.init "[ 6252.287 443: 530 E/WifiVendorHal ]".toList
      (reachable_init _) rfl (by decide) (by decide)).2 _ (by decide)).2⟩

/-! ## The metadata decoder and the candidate -/

theorem isValid_iff (m : Metadata) :
    m.isValid = true ↔
      6 ≤ m.values.length ∧ m.values.head? = some ['['] ∧ m.values.getLast? = some [']']
        ∧ ∃ t, m.values.get? 4 = some t ∧ 3 ≤ t.length := by
  have ho : openToken = ['['] := rfl
  have hc : closeToken = [']'] := rfl
  unfold Metadata.isValid
  simp only [Bool.and_eq_true, decide_eq_true_eq, beq_iff_eq, kKeyMinCount, kContextKey,
    kContextMinLength, ho, hc, ge_iff_le]
  cases h4 : m.values.get? 4 with
  | none => simp
  | some t => simp [and_assoc]

theorem tokenizeFrom_no_space :
    ∀ (rest token : Str) (inSeparator : Bool), (∀ c ∈ token, isSpace c = false) →
      ∀ t ∈ tokenizeFrom rest token inSeparator, ∀ c ∈ t, isSpace c = false := by
  intro rest
  induction rest with
  | nil =>
    intro token inSeparator htok t ht
    cases inSeparator
    · simp only [tokenizeFrom, Bool.false_eq_true, if_false, List.mem_singleton] at ht
      subst ht
      exact htok
    · simp [tokenizeFrom] at ht
  | cons a rest ih =>
    intro token inSeparator htok t ht
    by_cases ha : isSpace a = true
    · cases inSeparator
      · simp only [tokenizeFrom, ha, if_true, Bool.false_eq_true, if_false,
          List.mem_cons] at ht
        rcases ht with rfl | ht
        · exact htok
        · exact ih [] true (by simp) t ht
      · simp only [tokenizeFrom, ha, if_true] at ht
        exact ih [] true (by simp) t ht
    · simp only [tokenizeFrom, ha, Bool.false_eq_true, if_false] at ht
      refine ih (token ++ [a]) false ?_ t ht
      intro c hc
      rcases List.mem_append.1 hc with hc | hc
      · exact htok c hc
      · rw [List.mem_singleton] at hc
        subst hc
        simpa using ha

theorem tokenizeFrom_flatten :
    ∀ (rest token : Str) (inSeparator : Bool), (inSeparator = true → token = []) →
      (tokenizeFrom rest token inSeparator).flatten
        = token ++ rest.filter (fun c => !isSpace c) := by
  intro rest
  induction rest with
  | nil =>
    intro token inSeparator htok
    cases inSeparator
    · simp [tokenizeFrom]
    · simp [tokenizeFrom, htok rfl]
  | cons a rest ih =>
    intro token inSeparator htok
    by_cases ha : isSpace a = true
    · cases inSeparator
      · simp [tokenizeFrom, ha, ih [] true (fun _ => rfl)]
      · simp [tokenizeFrom, ha, ih [] true (fun _ => rfl), htok rfl]
    · simp [tokenizeFrom, ha, ih (token ++ [a]) false (fun h => by cases h)]

/-- C6: `parseMetadata` returns a `Metadata` exactly when the token list of the line has at
least 6 tokens, starts with the token `[`, ends with the token `]` and has a token of at
least 3 characters at index 4; the values returned are that token list, in order. A line
with fewer than 6 tokens, such as `[ 1 2 ]`, gives nothing. The tokens are the pieces of
the line between runs of white space: none holds a white space character, and together
they are the line without its white space. -/
theorem C6_parseMetadata_valid_iff (lineInput : Str) :
    (∀ metadata, parseMetadata lineInput = some metadata ↔
      (metadata.values = tokenize lineInput ∧ 6 ≤ (tokenize lineInput).length
        ∧ (tokenize lineInput).head? = some ['[']
        ∧ (tokenize lineInput).getLast? = some [']']
        ∧ ∃ t, (tokenize lineInput).get? 4 = some t ∧ 3 ≤ t.length))
    ∧ ((tokenize lineInput).length < 6 → parseMetadata lineInput = none)
    ∧ parseMetadata "[ 1 2 ]".toList = none
    ∧ (∀ t ∈ tokenize lineInput, ∀ c ∈ t, isSpace c = false)
    ∧ (tokenize lineInput).flatten = lineInput.filter (fun c => !isSpace c) := by
  have hv := isValid_iff { values := tokenize lineInput }
  have hp : parseMetadata lineInput
      = if ({ values := tokenize lineInput } : Metadata).isValid = true
        then some { values := tokenize lineInput } else none := rfl
  refine ⟨?_, ?_, by decide, ?_, ?_⟩
  · intro metadata
    rw [hp]
    constructor
    · intro h
      split at h
      · rename_i hvalid
        cases h
        exact ⟨rfl, hv.1 hvalid⟩
      · cases h
    · rintro ⟨hvals, hrest⟩
      rw [if_pos (hv.2 hrest)]
      cases metadata
      simp only at hvals
      rw [hvals]
  · intro hlen
    rw [hp]
    split
    · rename_i hvalid
      have := (hv.1 hvalid).1
      simp only at this
      omega
    · rfl
  · exact tokenizeFrom_no_space lineInput [] false (by simp)
  · simpa using tokenizeFrom_flatten lineInput [] false (fun h => by cases h)

/-- C6, witness: the header `[ 6252.287 443: 530 E/WifiVendorHal ]` has the six tokens
required and decodes to them. -/
theorem C6_parseMetadata_valid_iff_witness :
    parseMetadata "[ 6252.287 443: 530 E/WifiVendorHal ]".toList
      = some
        { values := ["[".toList, "6252.287".toList, "443:".toList, "530".toList,
            "E/WifiVendorHal".toList, "]".toList] } :=
  ((C6_parseMetadata_valid_iff "[ 6252.287 443: 530 E/WifiVendorHal ]".toList).1 _).2
    ⟨by decide, by decide, by decide, by decide, "E/WifiVendorHal".toList, by decide,
      by decide⟩

theorem foldl_getD_range' (l : List Str) :
    ∀ (n k : Nat) (acc : Str), k + n ≤ l.length →
      (List.range' k n).foldl (fun name it => name ++ l.getD it []) acc
        = acc ++ ((l.drop k).take n).flatten := by
  intro n
  induction n with
  | zero => intro k acc _; simp
  | succ n ih =>
    intro k acc hk
    have hlt : k < l.length := by omega
    rw [List.range'_succ, List.foldl_cons, ih (k + 1) _ (by omega),
      List.drop_eq_getElem_cons hlt, List.take_succ_cons, List.flatten_cons,
      List.getD_eq_getElem?_getD, List.getElem?_eq_getElem hlt]
    simp

theorem logLevelLiterals_eq :
    logLevelLiterals
      = [(['F'], DLT_LOG_FATAL), (['E'], DLT_LOG_ERROR), (['W'], DLT_LOG_WARN),
          (['I'], DLT_LOG_INFO), (['D'], DLT_LOG_DEBUG), (['V'], DLT_LOG_VERBOSE)] := rfl

theorem getLogContext_eq (md : Metadata) :
    md.getLogContext
      = match logLevelLiterals.lookup ((md.values.getD 4 []).take 1) with
        | none => { logLevel := DLT_LOG_FATAL, name := "Broken Context".toList }
        | some level =>
          { logLevel := level
            name :=
              if md.values.length > 6 then
                (List.range' 5 (md.values.length - 1 - 5)).foldl
                  (fun name it => name ++ md.values.getD it []) ((md.values.getD 4 []).drop 2)
              else (md.values.getD 4 []).drop 2 } := rfl

theorem getD_of_get? (l : List Str) (k : Nat) (t : Str) (h : l.get? k = some t) :
    l.getD k [] = t ∧ k < l.length := by
  rw [List.get?_eq_getElem?] at h
  constructor
  · rw [List.getD_eq_getElem?_getD, h]
    rfl
  · exact (List.getElem?_eq_some_iff.1 h).1

/-- The name that `getLogContext` builds when the level letter is known. -/
theorem getLogContext_known (md : Metadata) (c : Char) (rest : Str) (level : DltLogLevelType)
    (h4 : md.values.get? 4 = some (c :: rest))
    (hl : logLevelLiterals.lookup [c] = some level) :
    md.getLogContext
      = { logLevel := level
          name := (c :: rest).drop 2 ++ ((md.values.drop 5).dropLast).flatten } := by
  obtain ⟨hget, hlen⟩ := getD_of_get? md.values 4 _ h4
  have htake : (c :: rest).take 1 = [c] := rfl
  rw [getLogContext_eq, hget, htake, hl]
  simp only
  congr 1
  split
  · rw [foldl_getD_range' md.values _ _ _ (by omega), List.dropLast_eq_take,
      List.length_drop]
    have : md.values.length - 1 - 5 = md.values.length - 5 - 1 := by omega
    rw [this]
  · have h0 : (md.values.drop 5).dropLast = [] := by
      rw [List.dropLast_eq_take, List.length_drop]
      have : md.values.length - 5 - 1 = 0 := by omega
      rw [this, List.take_zero]
    rw [h0]
    simp

theorem lookup_unknown (c : Char) (hc : c ∉ ['F', 'E', 'W', 'I', 'D', 'V']) :
    logLevelLiterals.lookup [c] = none := by
  simp only [List.mem_cons, List.mem_singleton, not_or, List.not_mem_nil,
    not_false_eq_true, and_true] at hc
  obtain ⟨h1, h2, h3, h4, h5, h6⟩ := hc
  rw [logLevelLiterals_eq]
  simp [List.lookup, beq_false_of_ne h1, beq_false_of_ne h2, beq_false_of_ne h3,
    beq_false_of_ne h4, beq_false_of_ne h5, beq_false_of_ne h6]

/-- C8: when the token at index 4 starts with a character that is none of `F`, `E`, `W`,
`I`, `D`, `V`, `getLogContext` returns level `DLT_LOG_FATAL` and the name `Broken Context`,
whatever the rest of that token and the other tokens are (valid metadata or not); and the
header `[ 1 2 3 X/Foo ]` followed by a message line, read from the initial state, routes
that line with level `DLT_LOG_FATAL` on a context named `Broken Context`. -/
theorem C8_unknown_level_is_broken_context :
    (∀ (md : Metadata) (c : Char) (rest : Str),
      md.values.get? 4 = some (c :: rest) → c ∉ ['F', 'E', 'W', 'I', 'D', 'V'] →
        md.getLogContext = { logLevel := DLT_LOG_FATAL, name := "Broken Context".toList })
    ∧ (∀ (hash : Str → Nat) (m : Str), m ≠ [] → m ≠ ['\n'] →
      ∃ ctx s1,
        routedMessages (run hash State.init ["[ 1 2 3 X/Foo ]".toList, m]).events
            = [(ctx, DLT_LOG_FATAL, m)]
          ∧ ctx.name = "Broken Context".toList
          ∧ (run hash State.init ["[ 1 2 3 X/Foo ]".toList, m]).next = .ok s1) := by
  constructor
  · intro md c rest h4 hc
    obtain ⟨hget, -⟩ := getD_of_get? md.values 4 _ h4
    have htake : (c :: rest).take 1 = [c] := rfl
    rw [getLogContext_eq, hget, htake, lookup_unknown c hc]
  · intro hash m hm1 hm2
    have hparse : parseMetadata "[ 1 2 3 X/Foo ]".toList
        = some { values := tokenize "[ 1 2 3 X/Foo ]".toList } := by decide
    obtain ⟨ctx, s1, h1, h2, h3, -, -⟩ := two_line_record hash State.init
      "[ 1 2 3 X/Foo ]".toList m _ rfl init_consistent.2.2.2 hparse hm1 hm2
      (fun _ => getContextId_empty hash _)
    have hctx : ({ values := tokenize "[ 1 2 3 X/Foo ]".toList } : Metadata).getLogContext
        = { logLevel := DLT_LOG_FATAL, name := "Broken Context".toList } := by decide
    rw [hctx] at h1 h2
    exact ⟨ctx, s1, h1, h2, h3⟩

/-- C8, witness: the token `X/Foo` at index 4, and the record `[ 1 2 3 X/Foo ]` with the
message `boom`. -/
theorem C8_unknown_level_is_broken_context_witness :
    ({ values := ["[".toList, "1".toList, "2".toList, "3".toList, "X/Foo".toList,
        "]".toList] } : Metadata).getLogContext
      = { logLevel := DLT_LOG_FATAL, name := "Broken Context".toList }
    ∧ (routedMessages (run (fun _ => 0) State.init
        ["[ 1 2 3 X/Foo ]".toList, "boom".toList]).events).map
          (fun r => (r.1.name, r.2.1, r.2.2))
      = [("Broken Context".toList, DLT_LOG_FATAL, "boom".toList)] := by
  constructor
  · exact C8_unknown_level_is_broken_context.1 _ 'X' "/Foo".toList (by decide) (by decide)
  · obtain ⟨ctx, s1, h1, h2, -⟩ := C8_unknown_level_is_broken_context.2 (fun _ => 0)
      "boom".toList (by decide) (by decide)
    rw [h1]
    simp only [List.map_cons, List.map_nil, h2]

/-- C9: for valid metadata whose token at index 4 starts with one of `F`, `E`, `W`, `I`,
`D`, `V`, `getLogContext` returns the level that the table gives for that letter, and the
name is that token without its first two characters (it has at least three) followed by the
tokens from index 5 up to the one before the last, concatenated without separator; with
six tokens the name is the token without its first two characters. -/
theorem C9_known_level_and_name (md : Metadata) (c : Char) (rest : Str)
    (level : DltLogLevelType) (hvalid : md.isValid = true)
    (h4 : md.values.get? 4 = some (c :: rest))
    (hc : (c, level) ∈ [('F', DLT_LOG_FATAL), ('E', DLT_LOG_ERROR), ('W', DLT_LOG_WARN),
      ('I', DLT_LOG_INFO), ('D', DLT_LOG_DEBUG), ('V', DLT_LOG_VERBOSE)]) :
    md.getLogContext
        = { logLevel := level
            name := (c :: rest).drop 2 ++ ((md.values.drop 5).dropLast).flatten }
      ∧ ((c :: rest).drop 2).length + 2 = (c :: rest).length
      ∧ (md.values.length = 6 →
          md.getLogContext = { logLevel := level, name := (c :: rest).drop 2 }) := by
  have hl : logLevelLiterals.lookup [c] = some level := by
    simp only [List.mem_cons, Prod.mk.injEq, List.mem_singleton, List.not_mem_nil,
      or_false] at hc
    rcases hc with ⟨rfl, rfl⟩ | ⟨rfl, rfl⟩ | ⟨rfl, rfl⟩ | ⟨rfl, rfl⟩ | ⟨rfl, rfl⟩ | ⟨rfl, rfl⟩ <;>
      decide
  have hmain := getLogContext_known md c rest level h4 hl
  refine ⟨hmain, ?_, ?_⟩
  · obtain ⟨-, -, -, t, ht, hlen⟩ := (isValid_iff md).1 hvalid
    rw [h4] at ht
    cases ht
    rw [List.length_drop]
    omega
  · intro h6
    rw [hmain]
    have h0 : (md.values.drop 5).dropLast = [] := by
      rw [List.dropLast_eq_take, List.length_drop, h6]
      rfl
    rw [h0]
    simp

/-- C9, witness: the header `[ 6252.287 443: 530 E/Wifi Vendor Hal ]`, in which the name is
split over three tokens, gives level `DLT_LOG_ERROR` and name `WifiVendorHal`. -/
theorem C9_known_level_and_name_witness :
    ({ values := ["[".toList, "6252.287".toList, "443:".toList, "530".toList,
        "E/Wifi".toList, "Vendor".toList, "Hal".toList, "]".toList] } : Metadata).getLogContext
      = { logLevel := DLT_LOG_ERROR, name := "WifiVendorHal".toList } :=
  (C9_known_level_and_name _ 'E' "/Wifi".toList DLT_LOG_ERROR (by decide) (by decide)
    (by decide)).1

theorem getD_of_lt (s : Str) (k : Nat) (h : k < s.length) :
    some (s.getD k default) = s.get? k := by
  rw [List.get?_eq_getElem?, List.getD_eq_getElem?_getD, List.getElem?_eq_getElem h]
  rfl

/-- C10: for a name of more than 4 characters the candidate that `encodeContextId` computes
has exactly 4 characters, the one at position `i` being the character of the name at index
`i * (len / 4)`, an index inside the name; a name of at most 4 characters is its own
candidate. This candidate is what `encodeContextId` hands to `checkAndEncode`.
`VERYLONGSERVICENAME` gives `VLSI`. The property does not depend on the characters being
upper case letters or digits. -/
theorem C10_shrink_by_stride (s : Str) :
    (4 < s.length →
      (shrinkName s).length = 4
        ∧ ∀ i, i < 4 →
          i * (s.length / 4) < s.length
            ∧ (shrinkName s).get? i = s.get? (i * (s.length / 4)))
    ∧ (s.length ≤ 4 → shrinkName s = s)
    ∧ (∀ (hash : Str → Nat) (registered : List Str),
        encodeContextId hash registered s 0
          = checkAndEncode hash registered (shrinkName s) (getCounter hash (shrinkName s)))
    ∧ shrinkName "VERYLONGSERVICENAME".toList = "VLSI".toList := by
  refine ⟨?_, shrinkName_short s, fun hash registered => encodeContextId_zero hash registered s,
    by decide⟩
  intro hlen
  have hq : s.length / 4 * 4 ≤ s.length := Nat.div_mul_le_self _ _
  have hq1 : 1 ≤ s.length / 4 := by omega
  refine ⟨by rw [shrinkName_length]; omega, ?_⟩
  intro i hi
  have hidx : i * (s.length / 4) < s.length := by
    have : i * (s.length / 4) ≤ 3 * (s.length / 4) := Nat.mul_le_mul_right _ (by omega)
    omega
  refine ⟨hidx, ?_⟩
  rw [shrinkName_long s hlen, ← getD_of_lt s _ hidx]
  interval_cases i
  · simp
  · rfl
  · rfl
  · rfl

/-- C10, witness: `VERYLONGSERVICENAME` has 19 characters and stride 4; the candidate has
4 characters, the third being the character `S` at index 8. -/
theorem C10_shrink_by_stride_witness :
    (shrinkName "VERYLONGSERVICENAME".toList).length = 4
      ∧ (shrinkName "VERYLONGSERVICENAME".toList).get? 2 = some 'S'
      ∧ shrinkName "ABC".toList = "ABC".toList :=
  ⟨((C10_shrink_by_stride "VERYLONGSERVICENAME".toList).1 (by decide)).1,
    (((C10_shrink_by_stride "VERYLONGSERVICENAME".toList).1 (by decide)).2 2
      (by decide)).2,
    (C10_shrink_by_stride "ABC".toList).2.1 (by decide)⟩

/-! ## The first check of `getContextId` -/

theorem getContextId_candidate (hash : Str → Nat) (enc : ContextIdEncoder) (name : Str) :
    getContextId hash enc name
      = match checkAndEncode hash enc.registeredContextIds (initialCandidate name)
            (getCounter hash (initialCandidate name)) with
        | .error e => .error e
        | .ok ctx_id =>
          .ok (ctx_id, { registeredContextIds := emplace enc.registeredContextIds ctx_id }) :=
  getContextId_eq hash enc name

theorem emplace_new (s : List Str) (x : Str) (h : x ∉ s) : emplace s x = s ++ [x] := by
  unfold emplace
  rw [if_neg (by simpa using h)]

theorem initialCandidate_length (name : Str) :
    (initialCandidate name).length = min (max 1 (filterName name).length) 4 := by
  unfold initialCandidate
  rw [shrinkName_length, candidate_length]

/-- C11: when the initial candidate of the name is not in the registered set, `getContextId`
returns exactly that candidate, whatever the hash function is, and the set afterwards is the
old one with the candidate added. -/
theorem C11_fresh_candidate_is_returned (hash : Str → Nat) (enc : ContextIdEncoder)
    (name : Str) (h : initialCandidate name ∉ enc.registeredContextIds) :
    getContextId hash enc name
        = .ok (initialCandidate name,
            { registeredContextIds := enc.registeredContextIds ++ [initialCandidate name] })
      ∧ initialCandidate name ∈ enc.registeredContextIds ++ [initialCandidate name] := by
  constructor
  · rw [getContextId_candidate, checkAndEncode_eq, if_pos ((isUnique_iff _ _).2 h)]
    simp only [emplace_new _ _ h]
  · simp

/-- C11, witness: `WifiVendorHal` has the candidate `WINR`, which an encoder that holds only
`ABCD` returns. -/
theorem C11_fresh_candidate_is_returned_witness :
    getContextId (fun _ => 0) { registeredContextIds := ["ABCD".toList] } "WifiVendorHal".toList
      = .ok ("WINR".toList, { registeredContextIds := ["ABCD".toList, "WINR".toList] }) :=
  (C11_fresh_candidate_is_returned (fun _ => 0) { registeredContextIds := ["ABCD".toList] }
    "WifiVendorHal".toList (by decide)).1

/-- C13: for a name whose sanitized form has more than 4 characters, the candidate is the
stride sample of the sanitized name in upper case and has 4 characters; when it is registered
already, an identifier that `getContextId` returns differs from the candidate, is none of the
registered identifiers, and has exactly 4 characters. -/
theorem C13_collision_gives_other_identifier (hash : Str → Nat) (enc enc1 : ContextIdEncoder)
    (name id : Str) (hlong : 4 < (filterName name).length)
    (hreg : initialCandidate name ∈ enc.registeredContextIds)
    (h : getContextId hash enc name = .ok (id, enc1)) :
    initialCandidate name = shrinkName ((filterName name).map Char.toUpper)
      ∧ (initialCandidate name).length = 4
      ∧ id ≠ initialCandidate name
      ∧ id ∉ enc.registeredContextIds
      ∧ id.length = 4 := by
  have hne : (filterName name).isEmpty = false := by
    cases hf : filterName name with
    | nil => rw [hf] at hlong; simp at hlong
    | cons a l => rfl
  have hcl : (initialCandidate name).length = 4 := by
    rw [initialCandidate_length]; omega
  obtain ⟨hnew, -⟩ := getContextId_ok hash enc enc1 name id h
  refine ⟨?_, hcl, ?_, hnew, ?_⟩
  · unfold initialCandidate
    rw [hne]
    rfl
  · intro heq
    exact hnew (heq ▸ hreg)
  · rw [getContextId_candidate] at h
    split at h
    · cases h
    · rename_i ctx_id hc
      simp only [Except.ok.injEq, Prod.mk.injEq] at h
      obtain ⟨rfl, -⟩ := h
      have := checkAndEncode_length hash _ _ _ _ (by omega) hc
      omega

/-- C13, witness: `VeryLongServiceName` has the candidate `VLSI`; with `VLSI` registered
and the constant hash `0` it gets `VLSC`. -/
theorem C13_collision_gives_other_identifier_witness :
    getContextId (fun _ => 0) { registeredContextIds := ["VLSI".toList] }
        "VeryLongServiceName".toList
      = .ok ("VLSC".toList, { registeredContextIds := ["VLSI".toList, "VLSC".toList] })
    ∧ "VLSC".toList ≠ "VLSI".toList ∧ ("VLSC".toList).length = 4 := by
  have heval : getContextId (fun _ => 0) { registeredContextIds := ["VLSI".toList] }
      "VeryLongServiceName".toList
      = .ok ("VLSC".toList, { registeredContextIds := ["VLSI".toList, "VLSC".toList] }) := by
    rw [getContextId_eq, checkAndEncode_eq, if_neg (by decide),
      modifyName_eq, if_neg (by decide), if_neg (by decide), if_neg (by decide),
      checkAndEncode_eq, if_pos (by decide)]
    decide
  have hthm := C13_collision_gives_other_identifier (fun _ => 0) _ _ _ _ (by decide)
    (by decide) heval
  exact ⟨heval, fun hEq => hthm.2.2.1 (hEq.trans (by decide)), hthm.2.2.2.2⟩

/-! ## The name sanitizer -/

theorem filterName_foldl (p : Char → Prop) [DecidablePred p] (line acc : Str) :
    line.foldl (fun result c => if p c then result ++ [c] else result) acc
      = acc ++ line.filter (fun c => decide (p c)) := by
  induction line generalizing acc with
  | nil => simp
  | cons a l ih =>
    rw [List.foldl_cons, ih]
    by_cases ha : p a
    · simp [ha, List.filter_cons]
    · simp [ha, List.filter_cons]

theorem filterName_eq_filter (line : Str) : filterName line = line.filter isLetterOrDigit := by
  unfold filterName
  rw [filterName_foldl]
  rfl

/-- C12: `filterName` returns the characters of its input that are ASCII letters or digits,
in their order (the input filtered by that test, a sublist of the input); so the output
holds only such characters, the empty string gives the empty string, and filtering twice is
filtering once. -/
theorem C12_filterName_keeps_letters_and_digits (line : Str) :
    filterName line = line.filter isLetterOrDigit
      ∧ (filterName line).Sublist line
      ∧ (∀ c ∈ filterName line,
          ('a' ≤ c ∧ c ≤ 'z') ∨ ('A' ≤ c ∧ c ≤ 'Z') ∨ ('0' ≤ c ∧ c ≤ '9'))
      ∧ filterName [] = []
      ∧ filterName (filterName line) = filterName line := by
  have h := filterName_eq_filter line
  refine ⟨h, ?_, ?_, rfl, ?_⟩
  · rw [h]
    exact List.filter_sublist line
  · intro c hc
    rw [h, List.mem_filter] at hc
    simpa [isLetterOrDigit] using hc.2
  · rw [filterName_eq_filter (filterName line), h, List.filter_filter]
    simp

/-- C12, witness: the characters `-`, space and `!` are dropped. -/
theorem C12_filterName_keeps_letters_and_digits_witness :
    filterName "a-b c9!".toList = "abc9".toList :=
  (C12_filterName_keeps_letters_and_digits "a-b c9!".toList).1.trans (by decide)

/-! ## The letter code of a counter -/

theorem intToLetter_eq_digits (value : Nat) :
    intToLetter value
      = (if value = 0 then [0] else (Nat.digits 26 value).reverse).map
          (fun v => Char.ofNat ('A'.toNat + v)) := by
  unfold intToLetter
  have : 'Z'.toNat - 'A'.toNat + 1 = 26 := by decide
  simp only [this, intToOtherBase_eq _ 26 (by omega)]

theorem letter_toNat (d : Nat) (h : d < 26) :
    (Char.ofNat ('A'.toNat + d)).toNat - 'A'.toNat = d := by
  interval_cases d <;> decide

theorem letter_range (d : Nat) (h : d < 26) :
    'A' ≤ Char.ofNat ('A'.toNat + d) ∧ Char.ofNat ('A'.toNat + d) ≤ 'Z' := by
  interval_cases d <;> decide

theorem letter_ne_A (d : Nat) (h : d < 26) (h0 : d ≠ 0) : Char.ofNat ('A'.toNat + d) ≠ 'A' := by
  interval_cases d <;> first | exact absurd rfl h0 | decide

theorem letterValue_map (ds : List Nat) (hds : ∀ d ∈ ds, d < 26) (acc : Nat) :
    (ds.map (fun v => Char.ofNat ('A'.toNat + v))).foldl
        (fun acc c => acc * 26 + (c.toNat - 'A'.toNat)) acc
      = ds.foldl (fun acc d => acc * 26 + d) acc := by
  induction ds generalizing acc with
  | nil => rfl
  | cons d ds ih =>
    rw [List.map_cons, List.foldl_cons, List.foldl_cons,
      letter_toNat d (hds d (List.mem_cons_self _ _))]
    exact ih (fun x hx => hds x (List.mem_cons_of_mem _ hx)) _

theorem foldl_reverse_digits (l : List Nat) :
    l.reverse.foldl (fun acc d => acc * 26 + d) 0 = Nat.ofDigits 26 l := by
  induction l with
  | nil => rfl
  | cons d l ih =>
    rw [List.reverse_cons, List.foldl_append, ih, Nat.ofDigits_cons]
    simp only [List.foldl_cons, List.foldl_nil]
    omega

theorem letterValue_intToLetter (value : Nat) : letterValue (intToLetter value) = value := by
  rw [intToLetter_eq_digits]
  unfold letterValue
  by_cases hv : value = 0
  · subst hv
    decide
  · rw [if_neg hv, letterValue_map _ (fun d hd => Nat.digits_lt_base (by omega)
      (List.mem_reverse.1 hd)), foldl_reverse_digits, Nat.ofDigits_digits]

theorem intToLetter_ne_nil (value : Nat) : intToLetter value ≠ [] := by
  intro h
  have hl := intToLetter_length value
  rw [h] at hl
  by_cases hv : value = 0
  · rw [if_pos hv] at hl
    cases hl
  · rw [if_neg hv] at hl
    have hne : Nat.digits 26 value ≠ [] := Nat.digits_ne_nil_iff_ne_zero.2 hv
    exact hne (List.length_eq_zero.1 hl.symm)

theorem intToLetter_letters (value : Nat) :
    ∀ c ∈ intToLetter value, 'A' ≤ c ∧ c ≤ 'Z' := by
  intro c hc
  rw [intToLetter_eq_digits, List.mem_map] at hc
  obtain ⟨d, hd, rfl⟩ := hc
  apply letter_range
  by_cases hv : value = 0
  · rw [if_pos hv, List.mem_singleton] at hd
    omega
  · rw [if_neg hv] at hd
    exact Nat.digits_lt_base (by omega) (List.mem_reverse.1 hd)

theorem intToLetter_head (value : Nat) (hv : value ≠ 0) :
    (intToLetter value).head? ≠ some 'A' := by
  rw [intToLetter_eq_digits, if_neg hv, List.head?_map, List.head?_reverse]
  have hne : Nat.digits 26 value ≠ [] := Nat.digits_ne_nil_iff_ne_zero.2 hv
  rw [List.getLast?_eq_getLast _ hne]
  simp only [Option.map_some', ne_eq, Option.some.injEq]
  exact letter_ne_A _ (Nat.digits_lt_base (by omega) (List.getLast_mem hne))
    (Nat.getLast_digit_ne_zero 26 hv)

/-- C14: `intToLetter v` is the base 26 numeral of `v`, most significant digit first, in the
digits `A = 0`, ..., `Z = 25` (the digits of `Nat.digits 26 v` reversed, the single digit 0
for `v = 0`): it is not empty, holds only letters `A` to `Z`, is `A` for `v = 0` and does not
start with `A` otherwise, and its value as a base 26 numeral is `v`; so different counters
have different codes. The codes of 0, 25 and 26 are `A`, `Z` and `BA`. -/
theorem C14_intToLetter_is_base26_numeral (v : Nat) :
    intToLetter v
        = (if v = 0 then [0] else (Nat.digits 26 v).reverse).map
            (fun d => Char.ofNat ('A'.toNat + d))
      ∧ intToLetter v ≠ []
      ∧ (∀ c ∈ intToLetter v, 'A' ≤ c ∧ c ≤ 'Z')
      ∧ (v = 0 → intToLetter v = ['A'])
      ∧ (v ≠ 0 → (intToLetter v).head? ≠ some 'A')
      ∧ letterValue (intToLetter v) = v
      ∧ (∀ w, intToLetter v = intToLetter w → v = w)
      ∧ intToLetter 0 = "A".toList ∧ intToLetter 25 = "Z".toList
      ∧ intToLetter 26 = "BA".toList := by
  refine ⟨intToLetter_eq_digits v, intToLetter_ne_nil v, intToLetter_letters v, ?_,
    intToLetter_head v, letterValue_intToLetter v, ?_, by decide, by decide, by decide⟩
  · rintro rfl
    decide
  · intro w h
    have := congrArg letterValue h
    rwa [letterValue_intToLetter, letterValue_intToLetter] at this

/-- C14, witness: the counter 27 has the code `BB`, which does not start with `A` and has
the value `1 * 26 + 1`. -/
theorem C14_intToLetter_is_base26_numeral_witness :
    (intToLetter 27).head? ≠ some 'A' ∧ letterValue (intToLetter 27) = 27
      ∧ intToLetter 27 = "BB".toList :=
  ⟨(C14_intToLetter_is_base26_numeral 27).2.2.2.2.1 (by decide),
    (C14_intToLetter_is_base26_numeral 27).2.2.2.2.2.1, by decide⟩

/-! ## The length of the letter code -/

theorem intToLetter_length_pos (k : Nat) : 1 ≤ (intToLetter k).length := by
  have h := intToLetter_ne_nil k
  cases hl : intToLetter k with
  | nil => exact absurd hl h
  | cons a l => simp

theorem intToLetter_length_le_iff (k n : Nat) (hn : 1 ≤ n) :
    (intToLetter k).length ≤ n ↔ k < 26 ^ n := by
  rw [intToLetter_length]
  by_cases hk : k = 0
  · subst hk
    simp only [if_true]
    constructor
    · intro _; positivity
    · intro _; exact hn
  · rw [if_neg hk]
    constructor
    · intro h
      calc k < 26 ^ (Nat.digits 26 k).length := Nat.lt_base_pow_length_digits (by omega)
        _ ≤ 26 ^ n := Nat.pow_le_pow_right (by omega) h
    · intro h
      have h1 : 26 ^ (Nat.digits 26 k).length ≤ 26 * k :=
        Nat.base_pow_length_digits_le 26 k (by omega) hk
      have h2 : 26 * k < 26 ^ (n + 1) := by
        rw [pow_succ]
        omega
      have h3 : (Nat.digits 26 k).length < n + 1 :=
        (Nat.pow_lt_pow_iff_right (by omega)).1 (lt_of_le_of_lt h1 h2)
      omega

theorem intToLetter_length_one (k : Nat) (h : k < 26) : (intToLetter k).length = 1 := by
  have h1 := (intToLetter_length_le_iff k 1 le_rfl).2 (by simpa using h)
  have h2 := intToLetter_length_pos k
  omega

theorem intToLetter_length_four (k : Nat) (h1 : 26 ^ 3 ≤ k) (h2 : k < 26 ^ 4) :
    (intToLetter k).length = 4 := by
  have h3 := (intToLetter_length_le_iff k 4 (by omega)).2 h2
  have h4 : ¬ (intToLetter k).length ≤ 3 := by
    intro h
    have := (intToLetter_length_le_iff k 3 (by omega)).1 h
    omega
  omega

theorem intToLetter_length_mono (j k : Nat) (h : j ≤ k) :
    (intToLetter j).length ≤ (intToLetter k).length := by
  have hk := (intToLetter_length_le_iff k _ (intToLetter_length_pos k)).1 le_rfl
  exact (intToLetter_length_le_iff j _ (intToLetter_length_pos k)).2 (lt_of_le_of_lt h hk)

/-! ## One round of `modifyName` -/

/-- When the letter code fits or can replace the end of the name, `modifyName` checks
`newName`, returns it when it is unique and otherwise goes on with it and the next counter. -/
theorem modifyName_newName (hash : Str → Nat) (registered : List Str) (name : Str)
    (counter : Nat)
    (h : name.length + (intToLetter counter).length ≤ 4
      ∨ ((intToLetter counter).length ≤ 4 ∧ (intToLetter counter).length ≤ name.length)) :
    modifyName hash registered name counter
      = if isUnique registered (newName name counter) then .ok (newName name counter)
        else modifyName hash registered (newName name counter) (counter + 1) := by
  rw [modifyName_eq]
  unfold newName
  by_cases hfit : name.length + (intToLetter counter).length ≤ 4
  · rw [if_pos hfit, if_pos hfit, checkAndEncode_eq]
  · rcases h with h | ⟨h1, h2⟩
    · exact absurd h hfit
    · rw [if_neg hfit, if_neg hfit, if_neg (by omega), if_neg (by omega), checkAndEncode_eq]

theorem modifyName_outOfRange (hash : Str → Nat) (registered : List Str) (name : Str)
    (counter : Nat) (h : 4 < (intToLetter counter).length) :
    modifyName hash registered name counter = .error .outOfRange := by
  rw [modifyName_eq, if_neg (by omega), if_pos h]

theorem grows_fits (name : Str) (counter : Nat) (h : Grows name counter) :
    name.length + (intToLetter counter).length ≤ 4
      ∨ ((intToLetter counter).length ≤ 4 ∧ (intToLetter counter).length ≤ name.length)
      ∨ 4 < (intToLetter counter).length := by
  obtain ⟨h1, h2, h3⟩ := h
  by_cases hl : name.length < 4
  · left
    rw [intToLetter_length_one counter (by have := h3 hl; omega)]
    omega
  · by_cases he : (intToLetter counter).length ≤ 4
    · right; left
      exact ⟨he, by omega⟩
    · right; right
      omega

theorem grows_newName (name : Str) (counter : Nat) (h : Grows name counter)
    (he : (intToLetter counter).length ≤ 4) :
    Grows (newName name counter) (counter + 1) ∧ (newName name counter).length ≤ 4
      ∧ (name.length = 4 → (newName name counter).length = 4) := by
  obtain ⟨h1, h2, h3⟩ := h
  have hp := intToLetter_length_pos counter
  unfold newName Grows
  by_cases hl : name.length < 4
  · have hone := intToLetter_length_one counter (by have := h3 hl; omega)
    rw [if_pos (by omega)]
    simp only [List.length_append, hone]
    have := h3 hl
    refine ⟨⟨by omega, by omega, fun _ => by omega⟩, by omega, fun _ => by omega⟩
  · rw [if_neg (by omega)]
    simp only [List.length_append, List.length_take]
    refine ⟨⟨by omega, by omega, fun _ => by omega⟩, by omega, fun _ => by omega⟩

/-! ## When the encoder throws -/

theorem newName_four (name : Str) (counter : Nat) (hlen : name.length = 4)
    (he : (intToLetter counter).length = 4) : newName name counter = intToLetter counter := by
  unfold newName
  rw [if_neg (by omega), hlen, he]
  simp

/-- An exception of `modifyName`, called on a name as `getContextId` produces them, is
`outOfRange`, and then the letter codes of all counters with four letters from the current
one on are registered. -/
theorem modifyName_error (hash : Str → Nat) (registered : List Str) :
    ∀ (k : Nat) (name : Str) (e : EncodeError), Grows name k →
      modifyName hash registered name k = .error e →
      e = .outOfRange
        ∧ ∀ j, k ≤ j → 26 ^ 3 ≤ j → j < 26 ^ 4 → intToLetter j ∈ registered := by
  intro k
  induction k using counter_induction with
  | hbig k hk =>
    intro name e _ h
    rw [modifyName_outOfRange hash registered name k (intToLetter_length_big k hk)] at h
    cases h
    exact ⟨rfl, fun j hj _ hj4 => by omega⟩
  | hstep k hk ih =>
    intro name e hg h
    have he4 : (intToLetter k).length ≤ 4 := (intToLetter_length_le_iff k 4 (by omega)).2 hk
    have hfit : name.length + (intToLetter k).length ≤ 4
        ∨ ((intToLetter k).length ≤ 4 ∧ (intToLetter k).length ≤ name.length) := by
      rcases grows_fits name k hg with h1 | h1 | h1
      · exact Or.inl h1
      · exact Or.inr h1
      · omega
    rw [modifyName_newName hash registered name k hfit] at h
    split at h
    · cases h
    · rename_i hu
      have hmem : newName name k ∈ registered := by
        by_contra hc
        exact hu ((isUnique_iff _ _).2 hc)
      obtain ⟨hg1, -, -⟩ := grows_newName name k hg he4
      obtain ⟨hout, hall⟩ := ih (newName name k) e hg1 h
      refine ⟨hout, ?_⟩
      intro j hj h3 h4
      by_cases hjk : j = k
      · subst hjk
        have hfour := intToLetter_length_four j h3 h4
        have hlen : name.length = 4 := by
          obtain ⟨g1, g2, g3⟩ := hg
          by_contra hc
          have := g3 (by omega)
          have : j < 26 := by omega
          omega
        rw [← newName_four name j hlen hfour]
        exact hmem
      · exact hall j (by omega) h3 h4

theorem getCounter_le (hash : Str → Nat) (name : Str) :
    1 ≤ getCounter hash name ∧ getCounter hash name ≤ 9 := by
  have h : getCounter hash name = hash name % 9 + 1 := rfl
  rw [h]
  omega

theorem initialCandidate_grows (hash : Str → Nat) (name : Str) :
    Grows (initialCandidate name) (getCounter hash (initialCandidate name) + 1) := by
  have hl := initialCandidate_length name
  have hc := getCounter_le hash (initialCandidate name)
  unfold Grows
  refine ⟨by omega, by omega, fun _ => by omega⟩

/-- The outcome of `getContextId`: an identifier together with the set it was emplaced in,
or the exception `outOfRange` with all four letter codes registered. -/
theorem getContextId_outcome (hash : Str → Nat) (enc : ContextIdEncoder) (name : Str) :
    (∃ r, getContextId hash enc name = .ok r)
      ∨ (getContextId hash enc name = .error .outOfRange
        ∧ initialCandidate name ∈ enc.registeredContextIds
        ∧ ∀ j, 26 ^ 3 ≤ j → j < 26 ^ 4 → intToLetter j ∈ enc.registeredContextIds) := by
  rw [getContextId_candidate, checkAndEncode_eq]
  by_cases hu : isUnique enc.registeredContextIds (initialCandidate name) = true
  · rw [if_pos hu]
    exact Or.inl ⟨_, rfl⟩
  · rw [if_neg hu]
    have hmem : initialCandidate name ∈ enc.registeredContextIds := by
      by_contra hc
      exact hu ((isUnique_iff _ _).2 hc)
    cases hm : modifyName hash enc.registeredContextIds (initialCandidate name)
        (getCounter hash (initialCandidate name) + 1) with
    | ok id => exact Or.inl ⟨_, rfl⟩
    | error e =>
      obtain ⟨rfl, hall⟩ := modifyName_error hash _ _ _ e (initialCandidate_grows hash name) hm
      refine Or.inr ⟨rfl, hmem, fun j h3 h4 => hall j ?_ h3 h4⟩
      have hc := getCounter_le hash (initialCandidate name)
      omega

theorem char_le_iff (a b : Char) : a ≤ b ↔ a.toNat ≤ b.toNat := by
  rw [Char.le_def]
  exact Iff.rfl

theorem letter_of_toNat (c : Char) (h1 : 'A' ≤ c) (h2 : c ≤ 'Z') :
    Char.ofNat ('A'.toNat + (c.toNat - 'A'.toNat)) = c ∧ c.toNat - 'A'.toNat < 26 := by
  rw [char_le_iff] at h1 h2
  have e1 : 'A'.toNat = 65 := rfl
  have e2 : 'Z'.toNat = 90 := rfl
  rw [e1] at h1
  rw [e2] at h2
  rw [e1]
  have : 65 + (c.toNat - 65) = c.toNat := by omega
  rw [this, Char.ofNat_toNat]
  exact ⟨rfl, by omega⟩

theorem letters_as_digits (s : Str) (hs : ∀ c ∈ s, 'A' ≤ c ∧ c ≤ 'Z') :
    (s.map (fun c => c.toNat - 'A'.toNat)).map (fun v => Char.ofNat ('A'.toNat + v)) = s := by
  induction s with
  | nil => rfl
  | cons a l ih =>
    rw [List.map_cons, List.map_cons, ih (fun c hc => hs c (List.mem_cons_of_mem _ hc)),
      (letter_of_toNat a (hs a (List.mem_cons_self _ _)).1 (hs a (List.mem_cons_self _ _)).2).1]

/-- Every string of letters `A` to `Z` that does not start with `A` is the letter code of
its value. -/
theorem intToLetter_letterValue (s : Str) (hne : s ≠ [])
    (hs : ∀ c ∈ s, 'A' ≤ c ∧ c ≤ 'Z') (hhead : s.head? ≠ some 'A') :
    intToLetter (letterValue s) = s := by
  have hmap := letters_as_digits s hs
  have hds : ∀ d ∈ s.map (fun c => c.toNat - 'A'.toNat), d < 26 := by
    intro d hd
    rw [List.mem_map] at hd
    obtain ⟨c, hc, rfl⟩ := hd
    exact (letter_of_toNat c (hs c hc).1 (hs c hc).2).2
  have hval : letterValue s
      = Nat.ofDigits 26 (s.map (fun c => c.toNat - 'A'.toNat)).reverse := by
    rw [← foldl_reverse_digits, List.reverse_reverse, ← letterValue_map _ hds, hmap]
    rfl
  have hdig : Nat.digits 26 (letterValue s)
      = (s.map (fun c => c.toNat - 'A'.toNat)).reverse := by
    rw [hval]
    apply Nat.digits_ofDigits 26 (by omega)
    · intro d hd
      exact hds d (List.mem_reverse.1 hd)
    · intro hnil
      rw [List.getLast_reverse]
      cases s with
      | nil => exact absurd rfl hne
      | cons a l =>
        simp only [List.map_cons, List.head_cons]
        intro h0
        apply hhead
        have ha := hs a (List.mem_cons_self _ _)
        have := (letter_of_toNat a ha.1 ha.2).1
        rw [h0] at this
        rw [List.head?_cons, ← this]
        rfl
  have hnz : letterValue s ≠ 0 := by
    intro h0
    rw [h0, Nat.digits_zero] at hdig
    have := congrArg List.length hdig
    simp only [List.length_nil, List.length_reverse, List.length_map] at this
    exact hne (List.length_eq_zero.1 this.symm)
  rw [intToLetter_eq_digits, if_neg hnz, hdig, List.reverse_reverse, hmap]

theorem four_letter_code (s : Str) (hlen : s.length = 4)
    (hs : ∀ c ∈ s, 'A' ≤ c ∧ c ≤ 'Z') (hhead : s.head? ≠ some 'A') :
    26 ^ 3 ≤ letterValue s ∧ letterValue s < 26 ^ 4 ∧ intToLetter (letterValue s) = s := by
  have hne : s ≠ [] := by
    intro h
    rw [h] at hlen
    cases hlen
  have hcode := intToLetter_letterValue s hne hs hhead
  have hl : (intToLetter (letterValue s)).length = 4 := by rw [hcode, hlen]
  refine ⟨?_, lt_of_fits _ (by omega), hcode⟩
  by_contra hc
  have := (intToLetter_length_le_iff (letterValue s) 3 (by omega)).2 (by omega)
  omega

/-- C19: `getContextId` either returns or throws `outOfRange`, never `negativeLength`. The
candidate and the first counter satisfy `Grows` (a name shorter than 4 comes with a counter
that is still below 26 when the name has grown to 4 characters); on such a name, when the
letter code has at most 4 letters and does not fit, the name is at least as long as the code,
the next name and counter satisfy `Grows` again, and the only exception that `modifyName`
throws is `outOfRange`. -/
theorem C19_negative_length_never_thrown (hash : Str → Nat) (enc : ContextIdEncoder)
    (name : Str) :
    ((∃ r, getContextId hash enc name = .ok r)
        ∨ getContextId hash enc name = .error .outOfRange)
      ∧ Grows (initialCandidate name) (getCounter hash (initialCandidate name) + 1)
      ∧ (∀ cur k, Grows cur k → (intToLetter k).length ≤ 4 →
          ¬ cur.length + (intToLetter k).length ≤ 4 →
          (intToLetter k).length ≤ cur.length)
      ∧ (∀ cur k, Grows cur k → (intToLetter k).length ≤ 4 → Grows (newName cur k) (k + 1))
      ∧ (∀ cur k e, Grows cur k →
          modifyName hash enc.registeredContextIds cur k = .error e → e = .outOfRange) := by
  refine ⟨?_, initialCandidate_grows hash name, ?_, ?_, ?_⟩
  · rcases getContextId_outcome hash enc name with hr | ⟨hout, -, -⟩
    · exact Or.inl hr
    · exact Or.inr hout
  · intro cur k hg he hfit
    rcases grows_fits cur k hg with h1 | h1 | h1
    · exact absurd h1 hfit
    · exact h1.2
    · omega
  · intro cur k hg he
    exact (grows_newName cur k hg he).1
  · intro cur k e hg h
    exact (modifyName_error hash _ k cur e hg h).1

/-- C19, witness: on the four character name `ABCD` the two letter code of 26 does not fit
and is not longer than the name; the name `AB` with the counter 3 grows to `ABD` with the
counter 4; and at the counter `26 ^ 4` `modifyName` throws `outOfRange`. -/
theorem C19_negative_length_never_thrown_witness :
    (intToLetter 26).length ≤ ("ABCD".toList).length
      ∧ Grows (newName "AB".toList 3) 4
      ∧ modifyName zeroHash [] "ABCD".toList (26 ^ 4) = .error .outOfRange := by
  have hthm := C19_negative_length_never_thrown zeroHash { registeredContextIds := [] } []
  refine ⟨hthm.2.2.1 "ABCD".toList 26 ⟨by decide, by decide, fun hc => absurd hc (by decide)⟩
      (by decide) (by decide),
    hthm.2.2.2.1 "AB".toList 3 ⟨by decide, by decide, fun _ => by decide⟩ (by decide),
    modifyName_outOfRange _ _ _ _ (by decide)⟩

/-! ## The characters of an identifier -/

theorem toUpper_upperOrDigit (c : Char) (h : isLetterOrDigit c = true) :
    isUpperOrDigit c.toUpper = true := by
  have hu : c.toUpper
      = if c.toNat ≥ 97 ∧ c.toNat ≤ 122 then Char.ofNat (c.toNat - 32) else c := rfl
  simp only [isLetterOrDigit, decide_eq_true_eq] at h
  by_cases hl : c.toNat ≥ 97 ∧ c.toNat ≤ 122
  · rw [hu, if_pos hl]
    obtain ⟨h1, h2⟩ := hl
    generalize c.toNat = n at h1 h2
    interval_cases n <;> decide
  · rw [hu, if_neg hl]
    simp only [isUpperOrDigit, decide_eq_true_eq]
    rcases h with h | h | h
    · exfalso
      apply hl
      rw [char_le_iff, char_le_iff] at h
      exact h
    · exact Or.inl h
    · exact Or.inr h

theorem letter_upperOrDigit (c : Char) (h : 'A' ≤ c ∧ c ≤ 'Z') : isUpperOrDigit c = true := by
  simp only [isUpperOrDigit, decide_eq_true_eq]
  exact Or.inl h

theorem getD_mem (name : Str) (i : Nat) (h : i < name.length) : name.getD i default ∈ name := by
  rw [List.getD_eq_getElem?_getD, List.getElem?_eq_getElem h]
  exact List.getElem_mem h

theorem shrinkName_subset (name : Str) : ∀ c ∈ shrinkName name, c ∈ name := by
  intro c hc
  by_cases hlen : name.length ≤ 4
  · rwa [shrinkName_short name hlen] at hc
  · have hq : name.length / 4 * 4 ≤ name.length := Nat.div_mul_le_self _ _
    rw [shrinkName_long name (by omega)] at hc
    simp only [List.mem_cons, List.mem_singleton, List.not_mem_nil, or_false] at hc
    rcases hc with rfl | rfl | rfl | rfl
    · exact getD_mem name _ (by omega)
    · exact getD_mem name _ (by omega)
    · exact getD_mem name _ (by omega)
    · exact getD_mem name _ (by omega)

theorem initialCandidate_chars (name : Str) :
    ∀ c ∈ initialCandidate name, isUpperOrDigit c = true := by
  intro c hc
  have hc2 := shrinkName_subset _ c hc
  rw [List.mem_map] at hc2
  obtain ⟨a, ha, rfl⟩ := hc2
  apply toUpper_upperOrDigit
  by_cases hemp : (filterName name).isEmpty = true
  · rw [if_pos hemp, List.mem_singleton] at ha
    subst ha
    decide
  · rw [if_neg hemp, filterName_eq_filter, List.mem_filter] at ha
    exact ha.2

/-- C20: an identifier that `getContextId` returns is not empty, has at most 4 characters,
and each of its characters is an upper case letter `A` to `Z` or a digit `0` to `9`. -/
theorem C20_identifier_well_formed (hash : Str → Nat) (enc enc1 : ContextIdEncoder)
    (name id : Str) (h : getContextId hash enc name = .ok (id, enc1)) :
    id ≠ [] ∧ id.length ≤ 4
      ∧ ∀ c ∈ id, ('A' ≤ c ∧ c ≤ 'Z') ∨ ('0' ≤ c ∧ c ≤ '9') := by
  rw [getContextId_candidate] at h
  split at h
  · cases h
  · rename_i ctx_id hc
    simp only [Except.ok.injEq, Prod.mk.injEq] at h
    obtain ⟨rfl, -⟩ := h
    have hl := initialCandidate_length name
    have hQ := (checkAndEncode_invariant hash enc.registeredContextIds
      (fun s => (∀ c ∈ s, isUpperOrDigit c = true) ∧ 1 ≤ s.length ∧ s.length ≤ 4)
      ?_ ?_ _ _ _ ⟨initialCandidate_chars name, by omega, by omega⟩ hc).1
    · obtain ⟨hchars, h1, h4⟩ := hQ
      refine ⟨?_, h4, ?_⟩
      · intro hnil
        rw [hnil] at h1
        simp at h1
      · intro c hcmem
        simpa [isUpperOrDigit] using hchars c hcmem
    · intro s k hs hfit
      obtain ⟨hchars, h1, h4⟩ := hs
      refine ⟨?_, ?_, ?_⟩
      · intro c hcmem
        rcases List.mem_append.1 hcmem with hm | hm
        · exact hchars c hm
        · exact letter_upperOrDigit c (intToLetter_letters k c hm)
      · rw [List.length_append]; omega
      · rw [List.length_append]; exact hfit
    · intro s k hs _ he hle
      obtain ⟨hchars, h1, h4⟩ := hs
      refine ⟨?_, ?_, ?_⟩
      · intro c hcmem
        rcases List.mem_append.1 hcmem with hm | hm
        · exact hchars c (List.mem_of_mem_take hm)
        · exact letter_upperOrDigit c (intToLetter_letters k c hm)
      · rw [List.length_append, List.length_take]; omega
      · rw [List.length_append, List.length_take]; omega

/-- C20, witness: with `V2X9` registered, the name `v2x-9` gets `V2XC`. -/
theorem C20_identifier_well_formed_witness :
    getContextId (fun _ => 0) { registeredContextIds := ["V2X9".toList] } "v2x-9".toList
        = .ok ("V2XC".toList, { registeredContextIds := ["V2X9".toList, "V2XC".toList] })
      ∧ "V2XC".toList ≠ [] ∧ ("V2XC".toList).length ≤ 4 := by
  have heval : getContextId (fun _ => 0) { registeredContextIds := ["V2X9".toList] }
      "v2x-9".toList
      = .ok ("V2XC".toList, { registeredContextIds := ["V2X9".toList, "V2XC".toList] }) := by
    rw [getContextId_eq, checkAndEncode_eq, if_neg (by decide),
      modifyName_eq, if_neg (by decide), if_neg (by decide), if_neg (by decide),
      checkAndEncode_eq, if_pos (by decide)]
    decide
  have hthm := C20_identifier_well_formed _ _ _ _ _ heval
  exact ⟨heval, hthm.1, hthm.2.1⟩

/-! ## The alternatives that are checked -/

theorem getContextId_collision (hash : Str → Nat) (enc : ContextIdEncoder) (name : Str)
    (hreg : initialCandidate name ∈ enc.registeredContextIds) :
    getContextId hash enc name
      = match modifyName hash enc.registeredContextIds (initialCandidate name)
            (getCounter hash (initialCandidate name) + 1) with
        | .error e => .error e
        | .ok ctx_id =>
          .ok (ctx_id, { registeredContextIds := emplace enc.registeredContextIds ctx_id }) := by
  have hu : ¬ isUnique enc.registeredContextIds (initialCandidate name) = true := by
    intro h
    exact (isUnique_iff _ _).1 h hreg
  rw [getContextId_candidate, checkAndEncode_eq, if_neg hu]

theorem grows_round (hash : Str → Nat) (registered : List Str) (cur : Str) (k : Nat)
    (hg : Grows cur k) (he : (intToLetter k).length ≤ 4) :
    modifyName hash registered cur k
      = if isUnique registered (newName cur k) then .ok (newName cur k)
        else modifyName hash registered (newName cur k) (k + 1) := by
  apply modifyName_newName
  rcases grows_fits cur k hg with h1 | h1 | h1
  · exact Or.inl h1
  · exact Or.inr h1
  · omega

theorem single_letter (k : Nat) (h : k < 26) :
    intToLetter k = [Char.ofNat ('A'.toNat + k)] := by
  interval_cases k <;> decide

/-- C15, as the code has it: when the initial candidate `c` of a name is registered, the
first alternative that `getContextId` has checked is built by `modifyName` with the counter
`(hash c mod 9) + 2`, one more than the value `(hash c mod 9) + 1` of `getCounter`; this
counter lies in `[2, 10]` and its code is one letter from `C` to `K`. That alternative is
returned when it is not registered; otherwise the next one is built from it with the counter
plus one, and so on for every later round. -/
theorem C15_first_alternative_counter (hash : Str → Nat) (enc : ContextIdEncoder)
    (name : Str) (hreg : initialCandidate name ∈ enc.registeredContextIds) :
    getCounter hash (initialCandidate name) = hash (initialCandidate name) % 9 + 1
      ∧ getContextId hash enc name
        = (match modifyName hash enc.registeredContextIds (initialCandidate name)
              (hash (initialCandidate name) % 9 + 2) with
          | .error e => .error e
          | .ok ctx_id =>
            .ok (ctx_id,
              { registeredContextIds := emplace enc.registeredContextIds ctx_id }))
      ∧ 2 ≤ hash (initialCandidate name) % 9 + 2 ∧ hash (initialCandidate name) % 9 + 2 ≤ 10
      ∧ intToLetter (hash (initialCandidate name) % 9 + 2)
        = [Char.ofNat ('A'.toNat + (hash (initialCandidate name) % 9 + 2))]
      ∧ 'C' ≤ Char.ofNat ('A'.toNat + (hash (initialCandidate name) % 9 + 2))
      ∧ Char.ofNat ('A'.toNat + (hash (initialCandidate name) % 9 + 2)) ≤ 'K'
      ∧ (newName (initialCandidate name) (hash (initialCandidate name) % 9 + 2)
            ∉ enc.registeredContextIds →
          getContextId hash enc name
            = .ok (newName (initialCandidate name) (hash (initialCandidate name) % 9 + 2),
                { registeredContextIds := enc.registeredContextIds ++
                    [newName (initialCandidate name)
                      (hash (initialCandidate name) % 9 + 2)] }))
      ∧ (∀ cur k, Grows cur k → (intToLetter k).length ≤ 4 →
          modifyName hash enc.registeredContextIds cur k
            = if isUnique enc.registeredContextIds (newName cur k) then .ok (newName cur k)
              else modifyName hash enc.registeredContextIds (newName cur k) (k + 1)) := by
  have hk : hash (initialCandidate name) % 9 < 9 := Nat.mod_lt _ (by omega)
  have hcol := getContextId_collision hash enc name hreg
  have hcount : getCounter hash (initialCandidate name) + 1
      = hash (initialCandidate name) % 9 + 2 := rfl
  rw [hcount] at hcol
  have hgrow := initialCandidate_grows hash name
  rw [hcount] at hgrow
  have hone := intToLetter_length_one (hash (initialCandidate name) % 9 + 2) (by omega)
  refine ⟨rfl, hcol, by omega, by omega, single_letter _ (by omega), ?_, ?_, ?_, ?_⟩
  · generalize hash (initialCandidate name) % 9 = r at hk
    interval_cases r <;> decide
  · generalize hash (initialCandidate name) % 9 = r at hk
    interval_cases r <;> decide
  · intro hnew
    rw [hcol, grows_round hash _ _ _ hgrow (by omega), if_pos ((isUnique_iff _ _).2 hnew)]
    simp only [emplace_new _ _ hnew]
  · intro cur k hg he
    exact grows_round hash _ cur k hg he

/-- C15, witness: with `ABCD` registered and the hash `zeroHash`, the name `abcd` gets
`ABCC`, built with the counter 2. -/
theorem C15_first_alternative_counter_witness :
    getContextId zeroHash { registeredContextIds := ["ABCD".toList] } "abcd".toList
      = .ok ("ABCC".toList, { registeredContextIds := ["ABCD".toList, "ABCC".toList] }) :=
  ((C15_first_alternative_counter zeroHash { registeredContextIds := ["ABCD".toList] }
    "abcd".toList (by decide)).2.2.2.2.2.2.2.1 (by decide)).trans (by decide)

/-- C15, counterexample: with `ABCD` registered and the hash `zeroHash`, `getCounter`
gives 1, whose code is `B`; the alternative `ABCB` with that suffix is not registered, yet
`getContextId` returns `ABCC`, whose suffix `C` is the code of 2. -/
theorem C15_counter_plus_one_counterexample :
    getContextId zeroHash { registeredContextIds := ["ABCD".toList] } "abcd".toList
        = .ok ("ABCC".toList, { registeredContextIds := ["ABCD".toList, "ABCC".toList] })
      ∧ initialCandidate "abcd".toList = "ABCD".toList
      ∧ intToLetter (zeroHash "ABCD".toList % 9 + 1) = "B".toList
      ∧ alternative "ABCD".toList (zeroHash "ABCD".toList % 9 + 1) = "ABCB".toList
      ∧ "ABCB".toList ∉ ["ABCD".toList]
      ∧ "ABCC".toList ≠ "ABCB".toList
      ∧ "ABCC".toList = "ABC".toList ++ intToLetter 2 := by
  refine ⟨?_, by decide, by decide, by decide, by decide, by decide, by decide⟩
  rw [getContextId_eq, checkAndEncode_eq, if_neg (by decide),
    modifyName_eq, if_neg (by decide), if_neg (by decide), if_neg (by decide),
    checkAndEncode_eq, if_pos (by decide)]
  decide

theorem alternative_long (c : Str) (k : Nat) (hc : 3 ≤ c.length) :
    alternative c k = c.take (4 - (intToLetter k).length) ++ intToLetter k := by
  unfold alternative
  have := intToLetter_length_pos k
  rw [Nat.min_eq_right (by omega)]

/-- On a four character name that starts like the candidate `c` (of 3 or 4 characters),
`modifyName` returns the first alternative of `c`, from the current counter on, that is not
registered. -/
theorem modifyName_first_fit (hash : Str → Nat) (registered : List Str) (c : Str)
    (hc3 : 3 ≤ c.length) (hc4 : c.length ≤ 4) :
    ∀ (k : Nat) (cur id : Str), cur.length = 4 →
      cur.take (4 - (intToLetter k).length) = c.take (4 - (intToLetter k).length) →
      modifyName hash registered cur k = .ok id →
      ∃ k1, k ≤ k1 ∧ id = alternative c k1
        ∧ ∀ j, k ≤ j → j < k1 → alternative c j ∈ registered := by
  intro k
  induction k using counter_induction with
  | hbig k hk =>
    intro cur id _ _ h
    rw [modifyName_outOfRange hash registered cur k (intToLetter_length_big k hk)] at h
    cases h
  | hstep k hk ih =>
    intro cur id hlen hpre h
    have he4 : (intToLetter k).length ≤ 4 := (intToLetter_length_le_iff k 4 (by omega)).2 hk
    have hp := intToLetter_length_pos k
    have hnew : newName cur k = alternative c k := by
      unfold newName
      rw [if_neg (by omega), hlen, hpre, alternative_long c k hc3]
    rw [modifyName_newName hash registered cur k (Or.inr ⟨he4, by omega⟩), hnew] at h
    split at h
    · cases h
      exact ⟨k, le_rfl, rfl, fun j h1 h2 => by omega⟩
    · rename_i hu
      have hmem : alternative c k ∈ registered := by
        by_contra hcon
        exact hu ((isUnique_iff _ _).2 hcon)
      have hmono := intToLetter_length_mono k (k + 1) (by omega)
      have hlen1 : (alternative c k).length = 4 := by
        rw [alternative_long c k hc3, List.length_append, List.length_take]
        omega
      have hpre1 : (alternative c k).take (4 - (intToLetter (k + 1)).length)
          = c.take (4 - (intToLetter (k + 1)).length) := by
        rw [alternative_long c k hc3, List.take_append_of_le_length
          (by rw [List.length_take]; omega), List.take_take, Nat.min_eq_left (by omega)]
      obtain ⟨k1, hk1, hid, hall⟩ := ih (alternative c k) id hlen1 hpre1 h
      refine ⟨k1, by omega, hid, ?_⟩
      intro j h1 h2
      by_cases hjk : j = k
      · subst hjk
        exact hmem
      · exact hall j (by omega) h2

/-- C16, as the code has it: for a name whose initial candidate `c` has 3 or 4 characters and
is registered, the identifier that `getContextId` returns is the alternative of `c` (the
prefix of `c` of length `min |c| (4 - |intToLetter k|)` followed by `intToLetter k`) for the
first counter `k`, from `getCounter + 1` on, whose alternative is not registered: every
alternative checked is built from `c` alone. For every candidate, also of 1 or 2 characters,
the name checked in a round is `newName` of the name checked in the round before; for a
candidate of at most 2 characters the second name checked is the candidate followed by the
letters of both counters. -/
theorem C16_alternatives_from_candidate (hash : Str → Nat) (enc : ContextIdEncoder) :
    (∀ (enc1 : ContextIdEncoder) (name id : Str), 3 ≤ (initialCandidate name).length →
      initialCandidate name ∈ enc.registeredContextIds →
      getContextId hash enc name = .ok (id, enc1) →
      ∃ k, getCounter hash (initialCandidate name) + 1 ≤ k
        ∧ id = alternative (initialCandidate name) k
        ∧ ∀ j, getCounter hash (initialCandidate name) + 1 ≤ j → j < k →
            alternative (initialCandidate name) j ∈ enc.registeredContextIds)
    ∧ (∀ cur k, Grows cur k → (intToLetter k).length ≤ 4 →
        modifyName hash enc.registeredContextIds cur k
          = if isUnique enc.registeredContextIds (newName cur k) then .ok (newName cur k)
            else modifyName hash enc.registeredContextIds (newName cur k) (k + 1))
    ∧ (∀ (c : Str) (k : Nat), c.length ≤ 2 → k + 1 < 26 →
        newName (newName c k) (k + 1) = c ++ intToLetter k ++ intToLetter (k + 1)) := by
  refine ⟨?_, fun cur k hg he => grows_round hash _ cur k hg he, ?_⟩
  swap
  · intro c k hc hk
    have h1 := intToLetter_length_one k (by omega)
    have h2 := intToLetter_length_one (k + 1) hk
    have hfirst : newName c k = c ++ intToLetter k := by
      unfold newName
      rw [if_pos (by omega)]
    rw [hfirst]
    unfold newName
    rw [if_pos (by rw [List.length_append]; omega)]
  intro enc1 name id hlen hreg h
  have hl4 : (initialCandidate name).length ≤ 4 := by
    rw [initialCandidate_length]; omega
  have hcnt := getCounter_le hash (initialCandidate name)
  rw [getContextId_collision hash enc name hreg] at h
  split at h
  · cases h
  · rename_i ctx_id hm
    simp only [Except.ok.injEq, Prod.mk.injEq] at h
    obtain ⟨rfl, -⟩ := h
    by_cases h4 : (initialCandidate name).length = 4
    · exact modifyName_first_fit hash _ _ hlen hl4 _ _ _ h4 rfl hm
    · have hone := intToLetter_length_one (getCounter hash (initialCandidate name) + 1)
        (by omega)
      have hnew : newName (initialCandidate name) (getCounter hash (initialCandidate name) + 1)
          = alternative (initialCandidate name)
              (getCounter hash (initialCandidate name) + 1) := by
        unfold newName
        rw [if_pos (by omega), alternative_long _ _ hlen, hone,
          List.take_of_length_le (by omega)]
      rw [modifyName_newName hash _ _ _ (Or.inl (by omega)), hnew] at hm
      split at hm
      · cases hm
        exact ⟨_, le_rfl, rfl, fun j h1 h2 => by omega⟩
      · rename_i hu
        have hmem : alternative (initialCandidate name)
            (getCounter hash (initialCandidate name) + 1) ∈ enc.registeredContextIds := by
          by_contra hcon
          exact hu ((isUnique_iff _ _).2 hcon)
        have hp := intToLetter_length_pos (getCounter hash (initialCandidate name) + 1 + 1)
        have hlen1 : (alternative (initialCandidate name)
            (getCounter hash (initialCandidate name) + 1)).length = 4 := by
          rw [alternative_long _ _ hlen, List.length_append, List.length_take]
          omega
        have hpre1 : (alternative (initialCandidate name)
              (getCounter hash (initialCandidate name) + 1)).take
              (4 - (intToLetter (getCounter hash (initialCandidate name) + 1 + 1)).length)
            = (initialCandidate name).take
              (4 - (intToLetter (getCounter hash (initialCandidate name) + 1 + 1)).length) := by
          rw [alternative_long _ _ hlen, List.take_append_of_le_length
            (by rw [List.length_take]; omega), List.take_take, Nat.min_eq_left (by omega)]
        obtain ⟨k1, hk1, hid, hall⟩ := modifyName_first_fit hash _ _ hlen hl4 _ _ _
          hlen1 hpre1 hm
        refine ⟨k1, by omega, hid, ?_⟩
        intro j h1 h2
        by_cases hjk : j = getCounter hash (initialCandidate name) + 1
        · rw [hjk]
          exact hmem
        · exact hall j (by omega) h2

/-- C16, witness: with `ABC` and `ABCC` registered, the name `abc` (candidate `ABC`, first
counter 2) gets `ABCD`, the alternative of `ABC` for the counter 3. -/
theorem C16_alternatives_from_candidate_witness :
    getContextId zeroHash { registeredContextIds := ["ABC".toList, "ABCC".toList] }
        "abc".toList
      = .ok ("ABCD".toList,
          { registeredContextIds := ["ABC".toList, "ABCC".toList, "ABCD".toList] })
    ∧ "ABCD".toList = alternative "ABC".toList 3
    ∧ ∃ k, getCounter zeroHash (initialCandidate "abc".toList) + 1 ≤ k
      ∧ "ABCD".toList = alternative (initialCandidate "abc".toList) k
      ∧ ∀ j, getCounter zeroHash (initialCandidate "abc".toList) + 1 ≤ j → j < k →
          alternative (initialCandidate "abc".toList) j
            ∈ ["ABC".toList, "ABCC".toList] := by
  have heval : getContextId zeroHash
      { registeredContextIds := ["ABC".toList, "ABCC".toList] } "abc".toList
      = .ok ("ABCD".toList,
          { registeredContextIds := ["ABC".toList, "ABCC".toList, "ABCD".toList] }) := by
    rw [getContextId_eq, checkAndEncode_eq, if_neg (by decide),
      modifyName_eq, if_pos (by decide), checkAndEncode_eq, if_neg (by decide),
      modifyName_eq, if_neg (by decide), if_neg (by decide), if_neg (by decide),
      checkAndEncode_eq, if_pos (by decide)]
    decide
  exact ⟨heval, by decide,
    (C16_alternatives_from_candidate zeroHash _).1 _ _ _ (by decide) (by decide) heval⟩

/-- C16, counterexample: the name `ab` has the candidate `AB` and the first counter 2. With
`AB` and `ABC` registered, the alternatives of `AB` are `ABC` for the counter 2 (registered)
and `ABD` for the counter 3 (not registered), but `getContextId` returns `ABCD`: the name
checked for the counter 3 is built from `ABC` and keeps the letter `C` of the counter 2. -/
theorem C16_original_candidate_counterexample :
    getContextId zeroHash { registeredContextIds := ["AB".toList, "ABC".toList] } "ab".toList
        = .ok ("ABCD".toList,
            { registeredContextIds := ["AB".toList, "ABC".toList, "ABCD".toList] })
      ∧ initialCandidate "ab".toList = "AB".toList
      ∧ getCounter zeroHash "AB".toList + 1 = 2
      ∧ alternative "AB".toList 2 = "ABC".toList
      ∧ alternative "AB".toList 3 = "ABD".toList
      ∧ "ABD".toList ∉ ["AB".toList, "ABC".toList]
      ∧ "ABCD".toList ≠ "ABD".toList
      ∧ "ABCD".toList = newName (newName "AB".toList 2) 3 := by
  refine ⟨?_, by decide, by decide, by decide, by decide, by decide, by decide, by decide⟩
  rw [getContextId_eq, checkAndEncode_eq, if_neg (by decide),
    modifyName_eq, if_pos (by decide), checkAndEncode_eq, if_neg (by decide),
    modifyName_eq, if_pos (by decide), checkAndEncode_eq, if_pos (by decide)]
  decide

/-! ## The branches of the reading loop -/

theorem dispatch_events_cases (hash : Str → Nat) (s : State) :
    (∃ ctx level text, (dispatch hash s).events = [Event.contextLog ctx level text])
      ∨ (∃ ctx text level input,
          (dispatch hash s).events
            = [Event.registerContext ctx, Event.selfLog DLT_LOG_INFO text,
                Event.contextLog ctx level input])
      ∨ (dispatch hash s).events = [] := by
  cases hl : s.dlt_contexts.lookup s.parsingContext.metadata.getLogContext.name with
  | some ctx => exact Or.inl ⟨_, _, _, (dispatch_known hash s ctx hl).1⟩
  | none =>
    cases hid : getContextId hash s.id_encoder s.parsingContext.metadata.getLogContext.name with
    | error e => exact Or.inr (Or.inr (dispatch_error hash s e hl hid).1)
    | ok r =>
      obtain ⟨ctx_id, enc⟩ := r
      exact Or.inr (Or.inl ⟨_, _, _, _, (dispatch_new hash s ctx_id enc hl hid).1⟩)

theorem corrupted_metadata_ne (lineInput : Str) :
    "Corrupted metadata: ".toList ++ lineInput ≠ "Corrupted parsing context".toList := by
  intro h
  have h11 := congrArg (List.take 11) h
  have e1 : List.take 11 ("Corrupted metadata: ".toList ++ lineInput) = "Corrupted m".toList :=
    rfl
  have e2 : List.take 11 "Corrupted parsing context".toList = "Corrupted p".toList := rfl
  rw [e1, e2] at h11
  exact absurd h11 (by decide)

/-- The events of one line, for a state in which metadata is stored when the step is
`MESSAGE`: the three branches of the loop body, the last with the events of `dispatch`. -/
theorem processLine_events (hash : Str → Nat) (s : State) (lineInput : Str)
    (hmeta : s.parsingContext.step_ = .MESSAGE → s.parsingContext.metadata_.isSome = true) :
    (∃ text, (processLine hash s lineInput).events
        = [Event.selfLog DLT_LOG_VERBOSE lineInput, Event.selfLog DLT_LOG_VERBOSE text])
      ∨ (∃ text, (processLine hash s lineInput).events
        = [Event.selfLog DLT_LOG_VERBOSE lineInput, Event.selfLog DLT_LOG_VERBOSE text,
            Event.selfLog DLT_LOG_VERBOSE "ParsingContext::Step::METADATA".toList])
      ∨ ((processLine hash s lineInput).events
        = [Event.selfLog DLT_LOG_VERBOSE lineInput,
            Event.selfLog DLT_LOG_VERBOSE "Valid input line".toList,
            Event.selfLog DLT_LOG_VERBOSE "ParsingContext::Step::METADATA".toList,
            Event.selfLog DLT_LOG_WARN ("Corrupted metadata: ".toList ++ lineInput)])
      ∨ (∃ s1, (processLine hash s lineInput).events
        = [Event.selfLog DLT_LOG_VERBOSE lineInput,
            Event.selfLog DLT_LOG_VERBOSE "Valid input line".toList,
            Event.selfLog DLT_LOG_VERBOSE "DEBUG: ParsingContext::Step::MESSAGE".toList]
          ++ (dispatch hash s1).events) := by
  by_cases h0 : lineInput.length = 0
  · left
    refine ⟨"Null line".toList, ?_⟩
    simp only [processLine, if_pos h0]
    rfl
  · by_cases h3 : lineInput = "\n".toList
    · left
      refine ⟨"Next line".toList, ?_⟩
      simp only [processLine, if_neg h0, if_pos h3]
      rfl
    · cases hstep : s.parsingContext.step_ with
      | METADATA =>
        have hcur : s.parsingContext.currentStep = .METADATA := hstep
        cases hparse : parseMetadata lineInput with
        | none =>
          right; right; left
          simp only [processLine, if_neg h0, if_neg h3, hcur, hparse]
          rfl
        | some metadata =>
          right; left
          refine ⟨"Valid input line".toList, ?_⟩
          simp only [processLine, if_neg h0, if_neg h3, hcur, hparse]
          rfl
      | MESSAGE =>
        have hcur : s.parsingContext.currentStep = .MESSAGE := hstep
        right; right; right
        have hc : (s.parsingContext.setMessage lineInput).isCompleted = true := by
          simp only [ParsingContext.isCompleted, ParsingContext.setMessage, hmeta hstep,
            Option.isSome_some, Bool.and_self]
        refine ⟨{ s with parsingContext := s.parsingContext.setMessage lineInput }, ?_⟩
        simp only [processLine, if_neg h0, if_neg h3, hcur, hc, if_true]
        split <;> rfl

theorem processLine_not_corrupted (hash : Str → Nat) (s : State) (lineInput : Str)
    (hmeta : s.parsingContext.step_ = .MESSAGE → s.parsingContext.metadata_.isSome = true) :
    Event.selfLog DLT_LOG_WARN "Corrupted parsing context".toList
      ∉ (processLine hash s lineInput).events := by
  intro hmem
  have hverb : ∀ text, Event.selfLog DLT_LOG_WARN "Corrupted parsing context".toList
      ≠ Event.selfLog DLT_LOG_VERBOSE text := by
    intro text h
    cases h
  rcases processLine_events hash s lineInput hmeta with ⟨t, h⟩ | ⟨t, h⟩ | h | ⟨s1, h⟩
  · rw [h] at hmem
    simp only [List.mem_cons, List.mem_singleton, List.not_mem_nil, or_false] at hmem
    rcases hmem with hm | hm
    · exact hverb _ hm
    · exact hverb _ hm
  · rw [h] at hmem
    simp only [List.mem_cons, List.mem_singleton, List.not_mem_nil, or_false] at hmem
    rcases hmem with hm | hm | hm
    · exact hverb _ hm
    · exact hverb _ hm
    · exact hverb _ hm
  · rw [h] at hmem
    simp only [List.mem_cons, List.mem_singleton, List.not_mem_nil, or_false] at hmem
    rcases hmem with hm | hm | hm | hm
    · exact hverb _ hm
    · exact hverb _ hm
    · exact hverb _ hm
    · injection hm with _ htext
      exact corrupted_metadata_ne lineInput htext.symm
  · rw [h] at hmem
    rcases List.mem_append.1 hmem with hm | hm
    · simp only [List.mem_cons, List.mem_singleton, List.not_mem_nil, or_false] at hm
      rcases hm with hm | hm | hm
      · exact hverb _ hm
      · exact hverb _ hm
      · exact hverb _ hm
    · rcases dispatch_events_cases hash s1 with ⟨c, l, t, hd⟩ | ⟨c, t, l, i, hd⟩ | hd
      · rw [hd, List.mem_singleton] at hm
        cases hm
      · rw [hd] at hm
        simp only [List.mem_cons, List.mem_singleton, List.not_mem_nil, or_false] at hm
        rcases hm with hm | hm | hm
        · cases hm
        · injection hm with hlvl _
          cases hlvl
        · cases hm
      · rw [hd] at hm
        cases hm

theorem dispatch_outcome (hash : Str → Nat) (s : State) :
    (∃ s1, (dispatch hash s).next = .ok s1)
      ∨ ((dispatch hash s).next = .error .outOfRange ∧ (dispatch hash s).events = []
        ∧ s.dlt_contexts.lookup s.parsingContext.metadata.getLogContext.name = none
        ∧ getContextId hash s.id_encoder s.parsingContext.metadata.getLogContext.name
          = .error .outOfRange) := by
  cases hl : s.dlt_contexts.lookup s.parsingContext.metadata.getLogContext.name with
  | some ctx => exact Or.inl ⟨s, (dispatch_known hash s ctx hl).2⟩
  | none =>
    rcases getContextId_outcome hash s.id_encoder
      s.parsingContext.metadata.getLogContext.name with ⟨⟨ctx_id, enc⟩, hr⟩ | ⟨hout, -, -⟩
    · exact Or.inl ⟨_, (dispatch_new hash s ctx_id enc hl hr).2⟩
    · obtain ⟨h1, h2⟩ := dispatch_error hash s _ hl hout
      exact Or.inr ⟨h2, h1, rfl, hout⟩

/-! ## A run that exhausts the identifiers -/

theorem letter_facts (d : Nat) (h : d < 26) :
    isSpace (Char.ofNat ('A'.toNat + d)) = false
      ∧ isLetterOrDigit (Char.ofNat ('A'.toNat + d)) = true
      ∧ (Char.ofNat ('A'.toNat + d)).toUpper = Char.ofNat ('A'.toNat + d) := by
  interval_cases d <;> decide

theorem intToLetter_chars (k : Nat) :
    ∀ c ∈ intToLetter k,
      isSpace c = false ∧ isLetterOrDigit c = true ∧ c.toUpper = c := by
  intro c hc
  rw [intToLetter_eq_digits, List.mem_map] at hc
  obtain ⟨d, hd, rfl⟩ := hc
  apply letter_facts
  by_cases hv : k = 0
  · rw [if_pos hv, List.mem_singleton] at hd
    omega
  · rw [if_neg hv] at hd
    exact Nat.digits_lt_base (by omega) (List.mem_reverse.1 hd)

theorem initialCandidate_code (k : Nat) (h3 : 26 ^ 3 ≤ k) (h4 : k < 26 ^ 4) :
    initialCandidate (intToLetter k) = intToLetter k := by
  have hchars := intToLetter_chars k
  have hlen := intToLetter_length_four k h3 h4
  have hf : filterName (intToLetter k) = intToLetter k := by
    rw [filterName_eq_filter, List.filter_eq_self]
    exact fun c hc => (hchars c hc).2.1
  have hne : (intToLetter k).isEmpty = false := by
    cases hk : intToLetter k with
    | nil => exact absurd hk (intToLetter_ne_nil k)
    | cons a l => rfl
  have hup : (intToLetter k).map Char.toUpper = intToLetter k := by
    conv_rhs => rw [← List.map_id (intToLetter k)]
    apply List.map_congr_left
    intro c hc
    exact (hchars c hc).2.2
  unfold initialCandidate
  rw [hf, hne]
  simp only [Bool.false_eq_true, if_false]
  rw [hup, shrinkName_short _ (by omega)]

theorem getContextId_fresh (hash : Str → Nat) (enc : ContextIdEncoder) (name : Str)
    (h : initialCandidate name ∉ enc.registeredContextIds) :
    getContextId hash enc name
      = .ok (initialCandidate name,
          { registeredContextIds := enc.registeredContextIds ++ [initialCandidate name] }) := by
  rw [getContextId_candidate, checkAndEncode_eq, if_pos ((isUnique_iff _ _).2 h)]
  simp only [emplace_new _ _ h]

theorem tokenizeFrom_word (w : Str) (hw : ∀ c ∈ w, isSpace c = false) (rest token : Str)
    (inSeparator : Bool) (hne : w ≠ []) :
    tokenizeFrom (w ++ rest) token inSeparator = tokenizeFrom rest (token ++ w) false := by
  induction w generalizing token inSeparator with
  | nil => exact absurd rfl hne
  | cons a l ih =>
    have ha : isSpace a = false := hw a (List.mem_cons_self _ _)
    rw [List.cons_append, tokenizeFrom, if_neg (by simp [ha])]
    by_cases hl : l = []
    · subst hl
      rfl
    · rw [ih (fun c hc => hw c (List.mem_cons_of_mem _ hc)) _ _ hl]
      simp

theorem tokenize_recordHeader (k : Nat) :
    tokenize (recordHeader k)
      = ["[".toList, "1".toList, "2".toList, "3".toList, "E/".toList ++ intToLetter k,
          "]".toList] := by
  have h1 : tokenize (recordHeader k)
      = "[".toList :: "1".toList :: "2".toList :: "3".toList ::
          tokenizeFrom (intToLetter k ++ " ]".toList) "E/".toList false := by
    unfold recordHeader
    rw [List.append_assoc]
    rfl
  rw [h1, tokenizeFrom_word (intToLetter k) (fun c hc => (intToLetter_chars k c hc).1) _ _ _
    (intToLetter_ne_nil k)]
  rfl

theorem parseMetadata_recordHeader (k : Nat) :
    parseMetadata (recordHeader k)
        = some { values := ["[".toList, "1".toList, "2".toList, "3".toList,
            "E/".toList ++ intToLetter k, "]".toList] }
      ∧ ({ values := ["[".toList, "1".toList, "2".toList, "3".toList,
            "E/".toList ++ intToLetter k, "]".toList] } : Metadata).getLogContext
        = { logLevel := DLT_LOG_ERROR, name := intToLetter k } := by
  constructor
  · have hp : parseMetadata (recordHeader k)
        = if ({ values := tokenize (recordHeader k) } : Metadata).isValid = true
          then some { values := tokenize (recordHeader k) } else none := rfl
    rw [hp, tokenize_recordHeader, if_pos]
    rw [isValid_iff]
    refine ⟨by simp, rfl, rfl, "E/".toList ++ intToLetter k, rfl, ?_⟩
    have h2 : ("E/".toList ++ intToLetter k).length = 2 + (intToLetter k).length := by
      rw [List.length_append]
      rfl
    have hp1 := intToLetter_length_pos k
    rw [h2]
    omega
  · have h := getLogContext_known
      { values := ["[".toList, "1".toList, "2".toList, "3".toList,
          "E/".toList ++ intToLetter k, "]".toList] } 'E' ('/' :: intToLetter k)
      DLT_LOG_ERROR rfl (by decide)
    rw [h]
    simp

theorem intToLetter_injective (a b : Nat) (h : intToLetter a = intToLetter b) : a = b := by
  have := congrArg letterValue h
  rwa [letterValue_intToLetter, letterValue_intToLetter] at this

theorem filled_not_registered (n : Nat) :
    intToLetter (26 ^ 3 + n) ∉ (filledState n).id_encoder.registeredContextIds := by
  intro h
  simp only [filledState, List.mem_map, List.mem_range] at h
  obtain ⟨i, hi, heq⟩ := h
  have := intToLetter_injective _ _ heq
  omega

theorem filled_lookup_none (n : Nat) :
    (filledState n).dlt_contexts.lookup (intToLetter (26 ^ 3 + n)) = none := by
  rw [List.lookup_eq_none_iff]
  intro p hp
  simp only [filledState, List.mem_map, List.mem_range] at hp
  obtain ⟨i, hi, rfl⟩ := hp
  simp only [bne_iff_ne, ne_eq]
  intro heq
  have := intToLetter_injective _ _ heq
  omega

theorem filledState_succ (n : Nat) :
    filledState (n + 1)
      = { parsingContext := { step_ := .METADATA, metadata_ := none, message_ := none }
          id_encoder :=
            { registeredContextIds :=
                (filledState n).id_encoder.registeredContextIds ++ [intToLetter (26 ^ 3 + n)] }
          dlt_contexts :=
            (filledState n).dlt_contexts ++
              [(intToLetter (26 ^ 3 + n),
                { name := intToLetter (26 ^ 3 + n),
                  context_id := intToLetter (26 ^ 3 + n) })] } := by
  simp only [filledState, List.range_succ, List.map_append, List.map_cons, List.map_nil]
  rfl

/-- One more record on `filledState n`: its name is new, is its own candidate and is not
registered, so it becomes its own identifier. -/
theorem filled_record (hash : Str → Nat) (n : Nat) (hn : 26 ^ 3 + n < 26 ^ 4) :
    (run hash (filledState n) [recordHeader (26 ^ 3 + n), "m".toList]).next
      = .ok (filledState (n + 1)) := by
  obtain ⟨hparse, hctx⟩ := parseMetadata_recordHeader (26 ^ 3 + n)
  obtain ⟨hne1, hne2⟩ := parseMetadata_nonblank _ _ hparse
  obtain ⟨-, hnext1⟩ := processLine_metadata_some hash (filledState n) _ _ hne1 hne2 rfl hparse
  obtain ⟨-, hnext⟩ := run_two hash (filledState n) _ _ "m".toList hnext1
  obtain ⟨-, hnext2⟩ := processLine_message hash
    { filledState n with parsingContext :=
        { step_ := .MESSAGE
          metadata_ := some { values := ["[".toList, "1".toList, "2".toList, "3".toList,
            "E/".toList ++ intToLetter (26 ^ 3 + n), "]".toList] }
          message_ := (filledState n).parsingContext.message_ } }
    "m".toList _ (by decide) (by decide) rfl rfl
  have hcand := initialCandidate_code (26 ^ 3 + n) (by omega) hn
  have hfresh := filled_not_registered n
  have hid : getContextId hash (filledState n).id_encoder (intToLetter (26 ^ 3 + n))
      = .ok (intToLetter (26 ^ 3 + n),
          { registeredContextIds :=
              (filledState n).id_encoder.registeredContextIds
                ++ [intToLetter (26 ^ 3 + n)] }) := by
    have := getContextId_fresh hash (filledState n).id_encoder (intToLetter (26 ^ 3 + n))
      (by rw [hcand]; exact hfresh)
    rw [hcand] at this
    exact this
  have hd := (dispatch_new hash
    { filledState n with parsingContext :=
        { step_ := .MESSAGE
          metadata_ := some { values := ["[".toList, "1".toList, "2".toList, "3".toList,
            "E/".toList ++ intToLetter (26 ^ 3 + n), "]".toList] }
          message_ := some "m".toList } }
    (intToLetter (26 ^ 3 + n)) _
    (by
      show (filledState n).dlt_contexts.lookup
        ({ values := ["[".toList, "1".toList, "2".toList, "3".toList,
            "E/".toList ++ intToLetter (26 ^ 3 + n), "]".toList] } : Metadata).getLogContext.name
        = none
      rw [hctx]
      exact filled_lookup_none n)
    (by
      show getContextId hash (filledState n).id_encoder
        ({ values := ["[".toList, "1".toList, "2".toList, "3".toList,
            "E/".toList ++ intToLetter (26 ^ 3 + n), "]".toList] } : Metadata).getLogContext.name
        = _
      rw [hctx]
      exact hid)).2
  rw [hnext, hnext2, hd, filledState_succ]
  show Except.ok _ = Except.ok _
  congr 1

theorem fillLines_succ (n : Nat) :
    fillLines (n + 1) = fillLines n ++ [recordHeader (26 ^ 3 + n), "m".toList] := by
  simp only [fillLines, List.range_succ, List.flatMap_append, List.flatMap_cons,
    List.flatMap_nil, List.append_nil]

/-- When all four letter codes are registered and the candidate of a name is one of them,
`getContextId` throws: every alternative of the candidate is a four letter code. -/
theorem getContextId_exhausted (hash : Str → Nat) (enc : ContextIdEncoder) (name : Str)
    (hc4 : (initialCandidate name).length = 4)
    (hletters : ∀ c ∈ initialCandidate name, 'A' ≤ c ∧ c ≤ 'Z')
    (hhead : (initialCandidate name).head? ≠ some 'A')
    (hfull : ∀ j, 26 ^ 3 ≤ j → j < 26 ^ 4 → intToLetter j ∈ enc.registeredContextIds) :
    getContextId hash enc name = .error .outOfRange := by
  have hcode : ∀ s : Str, s.length = 4 → (∀ c ∈ s, 'A' ≤ c ∧ c ≤ 'Z') →
      s.head? ≠ some 'A' → s ∈ enc.registeredContextIds := by
    intro s h1 h2 h3
    obtain ⟨g3, g4, gcode⟩ := four_letter_code s h1 h2 h3
    rw [← gcode]
    exact hfull _ g3 g4
  have hreg := hcode _ hc4 hletters hhead
  rcases getContextId_outcome hash enc name with ⟨⟨id, enc1⟩, hr⟩ | ⟨hout, -, -⟩
  · exfalso
    obtain ⟨hnew, -⟩ := getContextId_ok hash enc enc1 name id hr
    have hidlen : id.length = 4 := by
      have hr2 := hr
      rw [getContextId_candidate] at hr2
      split at hr2
      · cases hr2
      · rename_i ctx_id hc
        simp only [Except.ok.injEq, Prod.mk.injEq] at hr2
        obtain ⟨rfl, -⟩ := hr2
        have := checkAndEncode_length hash _ _ _ _ (by omega) hc
        omega
    rw [getContextId_collision hash enc name hreg] at hr
    split at hr
    · cases hr
    · rename_i ctx_id hm
      simp only [Except.ok.injEq, Prod.mk.injEq] at hr
      obtain ⟨rfl, -⟩ := hr
      obtain ⟨k1, hk1, hid, -⟩ := modifyName_first_fit hash _ _ (by omega) (by omega) _ _ _
        hc4 rfl hm
      have hcnt := getCounter_le hash (initialCandidate name)
      rw [alternative_long _ _ (by omega)] at hid
      have hp := intToLetter_length_pos k1
      have he4 : (intToLetter k1).length ≤ 4 := by
        have := congrArg List.length hid
        rw [hidlen, List.length_append, List.length_take] at this
        omega
      apply hnew
      apply hcode _ hidlen
      · intro c hc
        rw [hid] at hc
        rcases List.mem_append.1 hc with h | h
        · exact hletters c (List.mem_of_mem_take h)
        · exact intToLetter_letters k1 c h
      · rw [hid]
        by_cases he : (intToLetter k1).length = 4
        · rw [he]
          simp only [Nat.sub_self, List.take_zero, List.nil_append]
          exact intToLetter_head k1 (by omega)
        · cases hcand : initialCandidate name with
          | nil =>
            rw [hcand] at hc4
            cases hc4
          | cons a rest =>
            rw [hcand] at hhead
            obtain ⟨m, hm4⟩ : ∃ m, 4 - (intToLetter k1).length = m + 1 :=
              ⟨3 - (intToLetter k1).length, by omega⟩
            rw [hm4, List.take_succ_cons, List.cons_append, List.head?_cons]
            rwa [List.head?_cons] at hhead
  · exact hout

theorem filled_full (n j : Nat) (h3 : 26 ^ 3 ≤ j) (hj : j < 26 ^ 3 + n) :
    intToLetter j ∈ (filledState n).id_encoder.registeredContextIds := by
  simp only [filledState, List.mem_map, List.mem_range]
  have hj2 : 26 ^ 3 + (j - 26 ^ 3) = j := by omega
  exact ⟨j - 26 ^ 3, by omega, by rw [hj2]⟩

theorem filled_lookup_lower (n : Nat) :
    (filledState n).dlt_contexts.lookup "baaa".toList = none := by
  rw [List.lookup_eq_none_iff]
  intro p hp
  simp only [filledState, List.mem_map, List.mem_range] at hp
  obtain ⟨i, -, rfl⟩ := hp
  simp only [bne_iff_ne, ne_eq]
  intro heq
  have hb : 'b' ∈ intToLetter (26 ^ 3 + i) := by
    rw [← heq]
    decide
  exact absurd (intToLetter_letters _ _ hb) (by decide)

/-! ## The encoder on a bounded call stack -/

theorem checkAndEncode_step (hash : Str → Nat) (registered : List Str) (name : Str)
    (counter : Nat) :
    checkAndEncode hash registered name counter
      = if isUnique registered name then .ok name
        else encodeContextId hash registered name (counter + 1) := by
  rw [checkAndEncode]

theorem encodeContextId_step (hash : Str → Nat) (registered : List Str) (name : Str)
    (counter : Nat) :
    encodeContextId hash registered name counter
      = if counter ≠ 0 then modifyName hash registered name counter
        else checkAndEncode hash registered (shrinkName name) (getCounter hash (shrinkName name)) := by
  rw [encodeContextId]

theorem checkAndEncodeOnStack_succ (hash : Str → Nat) (registered : List Str) (stack : Nat)
    (name : Str) (counter : Nat) :
    checkAndEncodeOnStack hash registered (stack + 1) name counter
      = if isUnique registered name then some (.ok name)
        else encodeContextIdOnStack hash registered stack name (counter + 1) := by
  rw [checkAndEncodeOnStack]

theorem encodeContextIdOnStack_succ (hash : Str → Nat) (registered : List Str) (stack : Nat)
    (name : Str) (counter : Nat) :
    encodeContextIdOnStack hash registered (stack + 1) name counter
      = if counter ≠ 0 then modifyNameOnStack hash registered stack name counter
        else checkAndEncodeOnStack hash registered stack (shrinkName name)
          (getCounter hash (shrinkName name)) := by
  rw [encodeContextIdOnStack]

theorem modifyNameOnStack_succ (hash : Str → Nat) (registered : List Str) (stack : Nat)
    (name : Str) (counter : Nat) :
    modifyNameOnStack hash registered (stack + 1) name counter
      = if name.length + (intToLetter counter).length ≤ 4 then
          checkAndEncodeOnStack hash registered stack (name ++ intToLetter counter) counter
        else if 4 < (intToLetter counter).length then some (.error .outOfRange)
        else if name.length < (intToLetter counter).length then some (.error .negativeLength)
        else
          checkAndEncodeOnStack hash registered stack
            (name.take (name.length - (intToLetter counter).length) ++ intToLetter counter)
            counter := by
  rw [modifyNameOnStack]
  simp only [kLength, gt_iff_lt]
  have h1 : ((name.length : Int) - ((intToLetter counter).length : Int) < 0)
      ↔ name.length < (intToLetter counter).length := by omega
  have h2 : ((name.length : Int) - ((intToLetter counter).length : Int)).toNat
      = name.length - (intToLetter counter).length := by omega
  simp only [h1, h2]

theorem onStack_zero (hash : Str → Nat) (registered : List Str) (name : Str) (counter : Nat) :
    checkAndEncodeOnStack hash registered 0 name counter = none
      ∧ modifyNameOnStack hash registered 0 name counter = none
      ∧ encodeContextIdOnStack hash registered 0 name counter = none := by
  refine ⟨?_, ?_, ?_⟩
  · rw [checkAndEncodeOnStack]
  · rw [modifyNameOnStack]
  · rw [encodeContextIdOnStack]

/-- A call that ends on the bounded stack without overflow ends as the function says. -/
theorem onStack_agrees (hash : Str → Nat) (registered : List Str) :
    ∀ (stack : Nat) (name : Str) (counter : Nat) (r : Except EncodeError Str),
      (checkAndEncodeOnStack hash registered stack name counter = some r →
          checkAndEncode hash registered name counter = r)
        ∧ (modifyNameOnStack hash registered stack name counter = some r →
          modifyName hash registered name counter = r)
        ∧ (encodeContextIdOnStack hash registered stack name counter = some r →
          encodeContextId hash registered name counter = r) := by
  intro stack
  induction stack with
  | zero =>
    intro name counter r
    obtain ⟨h1, h2, h3⟩ := onStack_zero hash registered name counter
    refine ⟨fun h => ?_, fun h => ?_, fun h => ?_⟩
    · rw [h1] at h
      cases h
    · rw [h2] at h
      cases h
    · rw [h3] at h
      cases h
  | succ stack ih =>
    intro name counter r
    refine ⟨?_, ?_, ?_⟩
    · intro h
      rw [checkAndEncodeOnStack_succ] at h
      rw [checkAndEncode_step]
      split at h
      · rename_i hu
        rw [if_pos hu]
        exact Option.some.inj h
      · rename_i hu
        rw [if_neg hu]
        exact (ih name (counter + 1) r).2.2 h
    · intro h
      rw [modifyNameOnStack_succ] at h
      rw [modifyName_eq]
      split at h
      · rename_i h1
        rw [if_pos h1]
        exact (ih _ counter r).1 h
      · rename_i h1
        rw [if_neg h1]
        split at h
        · rename_i h2
          rw [if_pos h2]
          exact Option.some.inj h
        · rename_i h2
          rw [if_neg h2]
          split at h
          · rename_i h3
            rw [if_pos h3]
            exact Option.some.inj h
          · rename_i h3
            rw [if_neg h3]
            exact (ih _ counter r).1 h
    · intro h
      rw [encodeContextIdOnStack_succ] at h
      rw [encodeContextId_step]
      split at h
      · rename_i h1
        rw [if_pos h1]
        exact (ih name counter r).2.1 h
      · rename_i h1
        rw [if_neg h1]
        exact (ih _ _ r).1 h

/-- On a bounded stack `getContextId` overflows or ends as on an unbounded one. -/
theorem getContextIdOnStack_cases (hash : Str → Nat) (stack : Nat) (enc : ContextIdEncoder)
    (name : Str) :
    getContextIdOnStack hash stack enc name = none
      ∨ getContextIdOnStack hash stack enc name = some (getContextId hash enc name) := by
  simp only [getContextIdOnStack, getContextId]
  cases h : encodeContextIdOnStack hash enc.registeredContextIds stack
      ((if (filterName name).isEmpty then ['Z'] else filterName name).map Char.toUpper) 0 with
  | none => exact Or.inl rfl
  | some r =>
    right
    rw [(onStack_agrees hash enc.registeredContextIds stack _ 0 r).2.2 h]
    cases r <;> rfl

theorem getContextIdOnStack_some (hash : Str → Nat) (stack : Nat) (enc : ContextIdEncoder)
    (name : Str) (r : Except EncodeError (Str × ContextIdEncoder))
    (h : getContextIdOnStack hash stack enc name = some r) : getContextId hash enc name = r := by
  rcases getContextIdOnStack_cases hash stack enc name with h0 | h1
  · rw [h0] at h
    cases h
  · rw [h1] at h
    exact Option.some.inj h
/-- A candidate that is not registered is returned from the second nested call. -/
theorem getContextIdOnStack_fresh (hash : Str → Nat) (stack : Nat) (enc : ContextIdEncoder)
    (name : Str) (hs : 2 ≤ stack) (h : initialCandidate name ∉ enc.registeredContextIds) :
    getContextIdOnStack hash stack enc name
      = some (.ok (initialCandidate name,
          { registeredContextIds := enc.registeredContextIds ++ [initialCandidate name] })) := by
  obtain ⟨s, rfl⟩ : ∃ s, stack = s + 2 := ⟨stack - 2, by omega⟩
  have hu : isUnique enc.registeredContextIds (initialCandidate name) = true :=
    (isUnique_iff _ _).2 h
  unfold initialCandidate at hu
  simp only [getContextIdOnStack]
  rw [encodeContextIdOnStack_succ, if_neg (by simp), checkAndEncodeOnStack_succ, if_pos hu]
  have he := emplace_new _ _ h
  unfold initialCandidate at he
  simp only [he, initialCandidate]

/-- On a bounded stack `dispatch` does what it does on an unbounded one, unless the call of
`getContextId` for a name without context overflows: then nothing is logged. -/
theorem dispatchOnStack_cases (hash : Str → Nat) (stack : Nat) (s : State) :
    ((dispatchOnStack hash stack s).events = (dispatch hash s).events
        ∧ (dispatchOnStack hash stack s).next = some (dispatch hash s).next)
      ∨ (s.dlt_contexts.lookup s.parsingContext.metadata.getLogContext.name = none
        ∧ getContextIdOnStack hash stack s.id_encoder
            s.parsingContext.metadata.getLogContext.name = none
        ∧ (dispatchOnStack hash stack s).events = []
        ∧ (dispatchOnStack hash stack s).next = none) := by
  cases hl : s.dlt_contexts.lookup s.parsingContext.metadata.getLogContext.name with
  | some ctx =>
    left
    simp only [dispatchOnStack, dispatch, hl, and_self]
  | none =>
    rcases getContextIdOnStack_cases hash stack s.id_encoder
      s.parsingContext.metadata.getLogContext.name with h0 | h1
    · right
      simp only [dispatchOnStack, hl, h0, and_self]
    · left
      simp only [dispatchOnStack, dispatch, hl, h1]
      cases getContextId hash s.id_encoder s.parsingContext.metadata.getLogContext.name with
      | error e => exact ⟨rfl, rfl⟩
      | ok r => exact ⟨rfl, rfl⟩

/-- On a bounded stack a line is processed as on an unbounded one, unless it is a line read
in step `MESSAGE` that completes a record for a name without context and the call of
`getContextId` overflows: then the three `log` calls of the adapter itself are all there is,
and the program has ended. -/
theorem processLineOnStack_cases (hash : Str → Nat) (stack : Nat) (s : State)
    (lineInput : Str) :
    ((processLineOnStack hash stack s lineInput).events = (processLine hash s lineInput).events
        ∧ (processLineOnStack hash stack s lineInput).next
          = some (processLine hash s lineInput).next)
      ∨ (lineInput ≠ [] ∧ lineInput ≠ ['\n'] ∧ s.parsingContext.step_ = .MESSAGE
        ∧ s.dlt_contexts.lookup s.parsingContext.metadata.getLogContext.name = none
        ∧ getContextIdOnStack hash stack s.id_encoder
            s.parsingContext.metadata.getLogContext.name = none
        ∧ (processLineOnStack hash stack s lineInput).events
          = [Event.selfLog DLT_LOG_VERBOSE lineInput,
              Event.selfLog DLT_LOG_VERBOSE "Valid input line".toList,
              Event.selfLog DLT_LOG_VERBOSE "DEBUG: ParsingContext::Step::MESSAGE".toList]
        ∧ (processLineOnStack hash stack s lineInput).next = none) := by
  by_cases h0 : lineInput.length = 0
  · left
    simp only [processLineOnStack, processLine, if_pos h0, and_self]
  · by_cases h3 : lineInput = "\n".toList
    · left
      simp only [processLineOnStack, processLine, if_neg h0, if_pos h3, and_self]
    · cases hstep : s.parsingContext.currentStep with
      | METADATA =>
        left
        simp only [processLineOnStack, processLine, if_neg h0, if_neg h3, hstep]
        cases parseMetadata lineInput with
        | none => exact ⟨rfl, rfl⟩
        | some metadata => exact ⟨rfl, rfl⟩
      | MESSAGE =>
        by_cases hc : (s.parsingContext.setMessage lineInput).isCompleted = true
        · rcases dispatchOnStack_cases hash stack
            { s with parsingContext := s.parsingContext.setMessage lineInput } with
            ⟨hev, hnext⟩ | ⟨hl, hid, hev, hnext⟩
          · left
            simp only [processLineOnStack, processLine, if_neg h0, if_neg h3, hstep, hc, if_true,
              hev, hnext]
            cases (dispatch hash
                { s with parsingContext := s.parsingContext.setMessage lineInput }).next with
            | error e => exact ⟨rfl, rfl⟩
            | ok s2 => exact ⟨rfl, rfl⟩
          · right
            refine ⟨fun h => h0 (by rw [h]; rfl), h3, hstep, hl, hid, ?_, ?_⟩
            · simp only [processLineOnStack, if_neg h0, if_neg h3, hstep, hc, if_true, hev,
                hnext]
              rfl
            · simp only [processLineOnStack, if_neg h0, if_neg h3, hstep, hc, if_true, hev,
                hnext]
        · left
          simp only [processLineOnStack, processLine, if_neg h0, if_neg h3, hstep, hc,
            Bool.false_eq_true, if_false, and_self]

/-- On a bounded stack the loop does what it does on an unbounded one, unless a call
overflows. -/
theorem runOnStack_cases (hash : Str → Nat) (stack : Nat) :
    ∀ (lines : List Str) (s : State),
      ((runOnStack hash stack s lines).events = (run hash s lines).events
          ∧ (runOnStack hash stack s lines).next = some (run hash s lines).next)
        ∨ (runOnStack hash stack s lines).next = none := by
  intro lines
  induction lines with
  | nil =>
    intro s
    exact Or.inl ⟨rfl, rfl⟩
  | cons l rest ih =>
    intro s
    rcases processLineOnStack_cases hash stack s l with ⟨hev, hnext⟩ | ⟨-, -, -, -, -, -, hnext⟩
    · cases hp : (processLine hash s l).next with
      | error e =>
        left
        rw [hp] at hnext
        simp only [runOnStack, run, hnext, hp, hev, and_self]
      | ok s1 =>
        rw [hp] at hnext
        rcases ih s1 with ⟨hev1, hnext1⟩ | hover
        · left
          simp only [runOnStack, run, hnext, hp, hev, hev1, hnext1, and_self]
        · right
          simp only [runOnStack, hnext, hover]
    · right
      simp only [runOnStack, hnext]

/-- A state reached on a bounded stack is a state of the loop. -/
theorem reachableOnStack_reachable (hash : Str → Nat) (stack : Nat) (s : State)
    (h : ReachableOnStack hash stack s) : Reachable hash s := by
  obtain ⟨lines, hl⟩ := h
  refine ⟨lines, ?_⟩
  rcases runOnStack_cases hash stack lines State.init with ⟨-, hnext⟩ | hover
  · rw [hnext] at hl
    exact Option.some.inj hl
  · rw [hover] at hl
    cases hl
/-- When `getContextId` does not return for a name without context, `dispatch` logs nothing
and the program ends: by stack overflow, or by the exception. -/
theorem dispatchOnStack_stopped (hash : Str → Nat) (stack : Nat) (s : State)
    (hl : s.dlt_contexts.lookup s.parsingContext.metadata.getLogContext.name = none)
    (hid : ∀ r, getContextIdOnStack hash stack s.id_encoder
      s.parsingContext.metadata.getLogContext.name ≠ some (.ok r)) :
    (dispatchOnStack hash stack s).events = []
      ∧ ((getContextIdOnStack hash stack s.id_encoder
            s.parsingContext.metadata.getLogContext.name = none
          ∧ (dispatchOnStack hash stack s).next = none)
        ∨ ∃ e, getContextIdOnStack hash stack s.id_encoder
            s.parsingContext.metadata.getLogContext.name = some (.error e)
          ∧ (dispatchOnStack hash stack s).next = some (.error e)) := by
  cases hg : getContextIdOnStack hash stack s.id_encoder
      s.parsingContext.metadata.getLogContext.name with
  | none =>
    simp only [dispatchOnStack, hl, hg, true_and]
    exact Or.inl trivial
  | some r =>
    cases r with
    | error e =>
      simp only [dispatchOnStack, hl, hg, true_and]
      exact Or.inr ⟨e, rfl, rfl⟩
    | ok r => exact absurd hg (hid r)

/-- A line read in step `MESSAGE` with metadata stored, on a bounded stack: the routed
messages are those of `dispatch` on the state with the line stored as message; the parsing
context is reset when `dispatch` returns, and the program has ended when it does not. -/
theorem processLineOnStack_message (hash : Str → Nat) (stack : Nat) (s : State)
    (lineInput : Str) (metadata : Metadata) (h1 : lineInput ≠ []) (h2 : lineInput ≠ ['\n'])
    (hstep : s.parsingContext.currentStep = .MESSAGE)
    (hmeta : s.parsingContext.metadata_ = some metadata) :
    routedMessages (processLineOnStack hash stack s lineInput).events
        = routedMessages (dispatchOnStack hash stack
            { s with parsingContext :=
                { step_ := .MESSAGE, metadata_ := some metadata,
                  message_ := some lineInput } }).events
      ∧ (processLineOnStack hash stack s lineInput).next
        = match (dispatchOnStack hash stack
            { s with parsingContext :=
                { step_ := .MESSAGE, metadata_ := some metadata,
                  message_ := some lineInput } }).next with
          | none => none
          | some (.error e) => some (.error e)
          | some (.ok s2) =>
            some (.ok { s2 with
              parsingContext :=
                { step_ := .METADATA, metadata_ := none, message_ := none } }) := by
  have h0 : ¬ lineInput.length = 0 := by
    intro h; exact h1 (List.length_eq_zero.1 h)
  have h3 : ¬ lineInput = "\n".toList := h2
  have hpc : s.parsingContext.setMessage lineInput
      = { step_ := .MESSAGE, metadata_ := some metadata, message_ := some lineInput } := by
    cases hs : s.parsingContext with
    | mk st md ms =>
      rw [hs] at hstep hmeta
      simp only [ParsingContext.currentStep] at hstep
      simp only at hmeta
      subst hstep hmeta
      rfl
  simp only [processLineOnStack, if_neg h0, if_neg h3, hstep, hpc, ParsingContext.isCompleted,
    Option.isSome_some, Bool.and_self, if_true]
  split
  · rename_i he
    simp only [he, routedMessages_append]
    exact ⟨rfl, trivial⟩
  · rename_i e he
    simp only [he, routedMessages_append]
    exact ⟨rfl, trivial⟩
  · rename_i s2 he
    simp only [he, routedMessages_append]
    exact ⟨rfl, rfl⟩

theorem runOnStack_two (hash : Str → Nat) (stack : Nat) (s s1 : State) (l1 l2 : Str)
    (h : (processLineOnStack hash stack s l1).next = some (.ok s1)) :
    (runOnStack hash stack s [l1, l2]).events
        = (processLineOnStack hash stack s l1).events
          ++ (processLineOnStack hash stack s1 l2).events
      ∧ (runOnStack hash stack s [l1, l2]).next
        = (processLineOnStack hash stack s1 l2).next := by
  simp only [runOnStack, h]
  cases h2 : (processLineOnStack hash stack s1 l2).next with
  | none => simp
  | some r =>
    cases r with
    | error e => simp
    | ok s2 => simp

/-- A header line that decodes, read in step `METADATA` on a bounded stack: nothing is
routed, and the metadata is stored for the next line. -/
theorem processLineOnStack_header (hash : Str → Nat) (stack : Nat) (s : State) (h : Str)
    (md : Metadata) (hstep : s.parsingContext.step_ = .METADATA)
    (hparse : parseMetadata h = some md) :
    routedMessages (processLineOnStack hash stack s h).events = []
      ∧ (processLineOnStack hash stack s h).next
        = some (.ok { s with
            parsingContext :=
              { step_ := .MESSAGE, metadata_ := some md,
                message_ := s.parsingContext.message_ } }) := by
  obtain ⟨hne1, hne2⟩ := parseMetadata_nonblank h md hparse
  obtain ⟨hev1, hnext1⟩ := processLine_metadata_some hash s h md hne1 hne2 hstep hparse
  rcases processLineOnStack_cases hash stack s h with ⟨hev, hnext⟩ | ⟨-, -, hmsg, -⟩
  · rw [hev, hnext, hev1, hnext1]
    exact ⟨rfl, rfl⟩
  · rw [hstep] at hmsg
    cases hmsg

/-- A header line that decodes, followed by a message line, read in step `METADATA` on a
bounded stack, when the name has a context or `getContextId` returns for it: one message is
routed, on the context stored under the decoded name, and the parsing context is back in its
initial state. -/
theorem two_line_onStack (hash : Str → Nat) (stack : Nat) (s : State) (h m : Str)
    (md : Metadata) (hstep : s.parsingContext.step_ = .METADATA)
    (hnames : NamesMatch s.dlt_contexts)
    (hparse : parseMetadata h = some md) (hm1 : m ≠ []) (hm2 : m ≠ ['\n'])
    (halloc : s.dlt_contexts.lookup md.getLogContext.name = none →
      ∃ r, getContextIdOnStack hash stack s.id_encoder md.getLogContext.name = some (.ok r)) :
    ∃ ctx s1,
      routedMessages (runOnStack hash stack s [h, m]).events
          = [(ctx, md.getLogContext.logLevel, m)]
        ∧ ctx.name = md.getLogContext.name
        ∧ (runOnStack hash stack s [h, m]).next = some (.ok s1)
        ∧ s1.parsingContext = { step_ := .METADATA, metadata_ := none, message_ := none }
        ∧ s1.dlt_contexts.lookup md.getLogContext.name = some ctx := by
  rcases runOnStack_cases hash stack [h, m] s with ⟨hev, hnext⟩ | hover
  · obtain ⟨ctx, s1, g1, g2, g3, g4, g5⟩ := two_line_record hash s h m md hstep hnames hparse
      hm1 hm2 (fun hl => by
        obtain ⟨r, hr⟩ := halloc hl
        exact ⟨r, getContextIdOnStack_some hash stack _ _ _ hr⟩)
    exact ⟨ctx, s1, by rw [hev]; exact g1, g2, by rw [hnext, g3], g4, g5⟩
  · exfalso
    obtain ⟨-, hnext1⟩ := processLineOnStack_header hash stack s h md hstep hparse
    obtain ⟨-, hnext⟩ := runOnStack_two hash stack s _ h m hnext1
    rw [hnext] at hover
    rcases processLineOnStack_cases hash stack
        { s with parsingContext :=
            { step_ := .MESSAGE, metadata_ := some md,
              message_ := s.parsingContext.message_ } } m with
      ⟨-, hn⟩ | ⟨-, -, -, hl, hid, -, -⟩
    · rw [hn] at hover
      cases hover
    · obtain ⟨r, hr⟩ := halloc hl
      have hid2 : getContextIdOnStack hash stack s.id_encoder md.getLogContext.name = none :=
        hid
      rw [hr] at hid2
      cases hid2

/-- The same two lines when the name has no context and `getContextId` does not return for
it: nothing is routed and the program ends with the second line. -/
theorem two_line_stopped (hash : Str → Nat) (stack : Nat) (s : State) (h m : Str)
    (md : Metadata) (hstep : s.parsingContext.step_ = .METADATA)
    (hparse : parseMetadata h = some md) (hm1 : m ≠ []) (hm2 : m ≠ ['\n'])
    (hl : s.dlt_contexts.lookup md.getLogContext.name = none)
    (hid : ∀ r, getContextIdOnStack hash stack s.id_encoder md.getLogContext.name
      ≠ some (.ok r)) :
    routedMessages (runOnStack hash stack s [h, m]).events = []
      ∧ ((getContextIdOnStack hash stack s.id_encoder md.getLogContext.name = none
          ∧ (runOnStack hash stack s [h, m]).next = none)
        ∨ ∃ e, getContextIdOnStack hash stack s.id_encoder md.getLogContext.name
            = some (.error e)
          ∧ (runOnStack hash stack s [h, m]).next = some (.error e)) := by
  obtain ⟨hev1, hnext1⟩ := processLineOnStack_header hash stack s h md hstep hparse
  obtain ⟨hev, hnext⟩ := runOnStack_two hash stack s _ h m hnext1
  obtain ⟨hev2, hnext2⟩ := processLineOnStack_message hash stack
    { s with parsingContext :=
        { step_ := .MESSAGE, metadata_ := some md, message_ := s.parsingContext.message_ } }
    m md hm1 hm2 rfl rfl
  obtain ⟨hde, hdn⟩ := dispatchOnStack_stopped hash stack
    { s with parsingContext :=
        { step_ := .MESSAGE, metadata_ := some md, message_ := some m } } hl hid
  refine ⟨?_, ?_⟩
  · rw [hev, routedMessages_append, hev1, hev2, hde]
    rfl
  · rw [hnext, hnext2]
    rcases hdn with ⟨g1, g2⟩ | ⟨e, g1, g2⟩
    · left
      refine ⟨g1, ?_⟩
      simp only [g2]
    · right
      refine ⟨e, g1, ?_⟩
      simp only [g2]
/-! ## Runs that fill the identifier space, on a bounded call stack -/

theorem runOnStack_append (hash : Str → Nat) (stack : Nat) :
    ∀ (l1 l2 : List Str) (s s1 : State), (runOnStack hash stack s l1).next = some (.ok s1) →
      (runOnStack hash stack s (l1 ++ l2)).next = (runOnStack hash stack s1 l2).next := by
  intro l1
  induction l1 with
  | nil =>
    intro l2 s s1 h
    simp only [runOnStack, Option.some.injEq, Except.ok.injEq] at h
    subst h
    rfl
  | cons l rest ih =>
    intro l2 s s1 h
    simp only [runOnStack, List.cons_append] at h ⊢
    cases hp : (processLineOnStack hash stack s l).next with
    | none =>
      rw [hp] at h
      cases h
    | some r =>
      cases r with
      | error e =>
        rw [hp] at h
        cases h
      | ok s2 =>
        rw [hp] at h
        simp only at h ⊢
        exact ih l2 s2 s1 h

/-- One more record on `filledState n` needs two nested calls: the name is its own candidate
and is not registered. -/
theorem filled_record_onStack (hash : Str → Nat) (stack n : Nat) (hs : 2 ≤ stack)
    (hn : 26 ^ 3 + n < 26 ^ 4) :
    (runOnStack hash stack (filledState n) [recordHeader (26 ^ 3 + n), "m".toList]).next
      = some (.ok (filledState (n + 1))) := by
  obtain ⟨hparse, hctx⟩ := parseMetadata_recordHeader (26 ^ 3 + n)
  have hcand := initialCandidate_code (26 ^ 3 + n) (by omega) hn
  have hfresh := filled_not_registered n
  obtain ⟨ctx, s1, -, -, hnext, -, -⟩ := two_line_onStack hash stack (filledState n)
    (recordHeader (26 ^ 3 + n)) "m".toList _ rfl
    (by
      intro p hp
      simp only [filledState, List.mem_map, List.mem_range] at hp
      obtain ⟨i, -, rfl⟩ := hp
      rfl)
    hparse (by decide) (by decide)
    (fun _ => by
      rw [hctx]
      exact ⟨_, getContextIdOnStack_fresh hash stack _ _ hs (by rw [hcand]; exact hfresh)⟩)
  rcases runOnStack_cases hash stack [recordHeader (26 ^ 3 + n), "m".toList] (filledState n)
    with ⟨-, hrun⟩ | hover
  · rw [hrun, filled_record hash n hn]
  · rw [hover] at hnext
    cases hnext

/-- The lines `fillLines n` take the initial state to `filledState n` on every stack that
holds two nested calls. -/
theorem runOnStack_fillLines (hash : Str → Nat) (stack : Nat) (hs : 2 ≤ stack) :
    ∀ n, 26 ^ 3 + n ≤ 26 ^ 4 →
      (runOnStack hash stack State.init (fillLines n)).next = some (.ok (filledState n)) := by
  intro n
  induction n with
  | zero => intro _; rfl
  | succ n ih =>
    intro hn
    rw [fillLines_succ, runOnStack_append hash stack _ _ _ _ (ih (by omega))]
    exact filled_record_onStack hash stack n hs (by omega)

/-- On a state `filledState n` in which all four letter codes are registered, the record
with the header `[ 1 2 3 E/baaa ]` routes nothing on any stack, and the program ends. -/
theorem exhausted_record (hash : Str → Nat) (stack n : Nat) (m : Str)
    (hm1 : m ≠ []) (hm2 : m ≠ ['\n'])
    (hfull : ∀ j, 26 ^ 3 ≤ j → j < 26 ^ 4 →
      intToLetter j ∈ (filledState n).id_encoder.registeredContextIds) :
    routedMessages
        (runOnStack hash stack (filledState n) ["[ 1 2 3 E/baaa ]".toList, m]).events = []
      ∧ ∀ s1, (runOnStack hash stack (filledState n) ["[ 1 2 3 E/baaa ]".toList, m]).next
          ≠ some (.ok s1) := by
  have hparse : parseMetadata "[ 1 2 3 E/baaa ]".toList
      = some { values := ["[".toList, "1".toList, "2".toList, "3".toList, "E/baaa".toList,
          "]".toList] } := by decide
  have hname : ({ values := ["[".toList, "1".toList, "2".toList, "3".toList,
      "E/baaa".toList, "]".toList] } : Metadata).getLogContext.name = "baaa".toList := by
    decide
  have hcand : initialCandidate "baaa".toList = "BAAA".toList := by decide
  have hid : getContextId hash (filledState n).id_encoder "baaa".toList
      = .error .outOfRange := by
    apply getContextId_exhausted
    · rw [hcand]; rfl
    · rw [hcand]; decide
    · rw [hcand]; decide
    · exact hfull
  obtain ⟨hrouted, hend⟩ := two_line_stopped hash stack (filledState n)
    "[ 1 2 3 E/baaa ]".toList m _ rfl hparse hm1 hm2
    (by rw [hname]; exact filled_lookup_lower n)
    (by
      intro r hr
      rw [hname] at hr
      have := getContextIdOnStack_some hash stack _ _ _ hr
      rw [hid] at this
      cases this)
  refine ⟨hrouted, ?_⟩
  intro s1 hs1
  rcases hend with ⟨-, g⟩ | ⟨e, -, g⟩
  · rw [g] at hs1
    cases hs1
  · rw [g] at hs1
    cases hs1
/-! ## The two-line round trip -/

/-- C4, as the code has it: a line `h` that `parseMetadata` decodes, followed by a line `m`
that is neither empty nor a single newline, read in a state of the program with the initial
parsing context in which the decoded name has a context already or `getContextId` returns for
it, routes exactly one message: level and name are those of `getLogContext` on the decoded
metadata, the text is `m`; the parsing context is in its initial state afterwards. At the
start of the program this is so on every stack that holds two nested calls. When the name has
no context and `getContextId` does not return, because it throws or because the stack
overflows, the two lines route nothing and the program ends. -/
theorem C4_two_line_round_trip (hash : Str → Nat) (stack : Nat) (h m : Str) (md : Metadata)
    (hparse : parseMetadata h = some md) (hm1 : m ≠ []) (hm2 : m ≠ ['\n']) :
    (∀ s, ReachableOnStack hash stack s → s.parsingContext = ParsingContext.init →
        (s.dlt_contexts.lookup md.getLogContext.name = none →
          ∃ r, getContextIdOnStack hash stack s.id_encoder md.getLogContext.name
            = some (.ok r)) →
        ∃ ctx s1,
          routedMessages (runOnStack hash stack s [h, m]).events
              = [(ctx, md.getLogContext.logLevel, m)]
            ∧ ctx.name = md.getLogContext.name
            ∧ (runOnStack hash stack s [h, m]).next = some (.ok s1)
            ∧ s1.parsingContext = ParsingContext.init)
      ∧ (2 ≤ stack →
        ∃ ctx s1,
          routedMessages (runOnStack hash stack State.init [h, m]).events
              = [(ctx, md.getLogContext.logLevel, m)]
            ∧ ctx.name = md.getLogContext.name
            ∧ (runOnStack hash stack State.init [h, m]).next = some (.ok s1)
            ∧ s1.parsingContext = ParsingContext.init)
      ∧ (∀ s, ReachableOnStack hash stack s → s.parsingContext = ParsingContext.init →
        s.dlt_contexts.lookup md.getLogContext.name = none →
        (∀ r, getContextIdOnStack hash stack s.id_encoder md.getLogContext.name
          ≠ some (.ok r)) →
        routedMessages (runOnStack hash stack s [h, m]).events = []
          ∧ ∀ s1, (runOnStack hash stack s [h, m]).next ≠ some (.ok s1)) := by
  refine ⟨?_, ?_, ?_⟩
  · intro s hs hpc halloc
    have hcons := reachable_consistent hash s (reachableOnStack_reachable hash stack s hs)
    obtain ⟨ctx, s1, h1, h2, h3, h4, -⟩ := two_line_onStack hash stack s h m md
      (by rw [hpc]; rfl) hcons.2.2.2 hparse hm1 hm2 halloc
    exact ⟨ctx, s1, h1, h2, h3, h4⟩
  · intro hstack
    obtain ⟨ctx, s1, h1, h2, h3, h4, -⟩ := two_line_onStack hash stack State.init h m md rfl
      init_consistent.2.2.2 hparse hm1 hm2
      (fun _ => ⟨_, getContextIdOnStack_fresh hash stack _ _ hstack (by
        intro hmem
        cases hmem)⟩)
    exact ⟨ctx, s1, h1, h2, h3, h4⟩
  · intro s _ hpc hl hid
    obtain ⟨hrouted, hend⟩ := two_line_stopped hash stack s h m md (by rw [hpc]; rfl) hparse
      hm1 hm2 hl hid
    refine ⟨hrouted, ?_⟩
    intro s1 hs1
    rcases hend with ⟨-, g⟩ | ⟨e, -, g⟩
    · rw [g] at hs1
      cases hs1
    · rw [g] at hs1
      cases hs1

/-- C4, witness: at the start of the program, on a stack that holds two nested calls, the
header `[ 6252.287 443: 530 E/WifiVendorHal ]` followed by `some message` routes one message,
with level `DLT_LOG_ERROR`, name `WifiVendorHal` and text `some message`, and leaves the
parsing context in its initial state. -/
theorem C4_two_line_round_trip_witness :
    (routedMessages (runOnStack zeroHash 2 State.init
        ["[ 6252.287 443: 530 E/WifiVendorHal ]".toList, "some message".toList]).events).map
        (fun r => (r.1.name, r.2.1, r.2.2))
      = [("WifiVendorHal".toList, DLT_LOG_ERROR, "some message".toList)]
    ∧ (runOnStack zeroHash 2 State.init
        ["[ 6252.287 443: 530 E/WifiVendorHal ]".toList, "some message".toList]).next.map
        (fun r => r.map State.parsingContext)
      = some (.ok ParsingContext.init) := by
  have hparse : parseMetadata "[ 6252.287 443: 530 E/WifiVendorHal ]".toList
      = some { values := tokenize "[ 6252.287 443: 530 E/WifiVendorHal ]".toList } := by
    decide
  obtain ⟨ctx, s1, h1, h2, h3, h4⟩ := (C4_two_line_round_trip zeroHash 2
    "[ 6252.287 443: 530 E/WifiVendorHal ]".toList "some message".toList _ hparse
    (by decide) (by decide)).2.1 (by decide)
  constructor
  · rw [h1]
    simp only [List.map_cons, List.map_nil, h2]
    decide
  · rw [h3]
    simp only [Option.map, Except.map, h4]

/-- C4, counterexample: the 878800 lines `fillLines 439400` take the program, on every stack
that holds two nested calls, to the state `filledState 439400`, in which the parsing context
is the initial one and the 439400 strings of four letters from `BAAA` to `ZZZZ` are
registered. There the header `[ 1 2 3 E/baaa ]`, which `parseMetadata` decodes, followed by
the line `some message` routes no message, and the program does not go on to a next line:
the name `baaa` has no context and `getContextId` does not return for it. -/
theorem C4_exhausted_state_counterexample :
    parseMetadata "[ 1 2 3 E/baaa ]".toList
        = some { values := ["[".toList, "1".toList, "2".toList, "3".toList, "E/baaa".toList,
            "]".toList] }
      ∧ "some message".toList ≠ [] ∧ "some message".toList ≠ ['\n']
      ∧ (filledState 439400).parsingContext = ParsingContext.init
      ∧ ∀ stack, 2 ≤ stack →
          (runOnStack zeroHash stack State.init (fillLines 439400)).next
              = some (.ok (filledState 439400))
            ∧ routedMessages (runOnStack zeroHash stack (filledState 439400)
                ["[ 1 2 3 E/baaa ]".toList, "some message".toList]).events = []
            ∧ ∀ s1, (runOnStack zeroHash stack (filledState 439400)
                ["[ 1 2 3 E/baaa ]".toList, "some message".toList]).next ≠ some (.ok s1) := by
  refine ⟨by decide, by decide, by decide, rfl, ?_⟩
  intro stack hs
  obtain ⟨h1, h2⟩ := exhausted_record zeroHash stack 439400 "some message".toList (by decide)
    (by decide) (fun j g3 g4 => filled_full 439400 j g3 (by norm_num at g4 ⊢; omega))
  exact ⟨runOnStack_fillLines zeroHash stack hs 439400 (by norm_num), h1, h2⟩
/-! ## When `getContextId` does not return -/

/-- A line that completes a record for a name without context, when `getContextId` does not
return: nothing is routed and the program ends, by stack overflow or by the exception. -/
theorem processLineOnStack_stopped (hash : Str → Nat) (stack : Nat) (s : State)
    (lineInput : Str) (metadata : Metadata) (h1 : lineInput ≠ []) (h2 : lineInput ≠ ['\n'])
    (hstep : s.parsingContext.currentStep = .MESSAGE)
    (hmeta : s.parsingContext.metadata_ = some metadata)
    (hl : s.dlt_contexts.lookup metadata.getLogContext.name = none)
    (hid : ∀ r, getContextIdOnStack hash stack s.id_encoder metadata.getLogContext.name
      ≠ some (.ok r)) :
    routedMessages (processLineOnStack hash stack s lineInput).events = []
      ∧ ((getContextIdOnStack hash stack s.id_encoder metadata.getLogContext.name = none
          ∧ (processLineOnStack hash stack s lineInput).next = none)
        ∨ ∃ e, getContextIdOnStack hash stack s.id_encoder metadata.getLogContext.name
            = some (.error e)
          ∧ (processLineOnStack hash stack s lineInput).next = some (.error e)) := by
  obtain ⟨hev, hnext⟩ := processLineOnStack_message hash stack s lineInput metadata h1 h2 hstep
    hmeta
  obtain ⟨hde, hdn⟩ := dispatchOnStack_stopped hash stack
    { s with parsingContext :=
        { step_ := .MESSAGE, metadata_ := some metadata, message_ := some lineInput } } hl hid
  refine ⟨?_, ?_⟩
  · rw [hev, hde]
    rfl
  · rw [hnext]
    rcases hdn with ⟨g1, g2⟩ | ⟨e, g1, g2⟩
    · left
      refine ⟨g1, ?_⟩
      simp only [g2]
    · right
      refine ⟨e, g1, ?_⟩
      simp only [g2]

/-- A line that completes a record for a name that has a context or for which `getContextId`
returns: one message is routed, with the line as text, and the loop goes on. -/
theorem processLineOnStack_routed (hash : Str → Nat) (stack : Nat) (s : State)
    (lineInput : Str) (metadata : Metadata) (h1 : lineInput ≠ []) (h2 : lineInput ≠ ['\n'])
    (hstep : s.parsingContext.currentStep = .MESSAGE)
    (hmeta : s.parsingContext.metadata_ = some metadata)
    (hret : s.dlt_contexts.lookup metadata.getLogContext.name ≠ none
      ∨ ∃ r, getContextIdOnStack hash stack s.id_encoder metadata.getLogContext.name
        = some (.ok r)) :
    ∃ ctx s1,
      routedMessages (processLineOnStack hash stack s lineInput).events
          = [(ctx, metadata.getLogContext.logLevel, lineInput)]
        ∧ (processLineOnStack hash stack s lineInput).next = some (.ok s1) := by
  obtain ⟨hev, hnext⟩ := processLineOnStack_message hash stack s lineInput metadata h1 h2 hstep
    hmeta
  rcases dispatchOnStack_cases hash stack
      { s with parsingContext :=
          { step_ := .MESSAGE, metadata_ := some metadata, message_ := some lineInput } } with
    ⟨hde, hdn⟩ | ⟨hl, hid, -, -⟩
  · rcases dispatch_outcome hash { s with parsingContext :=
        { step_ := .MESSAGE, metadata_ := some metadata, message_ := some lineInput } } with
      ⟨s2, hd⟩ | ⟨-, -, hl, hid⟩
    · obtain ⟨ctx, -, hrouted, -, -⟩ := dispatch_ok hash _ s2 hd
      refine ⟨ctx, { s2 with parsingContext :=
          { step_ := .METADATA, metadata_ := none, message_ := none } }, ?_, ?_⟩
      · rw [hev, hde, hrouted]
        rfl
      · rw [hnext, hdn]
        simp only [hd]
    · exfalso
      rcases hret with hne | ⟨r, hr⟩
      · exact hne hl
      · have := getContextIdOnStack_some hash stack _ _ _ hr
        have hid2 : getContextId hash s.id_encoder metadata.getLogContext.name
            = .error .outOfRange := hid
        rw [hid2] at this
        cases this
  · exfalso
    rcases hret with hne | ⟨r, hr⟩
    · exact hne hl
    · have hid2 : getContextIdOnStack hash stack s.id_encoder metadata.getLogContext.name
          = none := hid
      rw [hr] at hid2
      cases hid2

theorem processLineOnStack_not_corrupted (hash : Str → Nat) (stack : Nat) (s : State)
    (lineInput : Str)
    (hmeta : s.parsingContext.step_ = .MESSAGE → s.parsingContext.metadata_.isSome = true) :
    Event.selfLog DLT_LOG_WARN "Corrupted parsing context".toList
      ∉ (processLineOnStack hash stack s lineInput).events := by
  rcases processLineOnStack_cases hash stack s lineInput with ⟨hev, -⟩ | ⟨-, -, -, -, -, hev, -⟩
  · rw [hev]
    exact processLine_not_corrupted hash s lineInput hmeta
  · rw [hev]
    intro hmem
    simp only [List.mem_cons, List.mem_singleton, List.not_mem_nil, or_false] at hmem
    rcases hmem with hm | hm | hm
    · cases hm
    · cases hm
    · cases hm

/-- C18, as the code has it: in every state that the loop reaches from the initial state no
message is stored, and metadata is stored exactly when the step is `MESSAGE`. So
`isCompleted` holds whenever it is evaluated (in step `MESSAGE`, after `setMessage`), and no
line logs `Corrupted parsing context`. A line that is read in step `MESSAGE` and is neither
empty nor a single newline routes exactly one message, with that line as text, when the name
of the record has a context or `getContextId` returns for it. When the name has no context
and `getContextId` does not return, the line routes nothing and the program ends: with the
exception `outOfRange`, or by the overflow of the call stack. Every other line routes nothing
and the loop goes on. -/
theorem C18_reachable_states (hash : Str → Nat) (stack : Nat) (s : State) (lineInput : Str)
    (hreach : ReachableOnStack hash stack s) :
    (s.parsingContext.message_ = none
        ∧ (s.parsingContext.metadata_.isSome = true ↔ s.parsingContext.step_ = .MESSAGE))
      ∧ (s.parsingContext.step_ = .MESSAGE →
          (s.parsingContext.setMessage lineInput).isCompleted = true)
      ∧ Event.selfLog DLT_LOG_WARN "Corrupted parsing context".toList
          ∉ (processLineOnStack hash stack s lineInput).events
      ∧ (s.parsingContext.step_ = .MESSAGE → lineInput ≠ [] → lineInput ≠ ['\n'] →
          ((s.dlt_contexts.lookup s.parsingContext.metadata.getLogContext.name ≠ none
              ∨ ∃ r, getContextIdOnStack hash stack s.id_encoder
                  s.parsingContext.metadata.getLogContext.name = some (.ok r)) →
            ∃ ctx level s1,
              routedMessages (processLineOnStack hash stack s lineInput).events
                  = [(ctx, level, lineInput)]
                ∧ (processLineOnStack hash stack s lineInput).next = some (.ok s1))
          ∧ (s.dlt_contexts.lookup s.parsingContext.metadata.getLogContext.name = none →
              (∀ r, getContextIdOnStack hash stack s.id_encoder
                  s.parsingContext.metadata.getLogContext.name ≠ some (.ok r)) →
              routedMessages (processLineOnStack hash stack s lineInput).events = []
                ∧ ((getContextIdOnStack hash stack s.id_encoder
                        s.parsingContext.metadata.getLogContext.name
                      = some (.error .outOfRange)
                    ∧ (processLineOnStack hash stack s lineInput).next
                      = some (.error .outOfRange))
                  ∨ (getContextIdOnStack hash stack s.id_encoder
                        s.parsingContext.metadata.getLogContext.name = none
                    ∧ (processLineOnStack hash stack s lineInput).next = none))))
      ∧ (¬ (s.parsingContext.step_ = .MESSAGE ∧ lineInput ≠ [] ∧ lineInput ≠ ['\n']) →
          routedMessages (processLineOnStack hash stack s lineInput).events = []
            ∧ ∃ s1, (processLineOnStack hash stack s lineInput).next = some (.ok s1)) := by
  obtain ⟨hmsg, hmd, hms, -⟩ :=
    reachable_consistent hash s (reachableOnStack_reachable hash stack s hreach)
  have hiff : s.parsingContext.metadata_.isSome = true ↔ s.parsingContext.step_ = .MESSAGE := by
    constructor
    · intro h
      cases hstep : s.parsingContext.step_ with
      | METADATA =>
        rw [hmd hstep] at h
        cases h
      | MESSAGE => rfl
    · exact hms
  refine ⟨⟨hmsg, hiff⟩, ?_, processLineOnStack_not_corrupted hash stack s lineInput hms, ?_, ?_⟩
  · intro hstep
    simp only [ParsingContext.isCompleted, ParsingContext.setMessage, hms hstep,
      Option.isSome_some, Bool.and_self]
  · intro hstep h1 h2
    obtain ⟨metadata, hmeta⟩ := Option.isSome_iff_exists.1 (hms hstep)
    have hm : s.parsingContext.metadata = metadata := by
      simp only [ParsingContext.metadata, hmeta, Option.getD_some]
    rw [hm]
    constructor
    · intro hret
      obtain ⟨ctx, s1, g1, g2⟩ := processLineOnStack_routed hash stack s lineInput metadata h1
        h2 hstep hmeta hret
      exact ⟨ctx, _, s1, g1, g2⟩
    · intro hl hid
      obtain ⟨hrouted, hend⟩ := processLineOnStack_stopped hash stack s lineInput metadata h1
        h2 hstep hmeta hl hid
      refine ⟨hrouted, ?_⟩
      rcases hend with ⟨g1, g2⟩ | ⟨e, g1, g2⟩
      · exact Or.inr ⟨g1, g2⟩
      · have ht := getContextIdOnStack_some hash stack _ _ _ g1
        rcases getContextId_outcome hash s.id_encoder metadata.getLogContext.name with
          ⟨r, hr⟩ | ⟨hout, -, -⟩
        · rw [hr] at ht
          cases ht
        · rw [hout] at ht
          cases ht
          exact Or.inl ⟨g1, g2⟩
  · intro hnot
    rcases processLineOnStack_cases hash stack s lineInput with
      ⟨hev, hnext⟩ | ⟨g1, g2, g3, -⟩
    · rw [hev, hnext]
      by_cases hb : lineInput = [] ∨ lineInput = ['\n']
      · obtain ⟨hev1, hnext1⟩ := processLine_blank hash s lineInput hb
        exact ⟨hev1, _, by rw [hnext1]⟩
      · have h1 : lineInput ≠ [] := fun hc => hb (Or.inl hc)
        have h2 : lineInput ≠ ['\n'] := fun hc => hb (Or.inr hc)
        cases hstep : s.parsingContext.step_ with
        | MESSAGE => exact absurd ⟨hstep, h1, h2⟩ hnot
        | METADATA =>
          cases hparse : parseMetadata lineInput with
          | none =>
            obtain ⟨hev1, hnext1⟩ :=
              processLine_metadata_none hash s lineInput h1 h2 hstep hparse
            exact ⟨hev1, _, by rw [hnext1]⟩
          | some metadata =>
            obtain ⟨hev1, hnext1⟩ :=
              processLine_metadata_some hash s lineInput metadata h1 h2 hstep hparse
            exact ⟨hev1, _, by rw [hnext1]⟩
    · exact absurd ⟨g3, g1, g2⟩ hnot

/-- C18, witness: on a stack that holds two nested calls, after the header
`[ 6252.287 443: 530 E/WifiVendorHal ]` the state is in step `MESSAGE` with metadata stored,
storing the next line completes the record, and the line `some message` routes one message
with that text. -/
theorem C18_reachable_states_witness :
    (runOnStack zeroHash 2 State.init ["[ 6252.287 443: 530 E/WifiVendorHal ]".toList]).next
        = some (.ok { State.init with
            parsingContext :=
              { step_ := .MESSAGE
                metadata_ := parseMetadata "[ 6252.287 443: 530 E/WifiVendorHal ]".toList
                message_ := none } })
      ∧ (({ step_ := .MESSAGE
            metadata_ := parseMetadata "[ 6252.287 443: 530 E/WifiVendorHal ]".toList
            message_ := none } : ParsingContext).setMessage "some message".toList).isCompleted
        = true
      ∧ ∃ ctx level s1,
          routedMessages (processLineOnStack zeroHash 2
              { State.init with
                parsingContext :=
                  { step_ := .MESSAGE
                    metadata_ := parseMetadata "[ 6252.287 443: 530 E/WifiVendorHal ]".toList
                    message_ := none } } "some message".toList).events
            = [(ctx, level, "some message".toList)]
          ∧ (processLineOnStack zeroHash 2
              { State.init with
                parsingContext :=
                  { step_ := .MESSAGE
                    metadata_ := parseMetadata "[ 6252.287 443: 530 E/WifiVendorHal ]".toList
                    message_ := none } } "some message".toList).next = some (.ok s1) := by
  have hrun : (runOnStack zeroHash 2 State.init
      ["[ 6252.287 443: 530 E/WifiVendorHal ]".toList]).next
      = some (.ok { State.init with
          parsingContext :=
            { step_ := .MESSAGE
              metadata_ := parseMetadata "[ 6252.287 443: 530 E/WifiVendorHal ]".toList
              message_ := none } }) := by
    decide
  have hthm := C18_reachable_states zeroHash 2 _ "some message".toList ⟨_, hrun⟩
  exact ⟨hrun, hthm.2.1 rfl,
    (hthm.2.2.2.1 rfl (by decide) (by decide)).1
      (Or.inr ⟨_, getContextIdOnStack_fresh zeroHash 2 _ _ (by decide) (by
        intro hmem
        cases hmem)⟩)⟩

theorem runOnStack_one (hash : Str → Nat) (stack : Nat) (s : State) (l : Str) :
    (runOnStack hash stack s [l]).next = (processLineOnStack hash stack s l).next := by
  simp only [runOnStack]
  cases h : (processLineOnStack hash stack s l).next with
  | none => rfl
  | some r => cases r <;> rfl

/-- On a state `filledState n` in which all four letter codes are registered, the header
`[ 1 2 3 E/baaa ]` is stored, and the line after it routes nothing on any stack and ends the
program. -/
theorem exhausted_line (hash : Str → Nat) (stack n : Nat)
    (hfull : ∀ j, 26 ^ 3 ≤ j → j < 26 ^ 4 →
      intToLetter j ∈ (filledState n).id_encoder.registeredContextIds) :
    (runOnStack hash stack (filledState n) ["[ 1 2 3 E/baaa ]".toList]).next
        = some (.ok { filledState n with
            parsingContext :=
              { step_ := .MESSAGE
                metadata_ := some { values := ["[".toList, "1".toList, "2".toList,
                  "3".toList, "E/baaa".toList, "]".toList] }
                message_ := none } })
      ∧ routedMessages (processLineOnStack hash stack
          { filledState n with
            parsingContext :=
              { step_ := .MESSAGE
                metadata_ := some { values := ["[".toList, "1".toList, "2".toList,
                  "3".toList, "E/baaa".toList, "]".toList] }
                message_ := none } } "overflow".toList).events = []
      ∧ ∀ s1, (processLineOnStack hash stack
          { filledState n with
            parsingContext :=
              { step_ := .MESSAGE
                metadata_ := some { values := ["[".toList, "1".toList, "2".toList,
                  "3".toList, "E/baaa".toList, "]".toList] }
                message_ := none } } "overflow".toList).next ≠ some (.ok s1) := by
  have hparse : parseMetadata "[ 1 2 3 E/baaa ]".toList
      = some { values := ["[".toList, "1".toList, "2".toList, "3".toList, "E/baaa".toList,
          "]".toList] } := by decide
  have hname : ({ values := ["[".toList, "1".toList, "2".toList, "3".toList,
      "E/baaa".toList, "]".toList] } : Metadata).getLogContext.name = "baaa".toList := by
    decide
  have hcand : initialCandidate "baaa".toList = "BAAA".toList := by decide
  have hid : getContextId hash (filledState n).id_encoder "baaa".toList
      = .error .outOfRange := by
    apply getContextId_exhausted
    · rw [hcand]; rfl
    · rw [hcand]; decide
    · rw [hcand]; decide
    · exact hfull
  obtain ⟨-, hnext1⟩ := processLineOnStack_header hash stack (filledState n)
    "[ 1 2 3 E/baaa ]".toList _ rfl hparse
  obtain ⟨hrouted, hend⟩ := processLineOnStack_stopped hash stack
    { filledState n with
      parsingContext :=
        { step_ := .MESSAGE
          metadata_ := some { values := ["[".toList, "1".toList, "2".toList,
            "3".toList, "E/baaa".toList, "]".toList] }
          message_ := none } } "overflow".toList _ (by decide) (by decide) rfl rfl
    (by rw [hname]; exact filled_lookup_lower n)
    (by
      intro r hr
      rw [hname] at hr
      have := getContextIdOnStack_some hash stack _ _ _ hr
      have hid2 : getContextId hash (filledState n).id_encoder "baaa".toList = .ok r := this
      rw [hid] at hid2
      cases hid2)
  refine ⟨?_, hrouted, ?_⟩
  · rw [runOnStack_one, hnext1]
    rfl
  · intro s1 hs1
    rcases hend with ⟨-, g⟩ | ⟨e, -, g⟩
    · rw [g] at hs1
      cases hs1
    · rw [g] at hs1
      cases hs1

/-- C18, counterexample: on every stack that holds two nested calls, the 878800 lines
`fillLines 439400` register the 439400 strings of four letters from `BAAA` to `ZZZZ`, and the
header `[ 1 2 3 E/baaa ]` leaves the loop in step `MESSAGE`. The next line `overflow` is
neither empty nor a newline, but no message is routed for it: the name `baaa` has no context,
its candidate `BAAA` and all alternatives are registered, and `getContextId` does not return,
which ends the program. -/
theorem C18_exhausted_run_counterexample :
    "overflow".toList ≠ [] ∧ "overflow".toList ≠ ['\n']
      ∧ ∀ stack, 2 ≤ stack →
        (runOnStack zeroHash stack State.init
            (fillLines 439400 ++ ["[ 1 2 3 E/baaa ]".toList])).next
          = some (.ok { filledState 439400 with
              parsingContext :=
                { step_ := .MESSAGE
                  metadata_ := some { values := ["[".toList, "1".toList, "2".toList,
                    "3".toList, "E/baaa".toList, "]".toList] }
                  message_ := none } })
        ∧ routedMessages (processLineOnStack zeroHash stack
            { filledState 439400 with
              parsingContext :=
                { step_ := .MESSAGE
                  metadata_ := some { values := ["[".toList, "1".toList, "2".toList,
                    "3".toList, "E/baaa".toList, "]".toList] }
                  message_ := none } } "overflow".toList).events = []
        ∧ ∀ s1, (processLineOnStack zeroHash stack
            { filledState 439400 with
              parsingContext :=
                { step_ := .MESSAGE
                  metadata_ := some { values := ["[".toList, "1".toList, "2".toList,
                    "3".toList, "E/baaa".toList, "]".toList] }
                  message_ := none } } "overflow".toList).next ≠ some (.ok s1) := by
  refine ⟨by decide, by decide, ?_⟩
  intro stack hs
  have hfill := runOnStack_fillLines zeroHash stack hs 439400 (by norm_num)
  obtain ⟨h1, h2, h3⟩ := exhausted_line zeroHash stack 439400
    (fun j g3 g4 => filled_full 439400 j g3 (by norm_num at g4 ⊢; omega))
  refine ⟨?_, h2, h3⟩
  rw [runOnStack_append zeroHash stack _ _ _ _ hfill]
  exact h1

end LogcatDlt
